import Mathlib

/-!
# Verification of the jaison fault-tolerant JSON decoder core

Shallow embedding of the two-stage pipeline of the `jaison` package:

* the character-level tokenizer (`lib/tokenizer.ts`: `tokenize`,
  `parseStringToken`, `parsePunctuationToken`, `parseNumberToken`,
  `parseIdentifierToken`, `skipComment`), and
* the stack-based token parser (`lib/parser.ts`: `parse`,
  `handleBracketToken`, `createObjectContainer` / `createArrayContainer`,
  `closeContainer`, `handleObjectKey`, `handlePunctuationToken`,
  `parseValueToken`, `parseIdentifierValue`, `parseStringValue`,
  `parseNumberValue`, `assignValue`, `handleUnclosedContainers`), with the
  alias tables from `lib/constants.ts`.

Modelling conventions:

* JavaScript strings are modelled as `List Char` (Unicode scalar values; the
  UTF-16 surrogate-pair representation of astral characters is below the
  abstraction level of this development).
* JavaScript numbers are modelled exactly: `JsNumber` is either `nan` or an
  exact rational.  IEEE-754 rounding of decimal literals is not modelled; the
  decimal-to-number functions (`parseInt`, `parseFloat`) are modelled as exact
  rational-valued functions with JavaScript's longest-valid-prefix behaviour.
* Loops with a cursor advancing through the input are modelled as structural
  recursion on the remaining input; the top-level scanning loops, whose body
  advances the cursor by a computed amount, take a fuel argument that the
  wrappers instantiate with `length + 1`, which is enough because every
  iteration consumes at least one element.
* JavaScript objects are modelled as ordered association lists
  (`List (List Char × JVal)`); property assignment is `objAssign`
  (overwrite in place at the first occurrence of the key, else append).
* The source links a child container into its parent at creation time through
  a shared mutable reference.  The pure embedding instead records the link in
  the child's frame (`Frame.link`) and attaches the child's value to the
  parent when the child is popped (or at end of input).  This is
  observationally equal because the parser never mutates a parent container
  while a child is on top of it on the stack.
-/

namespace Jaison

/-! ## Character classes (from the regexes of `lib/tokenizer.ts`) -/

/-- `\d` of the tokenizer's regexes. -/
def isDigit (c : Char) : Bool := '0' ≤ c && c ≤ '9'

/-- `[0-9a-fA-F]` (hexadecimal digit run of `parseNumberToken`). -/
def isHexDigit (c : Char) : Bool :=
  isDigit c || ('a' ≤ c && c ≤ 'f') || ('A' ≤ c && c ≤ 'F')

/-- `[0-7]` (octal digit run of `parseNumberToken`). -/
def isOctDigit (c : Char) : Bool := '0' ≤ c && c ≤ '7'

/-- `[01]` (binary digit run of `parseNumberToken`). -/
def isBinDigit (c : Char) : Bool := c = '0' || c = '1'

/-- `[\d.eE+-]`, the permissive decimal-number character class of
`parseNumberToken`. -/
def isDecNumChar (c : Char) : Bool :=
  isDigit c || c = '.' || c = 'e' || c = 'E' || c = '+' || c = '-'

/-- JavaScript's regex `\s` class (used in `parseIdentifierToken`'s stop set). -/
def isJsWs (c : Char) : Bool :=
  c = '\t' || c = '\n' || c = '\x0b' || c = '\x0c' || c = '\r' || c = ' ' ||
  c = '\u00A0' || c = '\u1680' || ('\u2000' ≤ c && c ≤ '\u200A') ||
  c = '\u2028' || c = '\u2029' || c = '\u202F' || c = '\u205F' ||
  c = '\u3000' || c = '\uFEFF'

/-- The stop set `["{}[\],:：，\s]` of `parseIdentifierToken`. -/
def isIdentStop (c : Char) : Bool :=
  c = '"' || c = '{' || c = '}' || c = '[' || c = ']' || c = ',' || c = ':' ||
  c = '：' || c = '，' || isJsWs c

/-- `["']` of the bad-escape lookbehind regex. -/
def isQuoteChar (c : Char) : Bool := c = '"' || c = '\''

/-- `[,:]` of the bad-escape lookbehind regex. -/
def isSepChar (c : Char) : Bool := c = ',' || c = ':'

/-! ## Tokens (`lib/constants.ts` `TOKEN_TYPES`, `lib/tokenizer.ts` `Token`) -/

/-- Token kinds (`TOKEN_TYPES`; `COMMENT` is never emitted and is omitted). -/
inductive TType where
  | str | bracket | punct | num | ident
deriving DecidableEq, Repr

/-- A token (`Token` interface).  The `radix`/`isNegative`/`isPositive`
fields are only meaningful on `num` tokens, as in the source. -/
structure Token where
  type : TType
  value : List Char
  radix : Nat := 10
  isNegative : Bool := false
  isPositive : Bool := false
deriving DecidableEq, Repr

/-! ## String tokens (`parseStringToken` and its caller) -/

/-- Result of the string scan, as in the source's `StringTokenResult`:
the (not yet re-quoted) token text, the input remaining after `newPos`,
and the `skippedBadEscape` flag. -/
structure StrScanResult where
  tokenValue : List Char
  remaining : List Char
  skippedBadEscape : Bool
deriving DecidableEq, Repr

/-- The lookbehind regex `/\\["']([,:])?$/` of `parseStringToken`, applied to
the already-scanned content.  The argument is the scanned content in
*reverse* order; the result is the length of the matched suffix (`2` for
`\"`-style, `3` for `\",`-style), i.e. the distance from the match index to
the newline. -/
def matchEscSuffix : List Char → Option Nat
  | s1 :: s2 :: s3 :: _ =>
      if isSepChar s1 && isQuoteChar s2 && s3 = '\\' then some 3
      else if isQuoteChar s1 && s2 = '\\' then some 2
      else none
  | [s1, s2] => if isQuoteChar s1 && s2 = '\\' then some 2 else none
  | _ => none

/-- The scanning loop of `parseStringToken`.  `seen` is the content scanned
so far (reversed), `cur` is the input from the cursor on.  The escape case
advances by two; the newline case consults `matchEscSuffix` and either
terminates early before the backslash or treats the newline as content. -/
def stringScan (quote : Char) (seen : List Char) : List Char → StrScanResult
  | [] =>
      -- end of input: handle a missing closing quote (`endsWith` check)
      let tokenValue := quote :: seen.reverse
      { tokenValue :=
          if tokenValue.getLast? = some quote then tokenValue
          else tokenValue ++ [quote],
        remaining := [], skippedBadEscape := false }
  | c :: tl =>
      if c = quote then
        { tokenValue := quote :: seen.reverse ++ [quote],
          remaining := tl, skippedBadEscape := false }
      else if c = '\\' then
        match tl with
        | c2 :: tl2 => stringScan quote (c2 :: '\\' :: seen) tl2
        | [] => stringScan quote ('\\' :: seen) []
      else if c = '\n' || c = '\r' then
        match matchEscSuffix seen with
        | some k =>
            { tokenValue := quote :: (seen.drop k).reverse ++ [quote],
              remaining := (seen.take k).reverse ++ c :: tl,
              skippedBadEscape := true }
        | none => stringScan quote (c :: seen) tl
      else stringScan quote (c :: seen) tl

/-- The inner loop of the single-quote normalization: escape double quotes
that are not already escaped in the original content (the check
`innerContent[i - 1] !== '\\'` looks at the *original* previous character,
passed here as `prev`). -/
def escapeInnerDoubles (prev : Option Char) : List Char → List Char
  | [] => []
  | c :: tl =>
      if c = '"' then
        (if prev = some '\\' then [c] else ['\\', '"']) ++
          escapeInnerDoubles (some c) tl
      else c :: escapeInnerDoubles (some c) tl

/-- Build the final string token from the raw scanned text: single-quoted
content is renormalized to a double-quoted token. -/
def mkStringToken (quote : Char) (raw : List Char) : Token :=
  if quote = '\'' then
    { type := .str,
      value := '"' :: escapeInnerDoubles none (raw.drop 1).dropLast ++ ['"'] }
  else { type := .str, value := raw }

/-- The caller-side skip after a bad-escape early termination (`tokenize`,
after `parseStringToken` returns `skippedBadEscape`): skip `\"` or `\'`,
then an optional `,` or `:`. -/
def badEscapeSkip (cs : List Char) : List Char :=
  match cs with
  | c :: q :: tl =>
      if c = '\\' && (q = '"' || q = '\'') then
        match tl with
        | s :: tl2 => if s = ',' || s = ':' then tl2 else s :: tl2
        | [] => []
      else cs
  | _ => cs

/-! ## Punctuation, numbers, identifiers, comments -/

/-- `parsePunctuationToken`: Chinese punctuation is normalized to ASCII. -/
def normalizePunct (c : Char) : Char :=
  if c = '：' then ':' else if c = '，' then ',' else c

/-- `parseIdentifierToken`: scan a run of non-stop characters; on an empty
run the unrecognized character is skipped (`newPos = startPos + 1`) and no
token is produced. -/
def identScan (cs : List Char) : Option Token × List Char :=
  let run := cs.takeWhile (fun c => !isIdentStop c)
  if run.isEmpty then (none, cs.drop 1)
  else (some { type := .ident, value := run }, cs.dropWhile (fun c => !isIdentStop c))

/-- `parseNumberToken`: optional sign, then radix detection (`0x`/`0o`/`0b`)
or a permissive decimal run; bare signs and dots fall back to
`parseIdentifierToken` applied at the original start position. -/
def numScan (cs : List Char) : Option Token × List Char :=
  let isNeg := cs.head? = some '-'
  let isPos := cs.head? = some '+'
  let cs1 := if isNeg || isPos then cs.drop 1 else cs
  match cs1 with
  | [] => identScan cs      -- just a sign: treat as identifier
  | first :: tl =>
    if first = '.' then
      -- number starting with a dot (`.123`), possibly after a sign
      match tl with
      | d :: _ =>
        if isDigit d then
          let run := tl.takeWhile isDecNumChar
          (some { type := .num, value := '.' :: run, radix := 10,
                  isNegative := isNeg, isPositive := isPos },
           tl.dropWhile isDecNumChar)
        else identScan cs
      | [] => identScan cs
    else if isDigit first then
      match tl with
      | x :: tl2 =>
        if first = '0' && (x = 'x' || x = 'X') then
          let run := tl2.takeWhile isHexDigit
          (some { type := .num, value := '0' :: x :: run, radix := 16,
                  isNegative := isNeg, isPositive := isPos },
           tl2.dropWhile isHexDigit)
        else if first = '0' && (x = 'o' || x = 'O') then
          let run := tl2.takeWhile isOctDigit
          (some { type := .num, value := '0' :: x :: run, radix := 8,
                  isNegative := isNeg, isPositive := isPos },
           tl2.dropWhile isOctDigit)
        else if first = '0' && (x = 'b' || x = 'B') then
          let run := tl2.takeWhile isBinDigit
          (some { type := .num, value := '0' :: x :: run, radix := 2,
                  isNegative := isNeg, isPositive := isPos },
           tl2.dropWhile isBinDigit)
        else
          let run := (first :: tl).takeWhile isDecNumChar
          (some { type := .num, value := run, radix := 10,
                  isNegative := isNeg, isPositive := isPos },
           (first :: tl).dropWhile isDecNumChar)
      | [] =>
          let run := [first].takeWhile isDecNumChar
          (some { type := .num, value := run, radix := 10,
                  isNegative := isNeg, isPositive := isPos },
           [first].dropWhile isDecNumChar)
    else identScan cs

/-- `skipComment`, single-line case: skip to the end of the line, then past
the newline (handling Windows-style `\r\n`). -/
def lineCommentSkip : List Char → List Char
  | [] => []
  | c :: tl =>
      if c = '\n' then tl
      else if c = '\r' then
        match tl with
        | '\n' :: tl2 => tl2
        | _ => tl
      else lineCommentSkip tl

/-- `skipComment`, block case: scan for `*/` while two characters remain,
then run the source's `pos >= len - 1` endgame test.  After a terminator
the cursor has passed the `*/`, so the test character pair is `/` plus the
next character and never matches: when at most one character follows the
terminator it is swallowed (`pos = len`, e.g. `/**/x` consumes the `x`).
Without a terminator the endgame keeps the cursor in place only when the
last examined pair (`prev` is the previously examined character) already
forms `*/` (e.g. `/*/` leaves the final `/`), otherwise the unterminated
comment consumes the rest of the input. -/
def blockCommentSkip (prev : Char) : List Char → List Char
  | a :: b :: tl =>
      if a = '*' && b = '/' then
        match tl with
        | _ :: _ :: _ => tl
        | _ => []
      else blockCommentSkip a (b :: tl)
  | ['/'] => if prev = '*' then ['/'] else []
  | _ => []

/-! ## The tokenizer main loop (`tokenize`) -/

/-- The single forward scan of `tokenize`.  Each iteration consumes at least
one character, so the fuel used by `tokenize` below never runs out. -/
def tokenizeLoop : Nat → List Char → List Token
  | 0, _ => []
  | _, [] => []
  | fuel + 1, c :: tl =>
    if c.toNat ≤ 32 then tokenizeLoop fuel tl        -- `char <= ' '`
    else if c = '/' && tl.head? = some '/' then
      tokenizeLoop fuel (lineCommentSkip (tl.drop 1))
    else if c = '/' && tl.head? = some '*' then
      tokenizeLoop fuel (blockCommentSkip '*' (tl.drop 1))
    else if c = '"' || c = '\'' then
      let r := stringScan c [] tl
      let rem := if r.skippedBadEscape then badEscapeSkip r.remaining else r.remaining
      mkStringToken c r.tokenValue :: tokenizeLoop fuel rem
    else if c = '{' || c = '}' || c = '[' || c = ']' then
      { type := .bracket, value := [c] } :: tokenizeLoop fuel tl
    else if c = ',' || c = ':' || c = '：' || c = '，' then
      { type := .punct, value := [normalizePunct c] } :: tokenizeLoop fuel tl
    else if isDigit c || c = '-' || c = '+' || c = '.' then
      match numScan (c :: tl) with
      | (some tok, rest) => tok :: tokenizeLoop fuel rest
      | (none, rest) => tokenizeLoop fuel rest
    else
      match identScan (c :: tl) with
      | (some tok, rest) => tok :: tokenizeLoop fuel rest
      | (none, rest) => tokenizeLoop fuel rest

/-- `tokenize`: the whole token sequence of the input. -/
def tokenize (cs : List Char) : List Token := tokenizeLoop (cs.length + 1) cs

/-! ## Decoded values -/

/-- A JavaScript number: `NaN`, or an exact rational (see the modelling
conventions in the header). -/
inductive JsNumber where
  | nan
  | val (q : ℚ)
deriving DecidableEq, Repr

/-! Rational arithmetic helpers.  The Batteries field operations on `ℚ` are
marked irreducible, which blocks kernel evaluation of concrete decodes, so
the embedding computes with `mkRat` (which does reduce); the bridging lemmas
`qadd_eq_add` etc. below prove these helpers equal to the field
operations. -/

/-- Rational addition via `mkRat` (equals `a + b`, see `qadd_eq_add`). -/
def qadd (a b : ℚ) : ℚ := mkRat (a.num * b.den + b.num * a.den) (a.den * b.den)

/-- Rational multiplication via `mkRat` (equals `a * b`, see `qmul_eq_mul`). -/
def qmul (a b : ℚ) : ℚ := mkRat (a.num * b.num) (a.den * b.den)

/-- Rational inverse via `mkRat` (equals `b⁻¹`, see `qinv_eq_inv`). -/
def qinv (b : ℚ) : ℚ :=
  mkRat (if 0 ≤ b.num then (b.den : Int) else -(b.den : Int)) b.num.natAbs

/-- Rational division via `mkRat` (equals `a / b`, see `qdiv_eq_div`). -/
def qdiv (a b : ℚ) : ℚ := qmul a (qinv b)

/-- Rational natural power (equals `a ^ n`, see `qpow_eq_pow`). -/
def qpow (a : ℚ) : Nat → ℚ
  | 0 => 1
  | n + 1 => qmul a (qpow a n)

/-- Rational integer power (equals `a ^ z`, see `qzpow_eq_zpow`). -/
def qzpow (a : ℚ) : Int → ℚ
  | .ofNat n => qpow a n
  | .negSucc n => qinv (qpow a (n + 1))

/-- Unary minus on a JavaScript number (`value = -value`). -/
def JsNumber.neg : JsNumber → JsNumber
  | .nan => .nan
  | .val q => .val (-q)

/-- A decoded value: string, number, boolean, `null`, the distinct
`undefined` marker, ordered mapping, or ordered sequence. -/
inductive JVal where
  | jnull
  | jundef
  | jbool (b : Bool)
  | jnum (n : JsNumber)
  | jstr (s : List Char)
  | jarr (elems : List JVal)
  | jobj (fields : List (List Char × JVal))
deriving Repr

/-! ## Leaf decoding: numbers (`parseNumberValue`) -/

/-- Numeric value of a single digit character (as used by `parseInt`). -/
def digitVal (c : Char) : Nat :=
  if isDigit c then c.toNat - 48
  else if 'a' ≤ c && c ≤ 'z' then c.toNat - 97 + 10
  else if 'A' ≤ c && c ≤ 'Z' then c.toNat - 65 + 10
  else 0

/-- Value of a digit run in the given radix. -/
def digitsVal (radix : Nat) (ds : List Char) : Nat :=
  ds.foldl (fun a c => a * radix + digitVal c) 0

/-- The digit class accepted by `parseInt` at the given radix. -/
def isRadixDigit (radix : Nat) (c : Char) : Bool :=
  if radix = 16 then isHexDigit c
  else if radix = 8 then isOctDigit c
  else if radix = 2 then isBinDigit c
  else isDigit c

/-- Model of JavaScript `parseInt(s, radix)` for the radices used by
`parseNumberValue` (2, 8, 16): skip whitespace, take an optional sign, strip
a `0x`/`0X` prefix when the radix is 16, then read the longest run of digits
of the radix; `NaN` when that run is empty. -/
def jsParseInt (radix : Nat) (s : List Char) : JsNumber :=
  let s1 := s.dropWhile isJsWs
  let neg := s1.head? = some '-'
  let s2 := if neg || s1.head? = some '+' then s1.drop 1 else s1
  let s3 :=
    if radix = 16 then
      match s2 with
      | '0' :: x :: tl => if x = 'x' || x = 'X' then tl else s2
      | _ => s2
    else s2
  let run := s3.takeWhile (isRadixDigit radix)
  if run.isEmpty then .nan
  else
    .val (if neg then Rat.neg (digitsVal radix run : ℚ)
          else (digitsVal radix run : ℚ))

/-- Model of JavaScript `parseFloat` on the character set a decimal NUMBER
token can contain (digits, `.`, `e`, `E`, `+`, `-`): the longest valid
decimal-literal prefix — integer digits, an optional fraction, and an
exponent that only counts when it has at least one digit — and `NaN` when
there is no digit before the exponent position.  (`Infinity` and leading
whitespace cannot occur in a NUMBER token's text.) -/
def jsParseFloat (s : List Char) : JsNumber :=
  let neg := s.head? = some '-'
  let s1 := if neg || s.head? = some '+' then s.drop 1 else s
  let ip := s1.takeWhile isDigit
  let s2 := s1.dropWhile isDigit
  let hasDot := s2.head? = some '.'
  let fp := if hasDot then (s2.drop 1).takeWhile isDigit else []
  let s3 := if hasDot then (s2.drop 1).dropWhile isDigit else s2
  let ex : Int :=
    match s3 with
    | e :: tl =>
      if e = 'e' || e = 'E' then
        let esgn := tl.head? = some '-'
        let tl1 := if esgn || tl.head? = some '+' then tl.drop 1 else tl
        let ed := tl1.takeWhile isDigit
        if ed.isEmpty then 0
        else (if esgn then -1 else 1) * (digitsVal 10 ed : Int)
      else 0
    | [] => 0
  if ip.isEmpty && fp.isEmpty then .nan
  else
    let mag :=
      qmul (qadd (digitsVal 10 ip : ℚ)
                 (qdiv (digitsVal 10 fp : ℚ) (qpow 10 fp.length)))
           (qzpow 10 ex)
    .val (if neg then Rat.neg mag else mag)

/-- `parseNumberValue`: radix-appropriate integer parse for hex/octal/binary
(the `0o`/`0b` prefixes are sliced off, the `0x` prefix is left for
`parseInt(_, 16)` to strip), `parseFloat` for decimal, then negation for a
negative sign. -/
def parseNumberValue (t : Token) : JsNumber :=
  let value :=
    if t.radix = 16 then jsParseInt 16 t.value
    else if t.radix = 8 then jsParseInt 8 (t.value.drop 2)
    else if t.radix = 2 then jsParseInt 2 (t.value.drop 2)
    else jsParseFloat t.value
  if t.isNegative then value.neg else value

/-! ## Leaf decoding: strings (`parseStringValue`) -/

/-- Parse failures of the token parser (the messages thrown by
`lib/parser.ts`, plus the `JSON.parse` failures propagated out of
`parseStringValue`). -/
inductive PError where
  /-- message: Unmatched closing brace -/
  | unmatchedBrace
  /-- message: Unmatched closing bracket "]" -/
  | unmatchedBracket
  /-- message: Unexpected token "..." when expecting a key in an object -/
  | unexpectedKeyToken (v : List Char)
  /-- message: Unexpected punctuation outside of object or array context -/
  | unexpectedPunct
  /-- a `JSON.parse` failure inside `parseStringValue` -/
  | stringDecode
  /-- fuel exhaustion of the embedded loop; unreachable at the fuel used
  by `parseTokens` -/
  | fuelOut
deriving DecidableEq, Repr

/-- Lowercase hexadecimal digit character (`code.toString(16)`). -/
def hexDigitChar (n : Nat) : Char :=
  if n < 10 then Char.ofNat (48 + n) else Char.ofNat (87 + n)

/-- The control-character pre-escaping of `parseStringValue`: a character
with code 0–31 becomes its six-character `\u00XX` escape text. -/
def ctrlEscape (c : Char) : List Char :=
  if c.toNat ≤ 31 then
    ['\\', 'u', '0', '0', hexDigitChar (c.toNat / 16), hexDigitChar (c.toNat % 16)]
  else [c]

/-- Apply `ctrlEscape` across a string (the `replace(/[\x00-\x1F]/g, ...)`). -/
def escapeCtrl (s : List Char) : List Char := s.flatMap ctrlEscape

/-- Hexadecimal digit value for `\u` escapes, `none` on a non-hex digit. -/
def hexVal? (c : Char) : Option Nat :=
  if isDigit c then some (c.toNat - 48)
  else if 'a' ≤ c && c ≤ 'f' then some (c.toNat - 87)
  else if 'A' ≤ c && c ≤ 'F' then some (c.toNat - 55)
  else none

/-- The single-character JSON escapes accepted by `JSON.parse`. -/
def jsonUnescape : Char → Option Char
  | '"' => some '"'
  | '\\' => some '\\'
  | '/' => some '/'
  | 'b' => some '\x08'
  | 'f' => some '\x0c'
  | 'n' => some '\n'
  | 'r' => some '\r'
  | 't' => some '\t'
  | _ => none

/-- `JSON.parse` on the body of a string literal (after the opening quote):
strict escape rules, a literal control character or an invalid/incomplete
escape is an error, and nothing may follow the closing quote. -/
def jsonStrAux (acc : List Char) : List Char → Except PError (List Char)
  | [] => .error .stringDecode
  | '"' :: rest => if rest = [] then .ok acc.reverse else .error .stringDecode
  | '\\' :: 'u' :: rest =>
      match rest with
      | a :: b :: c :: d :: tl =>
        match hexVal? a, hexVal? b, hexVal? c, hexVal? d with
        | some va, some vb, some vc, some vd =>
            jsonStrAux (Char.ofNat (((va * 16 + vb) * 16 + vc) * 16 + vd) :: acc) tl
        | _, _, _, _ => .error .stringDecode
      | _ => .error .stringDecode
  | '\\' :: e :: rest =>
      match jsonUnescape e with
      | some ch => jsonStrAux (ch :: acc) rest
      | none => .error .stringDecode
  | ['\\'] => .error .stringDecode
  | c :: rest =>
      if c.toNat ≤ 31 then .error .stringDecode else jsonStrAux (c :: acc) rest

/-- `parseStringValue`: escape literal control characters to `\u00XX` form,
then decode the result as a strict JSON string literal (`JSON.parse`). -/
def parseStringValue (t : Token) : Except PError (List Char) :=
  match escapeCtrl t.value with
  | '"' :: rest => jsonStrAux [] rest
  | _ => .error .stringDecode

/-! ## Leaf decoding: identifiers (`parseIdentifierValue`, `lib/constants.ts`) -/

/-- `TRUE_ALIAS` from `lib/constants.ts`. -/
def TRUE_ALIAS : List (List Char) := ["t", "tr", "tru", "true"].map String.toList

/-- `FALSE_ALIAS` from `lib/constants.ts`. -/
def FALSE_ALIAS : List (List Char) :=
  ["f", "fa", "fal", "fals", "false"].map String.toList

/-- `NULL_ALIAS` from `lib/constants.ts`. -/
def NULL_ALIAS : List (List Char) :=
  ["n", "nu", "nul", "null", "no", "non", "none", "nil", "nill"].map String.toList

/-- `UNDEFINED_ALIAS` from `lib/constants.ts`. -/
def UNDEFINED_ALIAS : List (List Char) :=
  ["u", "un", "und", "unde", "undef", "undefi", "undefin", "undefined"].map
    String.toList

/-- `toLowerCase` (ASCII; the alias tables are all ASCII, see header). -/
def asciiLower (s : List Char) : List Char := s.map Char.toLower

/-- `parseIdentifierValue`: lower-case and match against the alias tables;
an unrecognized identifier is an unquoted string equal to its own text. -/
def parseIdentifierValue (t : Token) : JVal :=
  let lower := asciiLower t.value
  if lower ∈ TRUE_ALIAS then .jbool true
  else if lower ∈ FALSE_ALIAS then .jbool false
  else if lower ∈ NULL_ALIAS then .jnull
  else if lower ∈ UNDEFINED_ALIAS then .jundef
  else .jstr t.value

/-- `parseValueToken`: dispatch a value token to its leaf decoder. -/
def parseValueToken (t : Token) : Except PError JVal :=
  match t.type with
  | .ident => .ok (parseIdentifierValue t)
  | .str => (parseStringValue t).map .jstr
  | .num => .ok (.jnum (parseNumberValue t))
  | _ => .ok .jnull

/-! ## Containers and the parser stack (`lib/parser.ts`) -/

/-- The payload of a container (`Container.value`): an ordered mapping for
OBJECT, an ordered sequence for ARRAY.  The shape tag `Container.type` of
the source is the constructor. -/
inductive CVal where
  | obj (fields : List (List Char × JVal))
  | arr (elems : List JVal)
deriving Repr

/-- How a frame is linked into its parent (recorded at creation time; the
source instead links the shared mutable `value` reference immediately). -/
inductive PLink where
  /-- linked into the parent object at the pending key consumed at creation -/
  | intoKey (k : List Char)
  /-- appended to the parent array -/
  | intoArr
deriving Repr

/-- A container on the parser's stack (`Container`): payload, the optional
pending key `_key`, and the link into the parent.  `link = none` for the
bottom frame and for a container created while the current object had no
pending key (which the source never links anywhere). -/
structure Frame where
  cval : CVal
  key : Option (List Char) := none
  link : Option PLink := none
deriving Repr

/-- The payload of a container as a decoded value. -/
def cvalToJ : CVal → JVal
  | .obj fields => .jobj fields
  | .arr elems => .jarr elems

/-- JavaScript object property assignment `value[k] = v` on the ordered
mapping: overwrite in place at the first occurrence of the key, otherwise
append a new entry at the end. -/
def objAssign (k : List Char) (v : JVal) : List (List Char × JVal) →
    List (List Char × JVal)
  | [] => [(k, v)]
  | (k', v') :: tl => if k' = k then (k, v) :: tl else (k', v') :: objAssign k v tl

/-- `createObjectContainer` / `createArrayContainer`: build the new frame,
record how it links into the parent, consume the parent's pending key when
it is used for the link, and push. -/
def pushContainer (cv : CVal) (stack : List Frame) : List Frame :=
  match stack with
  | [] => [{ cval := cv }]
  | parent :: tl =>
    match parent.cval, parent.key with
    | .obj _, some k =>
        { cval := cv, link := some (.intoKey k) } ::
          { parent with key := none } :: tl
    | .obj _, none => { cval := cv } :: parent :: tl    -- orphan: never linked
    | .arr _, _ => { cval := cv, link := some .intoArr } :: parent :: tl

/-- Attach a popped child frame's value into its parent frame, following the
link recorded at creation (the source performed this assignment at creation
time through the aliased reference; see the header). -/
def attach (parent child : Frame) : Frame :=
  match child.link with
  | some (.intoKey k) =>
      match parent.cval with
      | .obj fields => { parent with cval := .obj (objAssign k (cvalToJ child.cval) fields) }
      | .arr _ => parent
  | some .intoArr =>
      match parent.cval with
      | .arr elems => { parent with cval := .arr (elems ++ [cvalToJ child.cval]) }
      | .obj _ => parent
  | none => parent

/-- `assignValue` on the current container: object — assign at the pending
key and clear it (the pending key is always set when a value token is
assigned in an object; the `"undefined"` default mirrors the JavaScript
`value[undefined]` that would occur otherwise); array — append. -/
def Frame.assignVal (f : Frame) (v : JVal) : Frame :=
  match f.cval with
  | .obj fields =>
      { f with cval := .obj (objAssign (f.key.getD "undefined".toList) v fields),
               key := none }
  | .arr elems => { f with cval := .arr (elems ++ [v]) }

/-- The `skipNext` lookahead (`tokens[index + 1].value === ','`): silently
consume a following comma token. -/
def dropComma (ts : List Token) : List Token :=
  match ts with
  | t :: tl => if t.value = [','] then tl else t :: tl
  | [] => []

/-- `handleObjectKey`: a STRING token's decoded text is the key (string
decoding may fail); a NUMBER's or IDENTIFIER's literal text is the key,
with a NUMBER's sign prepended; a comma is skipped (`none`); anything else
is a structural error. -/
def handleObjectKey (t : Token) : Except PError (Option (List Char)) :=
  match t.type with
  | .str => (parseStringValue t).map some
  | .num =>
      if t.isNegative then .ok (some ('-' :: t.value))
      else if t.isPositive then .ok (some ('+' :: t.value))
      else .ok (some t.value)
  | .ident => .ok (some t.value)
  | .punct =>
      if t.value = [','] then .ok none else .error (.unexpectedKeyToken t.value)
  | .bracket => .error (.unexpectedKeyToken t.value)

/-- Whether the current container is an object waiting for a key. -/
def isKeylessObj (stack : List Frame) : Bool :=
  match stack with
  | f :: _ => (match f.cval with | .obj _ => true | .arr _ => false) && f.key.isNone
  | [] => false

/-- Set the pending key of the current container. -/
def setKey (k : List Char) (stack : List Frame) : List Frame :=
  match stack with
  | f :: tl => { f with key := some k } :: tl
  | [] => []

/-- Comma in value position (`handlePunctuationToken`): push a `null`
placeholder only when the current container is an ARRAY. -/
def commaPush (stack : List Frame) : List Frame :=
  match stack with
  | f :: tl =>
      (match f.cval with
       | .arr elems => { f with cval := .arr (elems ++ [JVal.jnull]) }
       | .obj _ => f) :: tl
  | [] => []

/-- Resolve the current object's pending key to `null` (shared by the colon
repair of `handlePunctuationToken` and by `handleUnclosedContainers`). -/
def resolveKeyNull (stack : List Frame) : List Frame :=
  match stack with
  | f :: tl =>
      (match f.cval, f.key with
       | .obj fields, some k =>
           { f with cval := CVal.obj (objAssign k .jnull fields), key := none }
       | _, _ => f) :: tl
  | [] => []

/-- Colon in value position (`handlePunctuationToken`): when the next token
is a comma or a closing brace, or the colon is the last token, the pending
key is completed with `null` immediately. -/
def colonFix (rest : List Token) (stack : List Frame) : List Frame :=
  match rest with
  | nt :: _ =>
      if nt.value = [','] || nt.value = ['}'] then resolveKeyNull stack else stack
  | [] => resolveKeyNull stack

/-- Fold the remaining open frames into the bottom frame's value (in the
source the values are already shared with the parents; see the header). -/
def collapseStack : List Frame → JVal
  | [] => .jundef
  | f :: tl => cvalToJ (tl.foldl (fun child parent => attach parent child) f).cval

/-- `handleUnclosedContainers`: resolve a pending key on the innermost
object to `null` and yield the outermost container's value; the distinct
`undefined` marker when no container was ever pushed. -/
def handleUnclosedContainers (stack : List Frame) : JVal :=
  match stack with
  | [] => .jundef
  | _ :: _ => collapseStack (resolveKeyNull stack)

/-- Is a token an IDENTIFIER (for the consecutive-identifier merge)? -/
def isIdentTok (t : Token) : Bool := t.type = .ident

/-- `identifierValues.join(' ')`. -/
def joinSpace : List (List Char) → List Char
  | [] => []
  | [x] => x
  | x :: xs => x ++ ' ' :: joinSpace xs

/-- The token-processing loop of `parse`, one token per iteration:
brackets (container creation / closing), object-key position, punctuation
repairs, then value tokens with the consecutive-identifier merge, with
`skipNext` comma consumption after assignments and closes.  Fuel is
structural; `parseTokens` supplies enough for the whole stream. -/
def parseLoop : Nat → List Token → List Frame → Except PError JVal
  | 0, _, _ => .error .fuelOut
  | _ + 1, [], stack => .ok (handleUnclosedContainers stack)
  | fuel + 1, t :: rest, stack =>
    if t.type = .bracket then
      if t.value = ['{'] then parseLoop fuel rest (pushContainer (.obj []) stack)
      else if t.value = ['['] then parseLoop fuel rest (pushContainer (.arr []) stack)
      else if t.value = ['}'] || t.value = [']'] then
        match stack with
        | [] => .error (if t.value = ['}'] then .unmatchedBrace else .unmatchedBracket)
        | [f] => .ok (cvalToJ f.cval)
        | f :: g :: tl => parseLoop fuel (dropComma rest) (attach g f :: tl)
      else parseLoop fuel rest stack
    else if isKeylessObj stack then
      match handleObjectKey t with
      | .error e => .error e
      | .ok (some k) => parseLoop fuel rest (setKey k stack)
      | .ok none => parseLoop fuel rest stack
    else if t.type = .punct then
      if stack.isEmpty then .error .unexpectedPunct
      else if t.value = [','] then parseLoop fuel rest (commaPush stack)
      else if t.value = [':'] then parseLoop fuel rest (colonFix rest stack)
      else parseLoop fuel rest stack
    else
      -- value token (STRING / NUMBER / IDENTIFIER)
      let merged : Except PError JVal × List Token :=
        if isIdentTok t && !stack.isEmpty then
          match rest.takeWhile isIdentTok with
          | [] => (parseValueToken t, rest)
          | run =>
              (.ok (.jstr (joinSpace (t.value :: run.map Token.value))),
               rest.dropWhile isIdentTok)
        else (parseValueToken t, rest)
      match merged with
      | (.error e, _) => .error e
      | (.ok v, rest') =>
        match stack with
        | [] => .ok v
        | f :: tl => parseLoop fuel (dropComma rest') (f.assignVal v :: tl)

/-- `parse`: run the loop on the whole token stream with an empty stack. -/
def parseTokens (ts : List Token) : Except PError JVal :=
  parseLoop (ts.length + 1) ts []

/-- The decoder core: `tokenize` followed by `parse` (the token/stack
pipeline of the specification; the markdown-fence stripping of the package
entry point is out of scope). -/
def decode (cs : List Char) : Except PError JVal := parseTokens (tokenize cs)

/-- `decode` on a Lean string literal. -/
def decodeStr (s : String) : Except PError JVal := decode s.toList

/-! ## Fuel adequacy

Every iteration of `tokenizeLoop` consumes at least one character and every
iteration of `parseLoop` consumes at least one token, so any fuel above the
input length computes the same result.  The lemmas of this section make
that precise; they let step equations be chained at the `tokenize` /
`parseTokens` level. -/

theorem length_dropWhile_le (p : Char → Bool) (l : List Char) :
    (l.dropWhile p).length ≤ l.length :=
  (List.dropWhile_sublist p).length_le

theorem lineCommentSkip_length_le : ∀ (l : List Char),
    (lineCommentSkip l).length ≤ l.length := by
  intro l
  induction l with
  | nil => simp [lineCommentSkip]
  | cons c tl ih =>
    by_cases h1 : c = '\n'
    · simp [lineCommentSkip, h1]
    by_cases h2 : c = '\r'
    · cases tl with
      | nil => simp [lineCommentSkip, h1, h2]
      | cons d tl2 =>
        by_cases h3 : d = '\n' <;>
          simp [lineCommentSkip, h1, h2, h3] <;> omega
    · simp only [lineCommentSkip, if_neg h1, if_neg h2, List.length_cons]
      omega

theorem blockCommentSkip_length_le : ∀ (l : List Char) (prev : Char),
    (blockCommentSkip prev l).length ≤ l.length := by
  intro l
  induction l with
  | nil => intro prev; simp [blockCommentSkip]
  | cons a tl ih =>
    intro prev
    cases tl with
    | nil =>
      by_cases ha : a = '/' <;> by_cases hp : prev = '*' <;>
        simp [blockCommentSkip, ha, hp]
    | cons b tl2 =>
      by_cases h : a = '*' ∧ b = '/'
      · obtain ⟨rfl, rfl⟩ := h
        cases tl2 with
        | nil => simp [blockCommentSkip]
        | cons x xs =>
          cases xs with
          | nil => simp [blockCommentSkip]
          | cons y ys => simp [blockCommentSkip]
      · have heq : blockCommentSkip prev (a :: b :: tl2) =
            blockCommentSkip a (b :: tl2) := by
          rw [blockCommentSkip.eq_def]
          simp only []
          rw [if_neg]
          intro hc
          exact h ⟨by
            rcases Bool.and_eq_true _ _ |>.mp (by exact_mod_cast hc) with ⟨x, y⟩
            exact of_decide_eq_true x,
            by
            rcases Bool.and_eq_true _ _ |>.mp (by exact_mod_cast hc) with ⟨x, y⟩
            exact of_decide_eq_true y⟩
        rw [heq]
        calc (blockCommentSkip a (b :: tl2)).length ≤ (b :: tl2).length := ih a
          _ ≤ (a :: b :: tl2).length := by simp

/-! ### One-step unfolding lemmas

The recursive scanners are compiled through `brecOn`, so their applications
do not reduce definitionally on open terms; these lemmas restate the
one-step unfoldings for rewriting. -/

theorem stringScan_nil (quote : Char) (seen : List Char) :
    stringScan quote seen [] =
      { tokenValue :=
          if (quote :: seen.reverse).getLast? = some quote then quote :: seen.reverse
          else (quote :: seen.reverse) ++ [quote],
        remaining := [], skippedBadEscape := false } := by
  rw [stringScan.eq_def]

theorem stringScan_cons (quote : Char) (seen : List Char) (c : Char)
    (tl : List Char) :
    stringScan quote seen (c :: tl) =
      if c = quote then
        { tokenValue := quote :: seen.reverse ++ [quote],
          remaining := tl, skippedBadEscape := false }
      else if c = '\\' then
        match tl with
        | c2 :: tl2 => stringScan quote (c2 :: '\\' :: seen) tl2
        | [] => stringScan quote ('\\' :: seen) []
      else if c = '\n' || c = '\r' then
        match matchEscSuffix seen with
        | some k =>
            { tokenValue := quote :: (seen.drop k).reverse ++ [quote],
              remaining := (seen.take k).reverse ++ c :: tl,
              skippedBadEscape := true }
        | none => stringScan quote (c :: seen) tl
      else stringScan quote (c :: seen) tl := by
  rw [stringScan.eq_def]

theorem badEscapeSkip_length_le (l : List Char) :
    (badEscapeSkip l).length ≤ l.length := by
  match l with
  | [] => simp [badEscapeSkip]
  | [c] => simp [badEscapeSkip]
  | c :: q :: tl =>
    simp only [badEscapeSkip]
    split
    · match tl with
      | [] => simp
      | s :: tl2 =>
        by_cases hs : s = ',' ∨ s = ':'
        · rcases hs with rfl | rfl <;> simp <;> omega
        · have h1 : ¬ s = ',' := fun h => hs (Or.inl h)
          have h2 : ¬ s = ':' := fun h => hs (Or.inr h)
          simp [h1, h2]
    · exact le_refl _

theorem stringScan_remaining_le (quote : Char) : ∀ (n : Nat) (cur seen : List Char),
    cur.length ≤ n →
    (stringScan quote seen cur).remaining.length ≤ seen.length + cur.length := by
  intro n
  induction n with
  | zero =>
    intro cur seen h
    have hc : cur = [] := List.length_eq_zero.mp (Nat.le_zero.mp h)
    subst hc
    simp [stringScan_nil]
  | succ n ih =>
    intro cur seen h
    match cur with
    | [] => simp [stringScan_nil]
    | c :: tl =>
      rw [stringScan_cons]
      split
      · simp only [List.length_cons]
        omega
      · split
        · match tl with
          | c2 :: tl2 =>
            have h2 := ih tl2 (c2 :: '\\' :: seen)
              (by simp only [List.length_cons] at h; omega)
            simp only [List.length_cons] at h2 ⊢
            omega
          | [] =>
            have h2 := ih [] ('\\' :: seen) (by simp)
            simp only [List.length_cons, List.length_nil] at h2 ⊢
            omega
        · split
          · split
            · rename_i k hk
              have h1 : (List.take k seen).length ≤ seen.length := by
                simp [List.length_take]
              simp only [List.length_append, List.length_reverse,
                List.length_cons]
              omega
            · have h2 := ih tl (c :: seen)
                (by simp only [List.length_cons] at h; omega)
              simp only [List.length_cons] at h2 ⊢
              omega
          · have h2 := ih tl (c :: seen)
              (by simp only [List.length_cons] at h; omega)
            simp only [List.length_cons] at h2 ⊢
            omega

theorem identScan_remaining_le (c : Char) (tl : List Char) :
    (identScan (c :: tl)).2.length ≤ tl.length := by
  simp only [identScan]
  split
  · simp
  · rename_i hrun
    by_cases hc : isIdentStop c
    · rw [List.takeWhile_cons_of_neg (by simp [hc])] at hrun
      simp at hrun
    · rw [List.dropWhile_cons_of_pos (by simp [hc])]
      exact length_dropWhile_le _ tl

theorem numScan_remaining_le (c : Char) (tl : List Char) :
    (numScan (c :: tl)).2.length ≤ tl.length := by
  have hident := identScan_remaining_le c tl
  have hdw : ∀ (l : List Char) (p : Char → Bool), (l.dropWhile p).length ≤ l.length :=
    fun l p => length_dropWhile_le p l
  rw [numScan.eq_def]
  by_cases hsp : c = '-' ∨ c = '+'
  · have hif : (if (c :: tl).head? = some '-' || (c :: tl).head? = some '+'
        then (c :: tl).drop 1 else c :: tl) = tl := by
      rcases hsp with rfl | rfl <;> simp
    simp only [hif]
    match tl with
    | [] => simpa using hident
    | first :: ctl =>
      simp only []
      split
      · -- first = '.'
        match ctl with
        | d :: ctl2 =>
          simp only []
          split
          · simp only []
            calc ((d :: ctl2).dropWhile isDecNumChar).length
                ≤ (d :: ctl2).length := hdw _ _
              _ ≤ (first :: d :: ctl2).length := by simp
          · simpa using hident
        | [] => simpa using hident
      · split
        · -- digit branch
          match ctl with
          | x :: ctl2 =>
            simp only []
            split
            · calc (ctl2.dropWhile isHexDigit).length ≤ ctl2.length := hdw _ _
                _ ≤ (first :: x :: ctl2).length := by simp; omega
            · split
              · calc (ctl2.dropWhile isOctDigit).length ≤ ctl2.length := hdw _ _
                  _ ≤ (first :: x :: ctl2).length := by simp; omega
              · split
                · calc (ctl2.dropWhile isBinDigit).length ≤ ctl2.length := hdw _ _
                    _ ≤ (first :: x :: ctl2).length := by simp; omega
                · calc ((first :: x :: ctl2).dropWhile isDecNumChar).length
                      ≤ (first :: x :: ctl2).length := hdw _ _
                    _ = (first :: x :: ctl2).length := rfl
          | [] =>
            simp only []
            calc ([first].dropWhile isDecNumChar).length ≤ [first].length := hdw _ _
              _ ≤ ([first] : List Char).length := le_refl _
        · simpa using hident
  · have hif : (if (c :: tl).head? = some '-' || (c :: tl).head? = some '+'
        then (c :: tl).drop 1 else c :: tl) = c :: tl := by
      have h1 : ¬ c = '-' := fun h => hsp (Or.inl h)
      have h2 : ¬ c = '+' := fun h => hsp (Or.inr h)
      simp [h1, h2]
    simp only [hif]
    split
    · -- c = '.'
      match tl with
      | d :: ctl2 =>
        simp only []
        split
        · simpa using hdw (d :: ctl2) isDecNumChar
        · simpa using hident
      | [] => simpa using hident
    · split
      · rename_i hdig
        match tl with
        | x :: ctl2 =>
          simp only []
          split
          · calc (ctl2.dropWhile isHexDigit).length ≤ ctl2.length := hdw _ _
              _ ≤ (x :: ctl2).length := by simp
          · split
            · calc (ctl2.dropWhile isOctDigit).length ≤ ctl2.length := hdw _ _
                _ ≤ (x :: ctl2).length := by simp
            · split
              · calc (ctl2.dropWhile isBinDigit).length ≤ ctl2.length := hdw _ _
                  _ ≤ (x :: ctl2).length := by simp
              · have : ((c :: x :: ctl2).dropWhile isDecNumChar) =
                    (x :: ctl2).dropWhile isDecNumChar := by
                  rw [List.dropWhile_cons_of_pos]
                  simp [isDecNumChar, hdig]
                rw [this]
                exact hdw _ _
        | [] =>
          simp only []
          rename_i hdig2
          have hch : (([c] : List Char).dropWhile isDecNumChar) = [] := by
            rw [List.dropWhile_cons_of_pos (by simp [isDecNumChar, hdig])]
            simp
          simp [hch]
      · simpa using hident

/-! ### Tokenizer one-step unfolding and fuel irrelevance -/

set_option maxHeartbeats 1600000 in
theorem tokenizeLoop_succ_cons (fuel : Nat) (c : Char) (tl : List Char) :
    tokenizeLoop (fuel + 1) (c :: tl) =
      if c.toNat ≤ 32 then tokenizeLoop fuel tl
      else if c = '/' && tl.head? = some '/' then
        tokenizeLoop fuel (lineCommentSkip (tl.drop 1))
      else if c = '/' && tl.head? = some '*' then
        tokenizeLoop fuel (blockCommentSkip '*' (tl.drop 1))
      else if c = '"' || c = '\'' then
        let r := stringScan c [] tl
        let rem := if r.skippedBadEscape then badEscapeSkip r.remaining else r.remaining
        mkStringToken c r.tokenValue :: tokenizeLoop fuel rem
      else if c = '{' || c = '}' || c = '[' || c = ']' then
        { type := .bracket, value := [c] } :: tokenizeLoop fuel tl
      else if c = ',' || c = ':' || c = '：' || c = '，' then
        { type := .punct, value := [normalizePunct c] } :: tokenizeLoop fuel tl
      else if isDigit c || c = '-' || c = '+' || c = '.' then
        match numScan (c :: tl) with
        | (some tok, rest) => tok :: tokenizeLoop fuel rest
        | (none, rest) => tokenizeLoop fuel rest
      else
        match identScan (c :: tl) with
        | (some tok, rest) => tok :: tokenizeLoop fuel rest
        | (none, rest) => tokenizeLoop fuel rest := by
  rw [tokenizeLoop.eq_def]

theorem tokenizeLoop_succ_nil (fuel : Nat) : tokenizeLoop (fuel + 1) [] = [] := rfl

theorem tokenizeLoop_mono : ∀ (f₁ : Nat) {f₂ : Nat} {cs : List Char},
    cs.length < f₁ → cs.length < f₂ → tokenizeLoop f₁ cs = tokenizeLoop f₂ cs := by
  intro f₁
  induction f₁ with
  | zero => intro f₂ cs h1 _; exact absurd h1 (Nat.not_lt_zero _)
  | succ n ih =>
    intro f₂ cs h1 h2
    match f₂, cs with
    | f + 1, [] => rfl
    | f + 1, c :: tl =>
      have hlen : tl.length < n ∧ tl.length < f := by
        simp only [List.length_cons] at h1 h2
        omega
      rw [tokenizeLoop_succ_cons, tokenizeLoop_succ_cons]
      split
      · exact ih hlen.1 hlen.2
      · split
        · have hl1 := lineCommentSkip_length_le (tl.drop 1)
          have hl2 := List.length_drop 1 tl
          exact ih (by omega) (by omega)
        · split
          · have hl1 := blockCommentSkip_length_le (tl.drop 1) '*'
            have hl2 := List.length_drop 1 tl
            exact ih (by omega) (by omega)
          · split
            · have hrem := stringScan_remaining_le c tl.length tl [] le_rfl
              simp only [List.length_nil, Nat.zero_add] at hrem
              have hbes := badEscapeSkip_length_le (stringScan c [] tl).remaining
              have hr : (if (stringScan c [] tl).skippedBadEscape then
                  badEscapeSkip (stringScan c [] tl).remaining
                  else (stringScan c [] tl).remaining).length ≤ tl.length := by
                split <;> omega
              exact congrArg _ (ih (by omega) (by omega))
            · split
              · exact congrArg _ (ih hlen.1 hlen.2)
              · split
                · exact congrArg _ (ih hlen.1 hlen.2)
                · split
                  · rcases hn : numScan (c :: tl) with ⟨tok?, rest⟩
                    have hns : rest.length ≤ tl.length := by
                      have h0 := numScan_remaining_le c tl
                      rw [hn] at h0
                      exact h0
                    cases tok? with
                    | some tok =>
                      exact congrArg _ (ih (by omega) (by omega))
                    | none => exact ih (by omega) (by omega)
                  · rcases hn : identScan (c :: tl) with ⟨tok?, rest⟩
                    have hns : rest.length ≤ tl.length := by
                      have h0 := identScan_remaining_le c tl
                      rw [hn] at h0
                      exact h0
                    cases tok? with
                    | some tok =>
                      exact congrArg _ (ih (by omega) (by omega))
                    | none => exact ih (by omega) (by omega)

theorem tokenizeLoop_eq_tokenize {fuel : Nat} {cs : List Char}
    (h : cs.length < fuel) : tokenizeLoop fuel cs = tokenize cs :=
  tokenizeLoop_mono fuel h (Nat.lt_succ_self _)

/-! ### The `mkRat` helpers equal the field operations on `ℚ` -/

theorem qadd_eq_add (a b : ℚ) : qadd a b = a + b := by
  rw [qadd, Rat.mkRat_eq_divInt]
  conv_rhs => rw [← Rat.num_divInt_den a, ← Rat.num_divInt_den b]
  rw [Rat.divInt_add_divInt _ _ (by exact_mod_cast a.den_ne_zero)
      (by exact_mod_cast b.den_ne_zero)]
  push_cast
  rfl

theorem qmul_eq_mul (a b : ℚ) : qmul a b = a * b := by
  rw [qmul, Rat.mkRat_eq_divInt]
  conv_rhs => rw [← Rat.num_divInt_den a, ← Rat.num_divInt_den b]
  rw [Rat.divInt_mul_divInt']
  push_cast
  rfl

theorem qinv_eq_inv (b : ℚ) : qinv b = b⁻¹ := by
  rw [qinv, Rat.mkRat_eq_divInt, Rat.inv_def']
  by_cases h : 0 ≤ b.num
  · rw [if_pos h, Int.natAbs_of_nonneg h]
  · rw [if_neg h]
    have bn : b.num ≤ 0 := le_of_lt (lt_of_not_le h)
    rw [show ((b.num.natAbs : Int)) = -b.num from by omega]
    rw [Rat.divInt_neg, neg_neg]

theorem qdiv_eq_div (a b : ℚ) : qdiv a b = a / b := by
  rw [qdiv, qmul_eq_mul, qinv_eq_inv, div_eq_mul_inv]

theorem qpow_eq_pow (a : ℚ) : ∀ n : Nat, qpow a n = a ^ n
  | 0 => by rw [qpow, pow_zero]
  | n + 1 => by rw [qpow, qmul_eq_mul, qpow_eq_pow a n, pow_succ, mul_comm]

theorem qzpow_eq_zpow (a : ℚ) : ∀ z : Int, qzpow a z = a ^ z
  | .ofNat n => by rw [qzpow, qpow_eq_pow]; exact (zpow_natCast a n).symm
  | .negSucc n => by rw [qzpow, qinv_eq_inv, qpow_eq_pow, zpow_negSucc]

theorem ratNeg_eq_neg (a : ℚ) : Rat.neg a = -a := rfl

/-! ### Parser one-step unfolding and fuel irrelevance -/

theorem dropComma_length_le (ts : List Token) : (dropComma ts).length ≤ ts.length := by
  cases ts with
  | nil => exact Nat.le_refl _
  | cons t tl => rw [dropComma]; split <;> simp

theorem parseLoop_succ_nil (fuel : Nat) (stack : List Frame) :
    parseLoop (fuel + 1) [] stack = .ok (handleUnclosedContainers stack) := rfl

set_option maxHeartbeats 1600000 in
theorem parseLoop_succ_cons (fuel : Nat) (t : Token) (rest : List Token)
    (stack : List Frame) :
    parseLoop (fuel + 1) (t :: rest) stack =
      if t.type = .bracket then
        if t.value = ['{'] then parseLoop fuel rest (pushContainer (.obj []) stack)
        else if t.value = ['['] then parseLoop fuel rest (pushContainer (.arr []) stack)
        else if t.value = ['}'] || t.value = [']'] then
          match stack with
          | [] => .error (if t.value = ['}'] then .unmatchedBrace else .unmatchedBracket)
          | [f] => .ok (cvalToJ f.cval)
          | f :: g :: tl => parseLoop fuel (dropComma rest) (attach g f :: tl)
        else parseLoop fuel rest stack
      else if isKeylessObj stack then
        match handleObjectKey t with
        | .error e => .error e
        | .ok (some k) => parseLoop fuel rest (setKey k stack)
        | .ok none => parseLoop fuel rest stack
      else if t.type = .punct then
        if stack.isEmpty then .error .unexpectedPunct
        else if t.value = [','] then parseLoop fuel rest (commaPush stack)
        else if t.value = [':'] then parseLoop fuel rest (colonFix rest stack)
        else parseLoop fuel rest stack
      else
        match (if isIdentTok t && !stack.isEmpty then
                 match rest.takeWhile isIdentTok with
                 | [] => (parseValueToken t, rest)
                 | run =>
                     ((.ok (.jstr (joinSpace (t.value :: run.map Token.value))) :
                        Except PError JVal),
                      rest.dropWhile isIdentTok)
               else (parseValueToken t, rest)) with
        | (.error e, _) => .error e
        | (.ok v, rest') =>
          match stack with
          | [] => .ok v
          | f :: tl => parseLoop fuel (dropComma rest') (f.assignVal v :: tl) := by
  rw [parseLoop.eq_def]

theorem parseLoop_mono : ∀ (f₁ : Nat) {f₂ : Nat} {ts : List Token} {stack : List Frame},
    ts.length < f₁ → ts.length < f₂ → parseLoop f₁ ts stack = parseLoop f₂ ts stack := by
  intro f₁
  induction f₁ with
  | zero => intro f₂ ts stack h1 _; exact absurd h1 (Nat.not_lt_zero _)
  | succ n ih =>
    intro f₂ ts stack h1 h2
    match f₂, ts with
    | f + 1, [] => rfl
    | f + 1, t :: rest =>
      have hlen1 : rest.length < n := by
        simp only [List.length_cons] at h1; omega
      have hlen2 : rest.length < f := by
        simp only [List.length_cons] at h2; omega
      rw [parseLoop_succ_cons, parseLoop_succ_cons]
      split
      · split
        · exact ih hlen1 hlen2
        · split
          · exact ih hlen1 hlen2
          · split
            · split
              · rfl
              · rfl
              · have hd := dropComma_length_le rest
                exact ih (by omega) (by omega)
            · exact ih hlen1 hlen2
      · split
        · split
          · rfl
          · exact ih hlen1 hlen2
          · exact ih hlen1 hlen2
        · split
          · split
            · rfl
            · split
              · exact ih hlen1 hlen2
              · split
                · exact ih hlen1 hlen2
                · exact ih hlen1 hlen2
          · by_cases hb : (isIdentTok t && !stack.isEmpty) = true
            · simp only [hb, reduceIte]
              rcases htw : rest.takeWhile isIdentTok with _ | ⟨t0, run⟩
              · rcases hpv : parseValueToken t with e | v
                · rfl
                · cases stack with
                  | nil => rfl
                  | cons fr tl =>
                    have hd := dropComma_length_le rest
                    exact ih (by omega) (by omega)
              · cases stack with
                | nil => rfl
                | cons fr tl =>
                  have hw := (List.dropWhile_sublist (l := rest)
                    (p := isIdentTok)).length_le
                  have hd := dropComma_length_le (rest.dropWhile isIdentTok)
                  exact ih (by omega) (by omega)
            · rw [Bool.not_eq_true] at hb
              simp only [hb, reduceIte]
              rcases hpv : parseValueToken t with e | v
              · rfl
              · cases stack with
                | nil => rfl
                | cons fr tl =>
                  have hd := dropComma_length_le rest
                  exact ih (by omega) (by omega)

/-- The parser loop at self-sufficient fuel: by `parseLoop_mono` any fuel
above the stream length computes this. -/
def parseRun (ts : List Token) (stack : List Frame) : Except PError JVal :=
  parseLoop (ts.length + 1) ts stack

theorem parseLoop_eq_parseRun {fuel : Nat} {ts : List Token} {stack : List Frame}
    (h : ts.length < fuel) : parseLoop fuel ts stack = parseRun ts stack :=
  parseLoop_mono fuel h (Nat.lt_succ_self _)

theorem parseTokens_eq_parseRun (ts : List Token) : parseTokens ts = parseRun ts [] := rfl

theorem parseRun_nil (stack : List Frame) :
    parseRun [] stack = .ok (handleUnclosedContainers stack) := rfl

/-! ### The tokens `tokenize` produces, and `parseRun` single steps -/

/-- A bracket token (`{`, `}`, `[`, `]`). -/
def bTok (c : Char) : Token := { type := .bracket, value := [c] }

/-- A (normalized) punctuation token. -/
def pTok (c : Char) : Token := { type := .punct, value := [c] }

/-- A string token; `raw` is the quoted text including both quotes. -/
def sTok (raw : List Char) : Token := { type := .str, value := raw }

/-- An identifier token. -/
def iTok (w : List Char) : Token := { type := .ident, value := w }

/-- A decimal number token (`text` excludes the sign, as in
`parseNumberToken`). -/
def nTok (text : List Char) (neg : Bool) : Token :=
  { type := .num, value := text, isNegative := neg }

theorem parseRun_open_obj (rest : List Token) (stack : List Frame) :
    parseRun (bTok '{' :: rest) stack = parseRun rest (pushContainer (.obj []) stack) := by
  show parseLoop (rest.length + 1 + 1) _ _ = _
  rw [parseLoop_succ_cons]
  rfl

theorem parseRun_open_arr (rest : List Token) (stack : List Frame) :
    parseRun (bTok '[' :: rest) stack = parseRun rest (pushContainer (.arr []) stack) := by
  show parseLoop (rest.length + 1 + 1) _ _ = _
  rw [parseLoop_succ_cons]
  rfl

theorem parseRun_close_last (b : Char) (hb : b = '}' ∨ b = ']')
    (rest : List Token) (f : Frame) :
    parseRun (bTok b :: rest) [f] = .ok (cvalToJ f.cval) := by
  obtain rfl | rfl := hb <;>
    (show parseLoop (rest.length + 1 + 1) _ _ = _; rw [parseLoop_succ_cons]; rfl)

theorem parseRun_close_pop (b : Char) (hb : b = '}' ∨ b = ']')
    (rest : List Token) (f g : Frame) (tl : List Frame) :
    parseRun (bTok b :: rest) (f :: g :: tl) =
      parseRun (dropComma rest) (attach g f :: tl) := by
  obtain rfl | rfl := hb <;>
  · show parseLoop (rest.length + 1 + 1) _ _ = _
    rw [parseLoop_succ_cons]
    show parseLoop (rest.length + 1) _ _ = _
    exact parseLoop_eq_parseRun
      (by have := dropComma_length_le rest; omega)

theorem parseRun_key (t : Token) (rest : List Token) (stack : List Frame) (k : List Char)
    (ht : t.type = .str) (hko : isKeylessObj stack = true)
    (hs : parseStringValue t = .ok k) :
    parseRun (t :: rest) stack = parseRun rest (setKey k stack) := by
  have hk : handleObjectKey t = .ok (some k) := by
    rw [handleObjectKey, ht, hs]; rfl
  show parseLoop (rest.length + 1 + 1) _ _ = _
  rw [parseLoop_succ_cons, if_neg (by rw [ht]; intro h; cases h), if_pos hko, hk]
  rfl

theorem colonFix_skip (nt : Token) (rest : List Token) (stack : List Frame)
    (h1 : nt.value ≠ [',']) (h2 : nt.value ≠ ['}']) :
    colonFix (nt :: rest) stack = stack := by
  rw [colonFix]
  split
  · rename_i h
    rw [Bool.or_eq_true, decide_eq_true_iff, decide_eq_true_iff] at h
    exact absurd h (by simp [h1, h2])
  · rfl

theorem parseRun_colon (rest : List Token) (stack : List Frame)
    (hne : stack ≠ []) (hko : isKeylessObj stack = false) :
    parseRun (pTok ':' :: rest) stack = parseRun rest (colonFix rest stack) := by
  show parseLoop (rest.length + 1 + 1) _ _ = _
  rw [parseLoop_succ_cons, if_neg (by intro h; cases h), hko,
      if_neg (show ¬stack.isEmpty = true by simpa using hne)]
  rfl

/-- The head of a token list is not an identifier (so the consecutive-
identifier merge does not fire past it). -/
def headNonIdent (ts : List Token) : Prop :=
  ∀ t ts', ts = t :: ts' → isIdentTok t = false

/-- The current frame can receive a value: an array (vacuously), or an
object whose pending key is set. -/
def Recv (f : Frame) : Prop :=
  ∀ fs, f.cval = CVal.obj fs → f.key.isSome = true

theorem isKeylessObj_false_of_recv (f : Frame) (tl : List Frame) (h : Recv f) :
    isKeylessObj (f :: tl) = false := by
  obtain ⟨cv, key, lnk⟩ := f
  cases cv with
  | obj fs =>
    have hk : key.isSome = true := h fs rfl
    cases key with
    | none => cases hk
    | some k => rfl
  | arr es => rfl

theorem takeWhile_eq_nil_of_head (p : Token → Bool) (ts : List Token)
    (h : ∀ t ts', ts = t :: ts' → p t = false) :
    ts.takeWhile p = [] := by
  cases ts with
  | nil => rfl
  | cons t tl => simp [List.takeWhile_cons, h t tl rfl]

theorem parseRun_value (t : Token) (v : JVal) (rest : List Token) (f : Frame)
    (tl : List Frame)
    (ht : t.type = .str ∨ t.type = .num ∨ t.type = .ident)
    (hrecv : Recv f)
    (hv : parseValueToken t = .ok v)
    (hid : headNonIdent rest) :
    parseRun (t :: rest) (f :: tl) = parseRun (dropComma rest) (f.assignVal v :: tl) := by
  have hko := isKeylessObj_false_of_recv f tl hrecv
  have hnb : ¬ t.type = TType.bracket := by
    rcases ht with h | h | h <;> rw [h] <;> (intro hc; cases hc)
  have hnp : ¬ t.type = TType.punct := by
    rcases ht with h | h | h <;> rw [h] <;> (intro hc; cases hc)
  show parseLoop (rest.length + 1 + 1) _ _ = _
  rw [parseLoop_succ_cons, if_neg hnb, hko, if_neg hnp]
  by_cases hb : (isIdentTok t && !(f :: tl).isEmpty) = true
  · simp only [hb, reduceIte]
    rw [takeWhile_eq_nil_of_head isIdentTok rest hid, hv]
    show parseLoop (rest.length + 1) _ _ = _
    exact parseLoop_eq_parseRun (by have := dropComma_length_le rest; omega)
  · rw [Bool.not_eq_true] at hb
    simp only [hb, reduceIte]
    rw [hv]
    show parseLoop (rest.length + 1) _ _ = _
    exact parseLoop_eq_parseRun (by have := dropComma_length_le rest; omega)

theorem parseRun_value_top (t : Token) (v : JVal) (rest : List Token)
    (ht : t.type = .str ∨ t.type = .num ∨ t.type = .ident)
    (hv : parseValueToken t = .ok v) :
    parseRun (t :: rest) [] = .ok v := by
  have hnb : ¬ t.type = TType.bracket := by
    rcases ht with h | h | h <;> rw [h] <;> (intro hc; cases hc)
  have hnp : ¬ t.type = TType.punct := by
    rcases ht with h | h | h <;> rw [h] <;> (intro hc; cases hc)
  show parseLoop (rest.length + 1 + 1) _ _ = _
  rw [parseLoop_succ_cons, if_neg hnb, if_neg hnp]
  have hb : (isIdentTok t && !([] : List Frame).isEmpty) = false := by
    simp
  simp only [hb, reduceIte]
  rw [hv]
  rfl

/-! ### `tokenize` single steps -/

theorem tokenize_nil : tokenize [] = [] := rfl

theorem tokenize_ws_cons (c : Char) (tl : List Char) (h : c.toNat ≤ 32) :
    tokenize (c :: tl) = tokenize tl := by
  show tokenizeLoop (tl.length + 1 + 1) _ = _
  rw [tokenizeLoop_succ_cons, if_pos h]
  exact tokenizeLoop_eq_tokenize (Nat.lt_succ_self _)

theorem tokenize_ws_append (ws : List Char) (tl : List Char)
    (h : ∀ c ∈ ws, c.toNat ≤ 32) : tokenize (ws ++ tl) = tokenize tl := by
  induction ws with
  | nil => rfl
  | cons c ws' ih =>
    rw [List.cons_append, tokenize_ws_cons c _ (h c (List.mem_cons_self c ws'))]
    exact ih (fun d hd => h d (List.mem_cons_of_mem c hd))

theorem tokenize_bracket (b : Char) (hb : b = '{' ∨ b = '}' ∨ b = '[' ∨ b = ']')
    (tl : List Char) : tokenize (b :: tl) = bTok b :: tokenize tl := by
  obtain rfl | rfl | rfl | rfl := hb <;>
    (show tokenizeLoop (tl.length + 1 + 1) _ = _; rw [tokenizeLoop_succ_cons]; rfl)

theorem tokenize_punct (p : Char) (hp : p = ',' ∨ p = ':') (tl : List Char) :
    tokenize (p :: tl) = pTok p :: tokenize tl := by
  obtain rfl | rfl := hp <;>
    (show tokenizeLoop (tl.length + 1 + 1) _ = _; rw [tokenizeLoop_succ_cons]; rfl)

/-- Scan-safety of a double-quoted string body: escape pairs are skipped
whole, and outside an escape the body contains no quote and no raw
newline (so `stringScan` runs to the closing quote with no early
termination). -/
def sjScanBody : List Char → Bool
  | [] => true
  | c :: tl =>
    if c = '\\' then
      match tl with
      | _ :: tl2 => sjScanBody tl2
      | [] => false
    else if c = '"' || c = '\n' || c = '\r' then false
    else sjScanBody tl

theorem sjScanBody_nil : sjScanBody [] = true := rfl

theorem sjScanBody_cons (c : Char) (tl : List Char) :
    sjScanBody (c :: tl) =
      if c = '\\' then
        match tl with
        | _ :: tl2 => sjScanBody tl2
        | [] => false
      else if c = '"' || c = '\n' || c = '\r' then false
      else sjScanBody tl := by
  rw [sjScanBody.eq_def]

theorem stringScan_body : ∀ (n : Nat) (body : List Char), body.length ≤ n →
    sjScanBody body = true → ∀ (seen tl : List Char),
    stringScan '"' seen (body ++ '"' :: tl) =
      { tokenValue := ('"' :: (seen.reverse ++ body)) ++ ['"'],
        remaining := tl, skippedBadEscape := false } := by
  intro n
  induction n with
  | zero =>
    intro body hlen _ seen tl
    have hb : body = [] := List.length_eq_zero.mp (Nat.le_zero.mp hlen)
    subst hb
    rw [List.nil_append, stringScan_cons, if_pos rfl]
    simp
  | succ n ih =>
    intro body hlen hsb seen tl
    match body with
    | [] =>
      rw [List.nil_append, stringScan_cons, if_pos rfl]
      simp
    | c :: body' =>
      rw [sjScanBody_cons] at hsb
      rw [List.cons_append, stringScan_cons]
      by_cases hc : c = '\\'
      · subst hc
        rw [if_pos rfl] at hsb
        rw [if_neg (by decide), if_pos rfl]
        match body' with
        | [] => cases hsb
        | e :: body'' =>
          rw [List.cons_append]
          have hrec := ih body'' (by simp only [List.length_cons] at hlen; omega)
            hsb (e :: '\\' :: seen) tl
          show stringScan '"' (e :: '\\' :: seen) (body'' ++ '"' :: tl) = _
          rw [hrec]
          simp
      · rw [if_neg hc] at hsb
        have hq : ¬ c = '"' := by
          intro hq; rw [if_pos (by rw [hq]; simp)] at hsb; cases hsb
        have hn : ¬ (c = '\n' || c = '\r') = true := by
          intro hn
          rw [if_pos (by
            rcases Bool.or_eq_true _ _ |>.mp hn with h | h <;>
              rw [decide_eq_true_iff] at h <;> simp [h])] at hsb
          cases hsb
        rw [if_neg hq, if_neg hc, if_neg hn]
        have hrest : sjScanBody body' = true := by
          rw [if_neg (by
            intro hcon
            rw [if_pos hcon] at hsb
            cases hsb)] at hsb
          exact hsb
        have hrec := ih body' (by simp only [List.length_cons] at hlen; omega)
          hrest (c :: seen) tl
        rw [hrec]
        simp

theorem tokenize_string (body tl : List Char) (hsb : sjScanBody body = true) :
    tokenize ('"' :: body ++ '"' :: tl) =
      sTok ('"' :: body ++ ['"']) :: tokenize tl := by
  show tokenizeLoop ((body ++ '"' :: tl).length + 1 + 1) _ = _
  rw [List.cons_append]
  rw [tokenizeLoop_succ_cons, if_neg (by decide), if_neg (by simp),
      if_neg (by simp), if_pos (by decide)]
  rw [stringScan_body (body.length) body (Nat.le_refl _) hsb [] tl]
  show _ :: tokenizeLoop ((body ++ '"' :: tl).length + 1) tl = _
  rw [tokenizeLoop_eq_tokenize (by simp; omega)]
  rfl

theorem takeWhile_all_stop (p : Char → Bool) : ∀ (xs ys : List Char),
    (∀ x ∈ xs, p x = true) → (∀ c cs, ys = c :: cs → p c = false) →
    (xs ++ ys).takeWhile p = xs := by
  intro xs
  induction xs with
  | nil =>
    intro ys _ hstop
    cases ys with
    | nil => rfl
    | cons c cs => simp [List.takeWhile_cons, hstop c cs rfl]
  | cons x xs' ih =>
    intro ys hall hstop
    rw [List.cons_append, List.takeWhile_cons]
    simp [hall x (List.mem_cons_self x xs'),
      ih ys (fun c hc => hall c (List.mem_cons_of_mem x hc)) hstop]

theorem dropWhile_all_stop (p : Char → Bool) : ∀ (xs ys : List Char),
    (∀ x ∈ xs, p x = true) → (∀ c cs, ys = c :: cs → p c = false) →
    (xs ++ ys).dropWhile p = ys := by
  intro xs
  induction xs with
  | nil =>
    intro ys _ hstop
    cases ys with
    | nil => rfl
    | cons c cs => simp [List.dropWhile_cons, hstop c cs rfl]
  | cons x xs' ih =>
    intro ys hall hstop
    rw [List.cons_append, List.dropWhile_cons]
    simp [hall x (List.mem_cons_self x xs'),
      ih ys (fun c hc => hall c (List.mem_cons_of_mem x hc)) hstop]

theorem numScan_strict (d : Char) (text' tl : List Char)
    (hd : isDigit d = true)
    (hall : ∀ c ∈ text', isDecNumChar c = true)
    (hnr : d = '0' → ∀ x xs, text' ++ tl = x :: xs →
      x ≠ 'x' ∧ x ≠ 'X' ∧ x ≠ 'o' ∧ x ≠ 'O' ∧ x ≠ 'b' ∧ x ≠ 'B')
    (hstop : ∀ c cs, tl = c :: cs → isDecNumChar c = false) :
    numScan (d :: (text' ++ tl)) = (some (nTok (d :: text') false), tl) := by
  have hdm : ¬ d = '-' := fun h => by rw [h] at hd; cases hd
  have hdp : ¬ d = '+' := fun h => by rw [h] at hd; cases hd
  have hdd : ¬ d = '.' := fun h => by rw [h] at hd; cases hd
  have hddec : isDecNumChar d = true := by rw [isDecNumChar, hd]; rfl
  have htw : (d :: (text' ++ tl)).takeWhile isDecNumChar = d :: text' := by
    rw [List.takeWhile_cons]
    simp [hddec, takeWhile_all_stop isDecNumChar text' tl hall hstop]
  have hdw : (d :: (text' ++ tl)).dropWhile isDecNumChar = tl := by
    rw [List.dropWhile_cons]
    simp [hddec, dropWhile_all_stop isDecNumChar text' tl hall hstop]
  simp only [numScan, List.head?_cons, Option.some.injEq, hdm, hdp,
    decide_False, Bool.or_self, Bool.false_eq_true, reduceIte]
  cases hrest : text' ++ tl with
  | nil =>
    obtain ⟨h3, h4⟩ := List.append_eq_nil.mp hrest
    subst h3; subst h4
    simp only [hd, hdd, reduceIte]
    rw [show List.takeWhile isDecNumChar [d] = [d] from by
          simp [List.takeWhile_cons, hddec],
        show List.dropWhile isDecNumChar [d] = ([] : List Char) from by
          simp [List.dropWhile_cons, hddec]]
    rfl
  | cons x xs =>
    have hx' : (decide (d = '0') && (decide (x = 'x') || decide (x = 'X'))) = false := by
      rw [Bool.eq_false_iff]
      intro h
      rw [Bool.and_eq_true, Bool.or_eq_true, decide_eq_true_iff, decide_eq_true_iff,
        decide_eq_true_iff] at h
      rcases hnr h.1 x xs hrest with ⟨a, b, _, _, _, _⟩
      rcases h.2 with h2 | h2
      · exact a h2
      · exact b h2
    have ho' : (decide (d = '0') && (decide (x = 'o') || decide (x = 'O'))) = false := by
      rw [Bool.eq_false_iff]
      intro h
      rw [Bool.and_eq_true, Bool.or_eq_true, decide_eq_true_iff, decide_eq_true_iff,
        decide_eq_true_iff] at h
      rcases hnr h.1 x xs hrest with ⟨_, _, a, b, _, _⟩
      rcases h.2 with h2 | h2
      · exact a h2
      · exact b h2
    have hb' : (decide (d = '0') && (decide (x = 'b') || decide (x = 'B'))) = false := by
      rw [Bool.eq_false_iff]
      intro h
      rw [Bool.and_eq_true, Bool.or_eq_true, decide_eq_true_iff, decide_eq_true_iff,
        decide_eq_true_iff] at h
      rcases hnr h.1 x xs hrest with ⟨_, _, _, _, a, b⟩
      rcases h.2 with h2 | h2
      · exact a h2
      · exact b h2
    simp only [hdd, reduceIte, hd, hrest, hx', ho', hb', Bool.false_eq_true]
    rw [← hrest, htw, hdw]
    rfl

theorem tokenize_num (d : Char) (text' tl : List Char)
    (hd : isDigit d = true)
    (hall : ∀ c ∈ text', isDecNumChar c = true)
    (hnr : d = '0' → ∀ x xs, text' ++ tl = x :: xs →
      x ≠ 'x' ∧ x ≠ 'X' ∧ x ≠ 'o' ∧ x ≠ 'O' ∧ x ≠ 'b' ∧ x ≠ 'B')
    (hstop : ∀ c cs, tl = c :: cs → isDecNumChar c = false) :
    tokenize (d :: (text' ++ tl)) = nTok (d :: text') false :: tokenize tl := by
  have hge : 48 ≤ d.toNat ∧ d.toNat ≤ 57 := by
    rw [isDigit, Bool.and_eq_true, decide_eq_true_iff, decide_eq_true_iff] at hd
    exact hd
  have hnws : ¬ d.toNat ≤ 32 := by omega
  have hns : ¬ d = '/' := fun h => by rw [h] at hge; exact absurd hge (by decide)
  have hnq : ¬ (d = '"' || d = '\'') = true := by
    intro h
    rcases Bool.or_eq_true _ _ |>.mp h with h | h <;>
      rw [decide_eq_true_iff] at h <;> rw [h] at hge <;> exact absurd hge (by decide)
  have hnb : ¬ (d = '{' || d = '}' || d = '[' || d = ']') = true := by
    intro h
    rcases Bool.or_eq_true _ _ |>.mp h with h | h
    · rcases Bool.or_eq_true _ _ |>.mp h with h | h
      · rcases Bool.or_eq_true _ _ |>.mp h with h | h <;>
          rw [decide_eq_true_iff] at h <;> rw [h] at hge <;> exact absurd hge (by decide)
      · rw [decide_eq_true_iff] at h; rw [h] at hge; exact absurd hge (by decide)
    · rw [decide_eq_true_iff] at h; rw [h] at hge; exact absurd hge (by decide)
  have hnp : ¬ (d = ',' || d = ':' || d = '：' || d = '，') = true := by
    intro h
    rcases Bool.or_eq_true _ _ |>.mp h with h | h
    · rcases Bool.or_eq_true _ _ |>.mp h with h | h
      · rcases Bool.or_eq_true _ _ |>.mp h with h | h <;>
          rw [decide_eq_true_iff] at h <;> rw [h] at hge <;> exact absurd hge (by decide)
      · rw [decide_eq_true_iff] at h; rw [h] at hge; exact absurd hge (by decide)
    · rw [decide_eq_true_iff] at h; rw [h] at hge; exact absurd hge (by decide)
  have hnum : (isDigit d || d = '-' || d = '+' || d = '.') = true := by
    rw [hd]; rfl
  show tokenizeLoop ((text' ++ tl).length + 1 + 1) _ = _
  rw [tokenizeLoop_succ_cons, if_neg hnws,
      if_neg (by rw [Bool.and_eq_true]; rintro ⟨h, _⟩; rw [decide_eq_true_iff] at h; exact hns h),
      if_neg (by rw [Bool.and_eq_true]; rintro ⟨h, _⟩; rw [decide_eq_true_iff] at h; exact hns h),
      if_neg hnq, if_neg hnb, if_neg hnp, if_pos hnum,
      numScan_strict d text' tl hd hall hnr hstop]
  show nTok (d :: text') false :: tokenizeLoop ((text' ++ tl).length + 1) tl = _
  rw [tokenizeLoop_eq_tokenize (by simp; omega)]

theorem numScan_strict_neg (d : Char) (text' tl : List Char)
    (hd : isDigit d = true)
    (hall : ∀ c ∈ text', isDecNumChar c = true)
    (hnr : d = '0' → ∀ x xs, text' ++ tl = x :: xs →
      x ≠ 'x' ∧ x ≠ 'X' ∧ x ≠ 'o' ∧ x ≠ 'O' ∧ x ≠ 'b' ∧ x ≠ 'B')
    (hstop : ∀ c cs, tl = c :: cs → isDecNumChar c = false) :
    numScan ('-' :: d :: (text' ++ tl)) = (some (nTok (d :: text') true), tl) := by
  have hdm : ¬ d = '-' := fun h => by rw [h] at hd; cases hd
  have hdp : ¬ d = '+' := fun h => by rw [h] at hd; cases hd
  have hdd : ¬ d = '.' := fun h => by rw [h] at hd; cases hd
  have hddec : isDecNumChar d = true := by rw [isDecNumChar, hd]; rfl
  have htw : (d :: (text' ++ tl)).takeWhile isDecNumChar = d :: text' := by
    rw [List.takeWhile_cons]
    simp [hddec, takeWhile_all_stop isDecNumChar text' tl hall hstop]
  have hdw : (d :: (text' ++ tl)).dropWhile isDecNumChar = tl := by
    rw [List.dropWhile_cons]
    simp [hddec, dropWhile_all_stop isDecNumChar text' tl hall hstop]
  have hpm : ¬ ('-' : Char) = '+' := by decide
  simp only [numScan, List.head?_cons, Option.some.injEq, eq_self_iff_true,
    decide_True, hpm, decide_False, Bool.true_or, Bool.or_false, reduceIte,
    List.drop_succ_cons, List.drop_zero]
  cases hrest : text' ++ tl with
  | nil =>
    obtain ⟨h3, h4⟩ := List.append_eq_nil.mp hrest
    subst h3; subst h4
    simp only [hd, hdd, reduceIte]
    rw [show List.takeWhile isDecNumChar [d] = [d] from by
          simp [List.takeWhile_cons, hddec],
        show List.dropWhile isDecNumChar [d] = ([] : List Char) from by
          simp [List.dropWhile_cons, hddec]]
    rfl
  | cons x xs =>
    have hx' : (decide (d = '0') && (decide (x = 'x') || decide (x = 'X'))) = false := by
      rw [Bool.eq_false_iff]
      intro h
      rw [Bool.and_eq_true, Bool.or_eq_true, decide_eq_true_iff, decide_eq_true_iff,
        decide_eq_true_iff] at h
      rcases hnr h.1 x xs hrest with ⟨a, b, _, _, _, _⟩
      rcases h.2 with h2 | h2
      · exact a h2
      · exact b h2
    have ho' : (decide (d = '0') && (decide (x = 'o') || decide (x = 'O'))) = false := by
      rw [Bool.eq_false_iff]
      intro h
      rw [Bool.and_eq_true, Bool.or_eq_true, decide_eq_true_iff, decide_eq_true_iff,
        decide_eq_true_iff] at h
      rcases hnr h.1 x xs hrest with ⟨_, _, a, b, _, _⟩
      rcases h.2 with h2 | h2
      · exact a h2
      · exact b h2
    have hb' : (decide (d = '0') && (decide (x = 'b') || decide (x = 'B'))) = false := by
      rw [Bool.eq_false_iff]
      intro h
      rw [Bool.and_eq_true, Bool.or_eq_true, decide_eq_true_iff, decide_eq_true_iff,
        decide_eq_true_iff] at h
      rcases hnr h.1 x xs hrest with ⟨_, _, _, _, a, b⟩
      rcases h.2 with h2 | h2
      · exact a h2
      · exact b h2
    simp only [hdd, reduceIte, hd, hrest, hx', ho', hb', Bool.false_eq_true]
    rw [← hrest, htw, hdw]
    rfl

theorem tokenize_num_neg (d : Char) (text' tl : List Char)
    (hd : isDigit d = true)
    (hall : ∀ c ∈ text', isDecNumChar c = true)
    (hnr : d = '0' → ∀ x xs, text' ++ tl = x :: xs →
      x ≠ 'x' ∧ x ≠ 'X' ∧ x ≠ 'o' ∧ x ≠ 'O' ∧ x ≠ 'b' ∧ x ≠ 'B')
    (hstop : ∀ c cs, tl = c :: cs → isDecNumChar c = false) :
    tokenize ('-' :: d :: (text' ++ tl)) = nTok (d :: text') true :: tokenize tl := by
  show tokenizeLoop ((d :: (text' ++ tl)).length + 1 + 1) _ = _
  rw [tokenizeLoop_succ_cons, if_neg (by decide), if_neg (by simp),
      if_neg (by simp), if_neg (by decide), if_neg (by decide),
      if_neg (by decide), if_pos (by decide),
      numScan_strict_neg d text' tl hd hall hnr hstop]
  show nTok (d :: text') true :: tokenizeLoop ((d :: (text' ++ tl)).length + 1) tl = _
  rw [tokenizeLoop_eq_tokenize (by simp; omega)]

theorem identScan_true (tl : List Char)
    (hstop : ∀ c cs, tl = c :: cs → isIdentStop c = true) :
    identScan ('t' :: 'r' :: 'u' :: 'e' :: tl) = (some (iTok ['t', 'r', 'u', 'e']), tl) := by
  have h1 : isIdentStop 't' = false := by decide
  have h2 : isIdentStop 'r' = false := by decide
  have h3 : isIdentStop 'u' = false := by decide
  have h4 : isIdentStop 'e' = false := by decide
  cases tl with
  | nil => simp [identScan, iTok, List.takeWhile_cons, List.dropWhile_cons, h1, h2, h3, h4]
  | cons c cs =>
    have hc := hstop c cs rfl
    simp [identScan, iTok, List.takeWhile_cons, List.dropWhile_cons, h1, h2, h3, h4, hc]

theorem identScan_false (tl : List Char)
    (hstop : ∀ c cs, tl = c :: cs → isIdentStop c = true) :
    identScan ('f' :: 'a' :: 'l' :: 's' :: 'e' :: tl) =
      (some (iTok ['f', 'a', 'l', 's', 'e']), tl) := by
  have h1 : isIdentStop 'f' = false := by decide
  have h2 : isIdentStop 'a' = false := by decide
  have h3 : isIdentStop 'l' = false := by decide
  have h4 : isIdentStop 's' = false := by decide
  have h5 : isIdentStop 'e' = false := by decide
  cases tl with
  | nil =>
    simp [identScan, iTok, List.takeWhile_cons, List.dropWhile_cons, h1, h2, h3, h4, h5]
  | cons c cs =>
    have hc := hstop c cs rfl
    simp [identScan, iTok, List.takeWhile_cons, List.dropWhile_cons, h1, h2, h3, h4, h5, hc]

theorem identScan_null (tl : List Char)
    (hstop : ∀ c cs, tl = c :: cs → isIdentStop c = true) :
    identScan ('n' :: 'u' :: 'l' :: 'l' :: tl) = (some (iTok ['n', 'u', 'l', 'l']), tl) := by
  have h1 : isIdentStop 'n' = false := by decide
  have h2 : isIdentStop 'u' = false := by decide
  have h3 : isIdentStop 'l' = false := by decide
  cases tl with
  | nil => simp [identScan, iTok, List.takeWhile_cons, List.dropWhile_cons, h1, h2, h3]
  | cons c cs =>
    have hc := hstop c cs rfl
    simp [identScan, iTok, List.takeWhile_cons, List.dropWhile_cons, h1, h2, h3, hc]

theorem tokenize_true (tl : List Char)
    (hstop : ∀ c cs, tl = c :: cs → isIdentStop c = true) :
    tokenize ('t' :: 'r' :: 'u' :: 'e' :: tl) = iTok ['t', 'r', 'u', 'e'] :: tokenize tl := by
  show tokenizeLoop (('r' :: 'u' :: 'e' :: tl).length + 1 + 1) _ = _
  rw [tokenizeLoop_succ_cons, if_neg (by decide), if_neg (by simp), if_neg (by simp),
      if_neg (by decide), if_neg (by decide), if_neg (by decide), if_neg (by decide),
      identScan_true tl hstop]
  show iTok ['t', 'r', 'u', 'e'] :: tokenizeLoop (('r' :: 'u' :: 'e' :: tl).length + 1) tl = _
  rw [tokenizeLoop_eq_tokenize (by simp; omega)]

theorem tokenize_false (tl : List Char)
    (hstop : ∀ c cs, tl = c :: cs → isIdentStop c = true) :
    tokenize ('f' :: 'a' :: 'l' :: 's' :: 'e' :: tl) =
      iTok ['f', 'a', 'l', 's', 'e'] :: tokenize tl := by
  show tokenizeLoop (('a' :: 'l' :: 's' :: 'e' :: tl).length + 1 + 1) _ = _
  rw [tokenizeLoop_succ_cons, if_neg (by decide), if_neg (by simp), if_neg (by simp),
      if_neg (by decide), if_neg (by decide), if_neg (by decide), if_neg (by decide),
      identScan_false tl hstop]
  show iTok ['f', 'a', 'l', 's', 'e'] ::
    tokenizeLoop (('a' :: 'l' :: 's' :: 'e' :: tl).length + 1) tl = _
  rw [tokenizeLoop_eq_tokenize (by simp; omega)]

theorem tokenize_null (tl : List Char)
    (hstop : ∀ c cs, tl = c :: cs → isIdentStop c = true) :
    tokenize ('n' :: 'u' :: 'l' :: 'l' :: tl) = iTok ['n', 'u', 'l', 'l'] :: tokenize tl := by
  show tokenizeLoop (('u' :: 'l' :: 'l' :: tl).length + 1 + 1) _ = _
  rw [tokenizeLoop_succ_cons, if_neg (by decide), if_neg (by simp), if_neg (by simp),
      if_neg (by decide), if_neg (by decide), if_neg (by decide), if_neg (by decide),
      identScan_null tl hstop]
  show iTok ['n', 'u', 'l', 'l'] :: tokenizeLoop (('u' :: 'l' :: 'l' :: tl).length + 1) tl = _
  rw [tokenizeLoop_eq_tokenize (by simp; omega)]

theorem parseValueToken_true : parseValueToken (iTok ['t', 'r', 'u', 'e']) = .ok (.jbool true) := rfl

theorem parseValueToken_false :
    parseValueToken (iTok ['f', 'a', 'l', 's', 'e']) = .ok (.jbool false) := rfl

theorem parseValueToken_null : parseValueToken (iTok ['n', 'u', 'l', 'l']) = .ok .jnull := rfl

/-! ## The specification side: a strict JSON decoder (RFC 8259)

These definitions are modelled from the specification's words ("a strict
JSON decoder"), not from the repository's code: a fuel-based recursive
descent over the JSON grammar — value, object members, array elements —
with the standard whitespace set, string escapes, and number semantics
`sign * (int + frac/10^k) * 10^exp` over exact rationals.  Object members
are accumulated with JavaScript assignment semantics (`objAssign`:
overwrite in place, insertion order preserved), which is also what a
JavaScript `JSON.parse` produces for duplicate keys. -/

/-- Strict JSON whitespace (RFC 8259: space, tab, line feed, carriage
return). -/
def sjWsChar (c : Char) : Bool := c = ' ' || c = '\t' || c = '\n' || c = '\r'

/-- Skip strict JSON whitespace. -/
def sjSkipWs (cs : List Char) : List Char := cs.dropWhile sjWsChar

/-- Decode the body of a strict JSON string literal up to (and consuming)
the closing quote: plain characters above `0x1F`, the short escapes, and
`\uXXXX` (the same escape and hexadecimal tables as `JSON.parse`).
Returns the decoded content and the input after the closing quote. -/
def sjStrChars : List Char → Option (List Char × List Char)
  | [] => none
  | c :: tl =>
    if c = '"' then some ([], tl)
    else if c = '\\' then
      match tl with
      | 'u' :: a :: b :: c2 :: d :: tl2 =>
        (match hexVal? a, hexVal? b, hexVal? c2, hexVal? d with
         | some va, some vb, some vc, some vd =>
             (sjStrChars tl2).map (fun p =>
               (Char.ofNat (((va * 16 + vb) * 16 + vc) * 16 + vd) :: p.1, p.2))
         | _, _, _, _ => none)
      | e :: tl2 =>
        if e = 'u' then none
        else
          match jsonUnescape e with
          | some ch => (sjStrChars tl2).map (fun p => (ch :: p.1, p.2))
          | none => none
      | [] => none
    else if c.toNat ≤ 31 then none
    else (sjStrChars tl).map (fun p => (c :: p.1, p.2))

/-- Value of a strict JSON digit run (most significant digit first). -/
def sjDigitsToNat (ds : List Char) : Nat :=
  ds.foldl (fun a c => 10 * a + (c.toNat - 48)) 0

/-- Strict JSON fraction part: absent, or a dot followed by at least one
digit; returns the fraction digits and the rest. -/
def sjFrac : List Char → Option (List Char × List Char)
  | '.' :: r =>
    (match r.takeWhile isDigit with
     | [] => none
     | ds => some (ds, r.dropWhile isDigit))
  | cs => some ([], cs)

/-- Strict JSON exponent part: absent, or `e`/`E`, an optional sign, and at
least one digit; returns the signed exponent and the rest. -/
def sjExp : List Char → Option (Int × List Char)
  | [] => some (0, [])
  | e :: r =>
    if e = 'e' || e = 'E' then
      let esgn : Bool := r.head? = some '-'
      let r1 := if esgn || r.head? = some '+' then r.drop 1 else r
      match r1.takeWhile isDigit with
      | [] => none
      | ds =>
          some ((if esgn then -1 else 1) * (sjDigitsToNat ds : Int),
            r1.dropWhile isDigit)
    else some (0, e :: r)

/-- A strict JSON number: optional minus, `0` or a nonzero-led digit run,
an optional fraction and exponent; value `(int + frac/10^k) * 10^exp`,
negated under the minus sign (RFC 8259 §6, exact rational semantics). -/
def sjNumber (cs : List Char) : Option (ℚ × List Char) :=
  let neg : Bool := cs.head? = some '-'
  let cs1 := if neg then cs.drop 1 else cs
  match cs1 with
  | [] => none
  | d :: tl =>
    if isDigit d then
      let ip : List Char := if d = '0' then ['0'] else d :: tl.takeWhile isDigit
      let r1 : List Char := if d = '0' then tl else tl.dropWhile isDigit
      match sjFrac r1 with
      | none => none
      | some (fp, r2) =>
        match sjExp r2 with
        | none => none
        | some (ex, r3) =>
          let mag : ℚ :=
            ((sjDigitsToNat ip : ℚ) + (sjDigitsToNat fp : ℚ) / (10 : ℚ) ^ fp.length) *
              (10 : ℚ) ^ ex
          some ((if neg then -mag else mag), r3)
    else none

/-- The parsing jobs of the strict recursive-descent decoder: a value, the
members of an object (entered past `{`, with the fields decoded so far),
or the elements of an array (entered past `[`). -/
inductive SjJob where
  | value
  | members (acc : List (List Char × JVal))
  | elements (acc : List JVal)

/-- The strict JSON recursive descent.  Returns the decoded value and the
remaining input, `none` when the input is not valid strict JSON (fuel is
a structural-recursion device; `strictDecode` supplies enough). -/
def sjRun : Nat → SjJob → List Char → Option (JVal × List Char)
  | 0, _, _ => none
  | fuel + 1, .value, cs =>
    match sjSkipWs cs with
    | [] => none
    | c :: tl =>
      if c = '{' then
        match sjSkipWs tl with
        | '}' :: tl2 => some (.jobj [], tl2)
        | _ => sjRun fuel (.members []) tl
      else if c = '[' then
        match sjSkipWs tl with
        | ']' :: tl2 => some (.jarr [], tl2)
        | _ => sjRun fuel (.elements []) tl
      else if c = '"' then
        match sjStrChars tl with
        | some (content, rest) => some (.jstr content, rest)
        | none => none
      else if c = 't' then
        match tl with
        | 'r' :: 'u' :: 'e' :: tl2 => some (.jbool true, tl2)
        | _ => none
      else if c = 'f' then
        match tl with
        | 'a' :: 'l' :: 's' :: 'e' :: tl2 => some (.jbool false, tl2)
        | _ => none
      else if c = 'n' then
        match tl with
        | 'u' :: 'l' :: 'l' :: tl2 => some (.jnull, tl2)
        | _ => none
      else
        match sjNumber (c :: tl) with
        | some (q, rest) => some (.jnum (.val q), rest)
        | none => none
  | fuel + 1, .members acc, cs =>
    match sjSkipWs cs with
    | '"' :: tl =>
      (match sjStrChars tl with
       | some (k, r1) =>
         (match sjSkipWs r1 with
          | ':' :: r2 =>
            (match sjRun fuel .value r2 with
             | some (v, r3) =>
               (match sjSkipWs r3 with
                | ',' :: r4 => sjRun fuel (.members (objAssign k v acc)) r4
                | '}' :: r4 => some (.jobj (objAssign k v acc), r4)
                | _ => none)
             | none => none)
          | _ => none)
       | none => none)
    | _ => none
  | fuel + 1, .elements acc, cs =>
    match sjRun fuel .value cs with
    | some (v, r1) =>
      (match sjSkipWs r1 with
       | ',' :: r2 => sjRun fuel (.elements (acc ++ [v])) r2
       | ']' :: r2 => some (.jarr (acc ++ [v]), r2)
       | _ => none)
    | none => none

/-- The strict JSON decoder of the specification: one value, then nothing
but whitespace. -/
def strictDecode (cs : List Char) : Option JVal :=
  match sjRun (2 * cs.length + 1) .value cs with
  | some (v, rest) => if rest.all sjWsChar then some v else none
  | none => none

/-! ### One-step equations of `sjRun` -/

theorem sjRun_succ_value (fuel : Nat) (cs : List Char) :
    sjRun (fuel + 1) .value cs =
      match sjSkipWs cs with
      | [] => none
      | c :: tl =>
        if c = '{' then
          match sjSkipWs tl with
          | '}' :: tl2 => some (.jobj [], tl2)
          | _ => sjRun fuel (.members []) tl
        else if c = '[' then
          match sjSkipWs tl with
          | ']' :: tl2 => some (.jarr [], tl2)
          | _ => sjRun fuel (.elements []) tl
        else if c = '"' then
          match sjStrChars tl with
          | some (content, rest) => some (.jstr content, rest)
          | none => none
        else if c = 't' then
          match tl with
          | 'r' :: 'u' :: 'e' :: tl2 => some (.jbool true, tl2)
          | _ => none
        else if c = 'f' then
          match tl with
          | 'a' :: 'l' :: 's' :: 'e' :: tl2 => some (.jbool false, tl2)
          | _ => none
        else if c = 'n' then
          match tl with
          | 'u' :: 'l' :: 'l' :: tl2 => some (.jnull, tl2)
          | _ => none
        else
          match sjNumber (c :: tl) with
          | some (q, rest) => some (.jnum (.val q), rest)
          | none => none := by
  rw [sjRun.eq_def]

theorem sjRun_succ_members (fuel : Nat) (acc : List (List Char × JVal)) (cs : List Char) :
    sjRun (fuel + 1) (.members acc) cs =
      match sjSkipWs cs with
      | '"' :: tl =>
        (match sjStrChars tl with
         | some (k, r1) =>
           (match sjSkipWs r1 with
            | ':' :: r2 =>
              (match sjRun fuel .value r2 with
               | some (v, r3) =>
                 (match sjSkipWs r3 with
                  | ',' :: r4 => sjRun fuel (.members (objAssign k v acc)) r4
                  | '}' :: r4 => some (.jobj (objAssign k v acc), r4)
                  | _ => none)
               | none => none)
            | _ => none)
         | none => none)
      | _ => none := by
  rw [sjRun.eq_def]

theorem sjRun_succ_elements (fuel : Nat) (acc : List JVal) (cs : List Char) :
    sjRun (fuel + 1) (.elements acc) cs =
      match sjRun fuel .value cs with
      | some (v, r1) =>
        (match sjSkipWs r1 with
         | ',' :: r2 => sjRun fuel (.elements (acc ++ [v])) r2
         | ']' :: r2 => some (.jarr (acc ++ [v]), r2)
         | _ => none)
      | none => none := by
  rw [sjRun.eq_def]

/-! ### Token emission up to a boundary -/

/-- The continuations a strict-JSON fragment can be followed by: empty, or
starting with JSON whitespace, a comma, or a closing bracket.  On such
continuations the greedy number and identifier scans of `tokenize` stop
exactly at the fragment's end. -/
def sjBoundary (cs : List Char) : Bool :=
  match cs with
  | [] => true
  | c :: _ => sjWsChar c || c = ',' || c = '}' || c = ']'

/-- `cons` tokenizes to `ts` in front of any boundary continuation. -/
def TkEmits (cons : List Char) (ts : List Token) : Prop :=
  ∀ r2, sjBoundary r2 = true → tokenize (cons ++ r2) = ts ++ tokenize r2

/-- `cons` tokenizes to `ts` in front of every continuation (self-delimited
fragments: whitespace, brackets, punctuation, complete strings). -/
def TkEmitsU (cons : List Char) (ts : List Token) : Prop :=
  ∀ r2, tokenize (cons ++ r2) = ts ++ tokenize r2

theorem TkEmitsU.toTk {cons ts} (h : TkEmitsU cons ts) : TkEmits cons ts :=
  fun r2 _ => h r2

theorem tkU_nil : TkEmitsU [] [] := fun _ => rfl

theorem tkU_append {c1 t1 c2 t2} (h1 : TkEmitsU c1 t1) (h2 : TkEmitsU c2 t2) :
    TkEmitsU (c1 ++ c2) (t1 ++ t2) := by
  intro r2
  rw [List.append_assoc, h1 (c2 ++ r2), h2 r2, List.append_assoc]

theorem tkU_cond_append {c1 t1 c2 t2} (h1 : TkEmitsU c1 t1) (h2 : TkEmits c2 t2) :
    TkEmits (c1 ++ c2) (t1 ++ t2) := by
  intro r2 hb
  rw [List.append_assoc, h1 (c2 ++ r2), h2 r2 hb, List.append_assoc]

theorem sjBoundary_append_of_ne_nil (l r2 : List Char) (h : l ≠ []) :
    sjBoundary (l ++ r2) = sjBoundary l := by
  cases l with
  | nil => exact absurd rfl h
  | cons c cs => rfl

theorem tk_cond_append {c1 t1 c2 t2} (h1 : TkEmits c1 t1) (h2 : TkEmits c2 t2)
    (hbnd : ∀ r2, sjBoundary r2 = true → sjBoundary (c2 ++ r2) = true) :
    TkEmits (c1 ++ c2) (t1 ++ t2) := by
  intro r2 hb
  rw [List.append_assoc, h1 (c2 ++ r2) (hbnd r2 hb), h2 r2 hb, List.append_assoc]

theorem sjWsChar_le32 (c : Char) (h : sjWsChar c = true) : c.toNat ≤ 32 := by
  rw [sjWsChar] at h
  rcases Bool.or_eq_true _ _ |>.mp h with h | h
  · rcases Bool.or_eq_true _ _ |>.mp h with h | h
    · rcases Bool.or_eq_true _ _ |>.mp h with h | h <;>
        (rw [decide_eq_true_iff] at h; subst h; decide)
    · rw [decide_eq_true_iff] at h; subst h; decide
  · rw [decide_eq_true_iff] at h; subst h; decide

theorem sjBoundary_cases (c : Char) (l : List Char) (h : sjBoundary (c :: l) = true) :
    c = ' ' ∨ c = '\t' ∨ c = '\n' ∨ c = '\r' ∨ c = ',' ∨ c = '}' ∨ c = ']' := by
  have h' : (sjWsChar c || c = ',' || c = '}' || c = ']') = true := h
  rcases Bool.or_eq_true _ _ |>.mp h' with h1 | h1
  · rcases Bool.or_eq_true _ _ |>.mp h1 with h2 | h2
    · rcases Bool.or_eq_true _ _ |>.mp h2 with h3 | h3
      · rw [sjWsChar] at h3
        rcases Bool.or_eq_true _ _ |>.mp h3 with h4 | h4
        · rcases Bool.or_eq_true _ _ |>.mp h4 with h5 | h5
          · rcases Bool.or_eq_true _ _ |>.mp h5 with h6 | h6 <;>
              rw [decide_eq_true_iff] at h6
            · exact Or.inl h6
            · exact Or.inr (Or.inl h6)
          · rw [decide_eq_true_iff] at h5
            exact Or.inr (Or.inr (Or.inl h5))
        · rw [decide_eq_true_iff] at h4
          exact Or.inr (Or.inr (Or.inr (Or.inl h4)))
      · rw [decide_eq_true_iff] at h3
        exact Or.inr (Or.inr (Or.inr (Or.inr (Or.inl h3))))
    · rw [decide_eq_true_iff] at h2
      exact Or.inr (Or.inr (Or.inr (Or.inr (Or.inr (Or.inl h2)))))
  · rw [decide_eq_true_iff] at h1
    exact Or.inr (Or.inr (Or.inr (Or.inr (Or.inr (Or.inr h1)))))

theorem sjBoundary_not_decnum (r2 : List Char) (h : sjBoundary r2 = true) :
    ∀ c cs, r2 = c :: cs → isDecNumChar c = false := by
  intro c cs hr
  subst hr
  rcases sjBoundary_cases c cs h with h | h | h | h | h | h | h <;> subst h <;> decide

theorem sjBoundary_identStop (r2 : List Char) (h : sjBoundary r2 = true) :
    ∀ c cs, r2 = c :: cs → isIdentStop c = true := by
  intro c cs hr
  subst hr
  rcases sjBoundary_cases c cs h with h | h | h | h | h | h | h <;> subst h <;> decide

/-- Whitespace prefixes emit no tokens, in front of anything. -/
theorem tkU_ws (ws : List Char) (h : ∀ c ∈ ws, sjWsChar c = true) : TkEmitsU ws [] := by
  intro r2
  exact tokenize_ws_append ws r2 (fun c hc => sjWsChar_le32 c (h c hc))

theorem tkU_skipWsFront (cs : List Char) : TkEmitsU (cs.takeWhile sjWsChar) [] :=
  tkU_ws _ (fun c hc => List.mem_takeWhile_imp hc)

theorem tkU_bracket (b : Char) (hb : b = '{' ∨ b = '}' ∨ b = '[' ∨ b = ']') :
    TkEmitsU [b] [bTok b] := by
  intro r2
  exact tokenize_bracket b hb r2

theorem tkU_punct (p : Char) (hp : p = ',' ∨ p = ':') : TkEmitsU [p] [pTok p] := by
  intro r2
  exact tokenize_punct p hp r2

theorem tkU_string (body : List Char) (hsb : sjScanBody body = true) :
    TkEmitsU ('"' :: body ++ ['"']) [sTok ('"' :: body ++ ['"'])] := by
  intro r2
  have h := tokenize_string body r2 hsb
  rw [show ('"' :: body ++ ['"']) ++ r2 = '"' :: body ++ '"' :: r2 from by simp]
  exact h

/-! ### Frame bookkeeping equations -/

theorem setKey_objFrame (k : List Char) (acc : List (List Char × JVal))
    (lnk : Option PLink) (TL : List Frame) :
    setKey k (⟨CVal.obj acc, none, lnk⟩ :: TL) = ⟨CVal.obj acc, some k, lnk⟩ :: TL := rfl

theorem assignVal_objKey (acc : List (List Char × JVal)) (k : List Char)
    (lnk : Option PLink) (v : JVal) :
    Frame.assignVal ⟨CVal.obj acc, some k, lnk⟩ v =
      ⟨CVal.obj (objAssign k v acc), none, lnk⟩ := rfl

theorem assignVal_arr (es : List JVal) (lnk : Option PLink) (v : JVal) :
    Frame.assignVal ⟨CVal.arr es, none, lnk⟩ v = ⟨CVal.arr (es ++ [v]), none, lnk⟩ := rfl

theorem recv_objKey (acc : List (List Char × JVal)) (k : List Char) (lnk : Option PLink) :
    Recv ⟨CVal.obj acc, some k, lnk⟩ := fun _ _ => rfl

theorem recv_arr (es : List JVal) (key : Option (List Char)) (lnk : Option PLink) :
    Recv ⟨CVal.arr es, key, lnk⟩ := fun _ h => nomatch h

theorem dropComma_comma (l : List Token) : dropComma (pTok ',' :: l) = l := rfl

theorem dropComma_close (b : Char) (hb : b = '}' ∨ b = ']') (l : List Token) :
    dropComma (bTok b :: l) = bTok b :: l := by
  obtain rfl | rfl := hb <;> rfl

/-- `createObjectContainer`/`createArrayContainer` against `assignValue`:
pushing onto a receptive frame links the new child so that attaching it
back equals assigning its final value. -/
theorem pushContainer_attach (f : Frame) (tl : List Frame) (cv : CVal) (hrecv : Recv f) :
    ∃ lnk f', pushContainer cv (f :: tl) = ⟨cv, none, lnk⟩ :: f' :: tl ∧
      (∀ cv', attach f' ⟨cv', none, lnk⟩ = f.assignVal (cvalToJ cv')) ∧
      (f' = f ∨ f' = { f with key := none }) := by
  obtain ⟨cval, key, flink⟩ := f
  cases cval with
  | obj fs =>
    have hk : key.isSome = true := hrecv fs rfl
    cases key with
    | none => cases hk
    | some k =>
      refine ⟨some (.intoKey k), ⟨CVal.obj fs, none, flink⟩, rfl, ?_, Or.inr rfl⟩
      intro cv'
      cases cv' <;> rfl
  | arr es =>
    refine ⟨some .intoArr, ⟨CVal.arr es, key, flink⟩, rfl, ?_, Or.inl rfl⟩
    intro cv'
    cases cv' <;> rfl

theorem pushContainer_top (cv : CVal) : pushContainer cv [] = [⟨cv, none, none⟩] := rfl

/-! ### Strings: `sjStrChars` against `parseStringValue` -/

theorem sjStrChars_cons (c : Char) (tl : List Char) :
    sjStrChars (c :: tl) =
      (if c = '"' then some ([], tl)
       else if c = '\\' then
         match tl with
         | 'u' :: a :: b :: c2 :: d :: tl2 =>
           (match hexVal? a, hexVal? b, hexVal? c2, hexVal? d with
            | some va, some vb, some vc, some vd =>
                (sjStrChars tl2).map (fun p =>
                  (Char.ofNat (((va * 16 + vb) * 16 + vc) * 16 + vd) :: p.1, p.2))
            | _, _, _, _ => none)
         | e :: tl2 =>
           if e = 'u' then none
           else
             match jsonUnescape e with
             | some ch => (sjStrChars tl2).map (fun p => (ch :: p.1, p.2))
             | none => none
         | [] => none
       else if c.toNat ≤ 31 then none
       else (sjStrChars tl).map (fun p => (c :: p.1, p.2))) := by
  rw [sjStrChars.eq_def]

theorem sjScanBody_esc (e : Char) (rest : List Char) :
    sjScanBody ('\\' :: e :: rest) = sjScanBody rest := by
  rw [sjScanBody_cons]
  rfl

theorem sjScanBody_plain (c : Char) (rest : List Char) (h1 : ¬ c = '\\')
    (h2 : ¬ (c = '"' || c = '\n' || c = '\r') = true) :
    sjScanBody (c :: rest) = sjScanBody rest := by
  rw [sjScanBody_cons, if_neg h1, if_neg h2]

theorem charBound_ne (a : Char) (lo hi : Nat) (hb : lo ≤ a.toNat ∧ a.toNat ≤ hi)
    (b : Char) (hno : ¬ (lo ≤ b.toNat ∧ b.toNat ≤ hi)) : ¬ a = b :=
  fun h => hno (by rw [← h]; exact hb)

theorem hexVal?_bounds (a : Char) (va : Nat) (h : hexVal? a = some va) :
    (48 ≤ a.toNat ∧ a.toNat ≤ 57) ∨ (97 ≤ a.toNat ∧ a.toNat ≤ 102) ∨
      (65 ≤ a.toNat ∧ a.toNat ≤ 70) := by
  rw [hexVal?] at h
  split at h
  · rename_i hd
    rw [isDigit, Bool.and_eq_true, decide_eq_true_iff, decide_eq_true_iff] at hd
    exact Or.inl hd
  · split at h
    · rename_i hd
      rw [Bool.and_eq_true, decide_eq_true_iff, decide_eq_true_iff] at hd
      exact Or.inr (Or.inl hd)
    · split at h
      · rename_i hd
        rw [Bool.and_eq_true, decide_eq_true_iff, decide_eq_true_iff] at hd
        exact Or.inr (Or.inr hd)
      · cases h

theorem hexVal?_char_facts (a : Char) (va : Nat) (h : hexVal? a = some va) :
    31 < a.toNat ∧ ¬ a = '\\' ∧ ¬ (a = '"' || a = '\n' || a = '\r') = true := by
  rcases hexVal?_bounds a va h with hb | hb | hb <;>
  · refine ⟨by omega, charBound_ne a _ _ hb '\\' (by decide), ?_⟩
    intro hc
    rcases Bool.or_eq_true _ _ |>.mp hc with hc | hc
    · rcases Bool.or_eq_true _ _ |>.mp hc with hc | hc <;>
        (rw [decide_eq_true_iff] at hc; rw [hc] at hb; exact absurd hb (by decide))
    · rw [decide_eq_true_iff] at hc; rw [hc] at hb; exact absurd hb (by decide)

theorem jsonUnescape_gt31 (e ch : Char) (h : jsonUnescape e = some ch) :
    31 < e.toNat ∧ ¬ (e = '"' || e = '\n' || e = '\r') = true ∨
      e = '"' ∨ e = '\\' := by
  by_cases h1 : e = '"'
  · exact Or.inr (Or.inl h1)
  by_cases h2 : e = '\\'
  · exact Or.inr (Or.inr h2)
  by_cases h3 : e = '/'
  · subst h3; exact Or.inl ⟨by decide, by decide⟩
  by_cases h4 : e = 'b'
  · subst h4; exact Or.inl ⟨by decide, by decide⟩
  by_cases h5 : e = 'f'
  · subst h5; exact Or.inl ⟨by decide, by decide⟩
  by_cases h6 : e = 'n'
  · subst h6; exact Or.inl ⟨by decide, by decide⟩
  by_cases h7 : e = 'r'
  · subst h7; exact Or.inl ⟨by decide, by decide⟩
  by_cases h8 : e = 't'
  · subst h8; exact Or.inl ⟨by decide, by decide⟩
  · exfalso
    simp [jsonUnescape, h1, h2, h3, h4, h5, h6, h7, h8] at h

theorem jsonStrAux_quote (acc rest : List Char) :
    jsonStrAux acc ('"' :: rest) =
      if rest = [] then .ok acc.reverse else .error .stringDecode := by
  rw [jsonStrAux.eq_def]
  rfl

theorem jsonStrAux_u4 (acc : List Char) (a b c d : Char) (tl : List Char) :
    jsonStrAux acc ('\\' :: 'u' :: a :: b :: c :: d :: tl) =
      (match hexVal? a, hexVal? b, hexVal? c, hexVal? d with
       | some va, some vb, some vc, some vd =>
           jsonStrAux (Char.ofNat (((va * 16 + vb) * 16 + vc) * 16 + vd) :: acc) tl
       | _, _, _, _ => .error .stringDecode) := by
  rw [jsonStrAux.eq_def]
  rfl

theorem jsonStrAux_esc (acc : List Char) (e : Char) (rest : List Char) (he : ¬ e = 'u') :
    jsonStrAux acc ('\\' :: e :: rest) =
      (match jsonUnescape e with
       | some ch => jsonStrAux (ch :: acc) rest
       | none => .error .stringDecode) := by
  rw [jsonStrAux.eq_def]
  split
  · rename_i heq
    simp at heq
  · rename_i heq
    injection heq with ha _
    exact absurd ha (by decide)
  · rename_i heq
    injection heq with _ h2
    injection h2 with h3 _
    exact absurd h3 he
  · rename_i _ e2 r2 _ heq
    injection heq with _ h2
    injection h2 with h3 h4
    subst h3
    subst h4
    rfl
  · rename_i heq
    injection heq with _ h2
    simp at h2
  · rename_i _ cq rq _ _ hno _ heq
    injection heq with h1 h2
    exact (hno e rest h1.symm h2.symm).elim

theorem jsonStrAux_plain (acc : List Char) (c : Char) (rest : List Char)
    (hq : ¬ c = '"') (hbs : ¬ c = '\\') :
    jsonStrAux acc (c :: rest) =
      if c.toNat ≤ 31 then .error .stringDecode else jsonStrAux (c :: acc) rest := by
  rw [jsonStrAux.eq_def]
  split
  · rename_i heq
    simp at heq
  · rename_i heq
    injection heq with ha _
    exact absurd ha hq
  · rename_i heq
    injection heq with ha _
    exact absurd ha hbs
  · rename_i _ e2 r2 _ heq
    injection heq with ha _
    exact absurd ha hbs
  · rename_i heq
    injection heq with ha _
    exact absurd ha hbs
  · rename_i _ cq rq _ _ _ _ heq
    injection heq with h1 h2
    subst h1
    subst h2
    rfl

theorem escapeCtrl_id (s : List Char) (h : ∀ c ∈ s, 31 < c.toNat) : escapeCtrl s = s := by
  induction s with
  | nil => rfl
  | cons c tl ih =>
    rw [escapeCtrl, List.flatMap_cons, ctrlEscape,
      if_neg (by have := h c (List.mem_cons_self c tl); omega)]
    have := ih (fun d hd => h d (List.mem_cons_of_mem c hd))
    rw [escapeCtrl] at this
    rw [this]
    rfl

theorem sjStrChars_sound : ∀ (n : Nat) (cs : List Char), cs.length ≤ n →
    ∀ content rest, sjStrChars cs = some (content, rest) →
    ∃ body, cs = body ++ '"' :: rest ∧ sjScanBody body = true ∧
      (∀ c ∈ body, 31 < c.toNat) ∧
      (∀ acc, jsonStrAux acc (body ++ ['"']) = .ok (acc.reverse ++ content)) := by
  intro n
  induction n with
  | zero =>
    intro cs hlen content rest h
    have hc : cs = [] := List.length_eq_zero.mp (Nat.le_zero.mp hlen)
    subst hc
    rw [show sjStrChars [] = none from by rw [sjStrChars.eq_def]] at h
    cases h
  | succ n ih =>
    intro cs hlen content rest h
    match cs, hlen with
    | [], _ =>
      rw [show sjStrChars [] = none from by rw [sjStrChars.eq_def]] at h
      cases h
    | c :: tl, hlen =>
      rw [sjStrChars_cons] at h
      by_cases hq : c = '"'
      · rw [if_pos hq] at h
        injection h with h'
        injection h' with h1 h2
        subst hq
        subst h2
        subst h1
        exact ⟨[], rfl, rfl, fun x hx => absurd hx (List.not_mem_nil x), fun acc => by
          rw [List.nil_append, jsonStrAux_quote, if_pos rfl]
          simp⟩
      · rw [if_neg hq] at h
        by_cases hbs : c = '\\'
        · rw [if_pos hbs] at h
          subst hbs
          split at h
          · -- the `\uXXXX` alternative
            rename_i a b c2 d tl2
            split at h
            · rename_i va vb vc vd ha hb hc2 hd
              rcases hrec : sjStrChars tl2 with _ | ⟨content', rest'⟩ <;> rw [hrec] at h
              · rw [Option.map_none'] at h
                cases h
              · simp only [Option.map_some'] at h
                injection h with h'
                injection h' with h1 h2
                subst h2
                subst h1
                obtain ⟨body', hsplit, hscan, hctrl, haux⟩ :=
                  ih tl2 (by simp only [List.length_cons] at hlen; omega) content' rest' hrec
                refine ⟨'\\' :: 'u' :: a :: b :: c2 :: d :: body', by rw [hsplit]; rfl, ?_, ?_, ?_⟩
                · rw [sjScanBody_esc]
                  obtain ⟨_, hane, hanl⟩ := hexVal?_char_facts a va ha
                  obtain ⟨_, hbne, hbnl⟩ := hexVal?_char_facts b vb hb
                  obtain ⟨_, hcne, hcnl⟩ := hexVal?_char_facts c2 vc hc2
                  obtain ⟨_, hdne, hdnl⟩ := hexVal?_char_facts d vd hd
                  rw [sjScanBody_plain a _ hane hanl, sjScanBody_plain b _ hbne hbnl,
                    sjScanBody_plain c2 _ hcne hcnl, sjScanBody_plain d _ hdne hdnl]
                  exact hscan
                · intro x hx
                  rcases List.mem_cons.mp hx with hxa | hx
                  · rw [hxa]; decide
                  rcases List.mem_cons.mp hx with hxa | hx
                  · rw [hxa]; decide
                  rcases List.mem_cons.mp hx with hxa | hx
                  · rw [hxa]; exact (hexVal?_char_facts a va ha).1
                  rcases List.mem_cons.mp hx with hxa | hx
                  · rw [hxa]; exact (hexVal?_char_facts b vb hb).1
                  rcases List.mem_cons.mp hx with hxa | hx
                  · rw [hxa]; exact (hexVal?_char_facts c2 vc hc2).1
                  rcases List.mem_cons.mp hx with hxa | hx
                  · rw [hxa]; exact (hexVal?_char_facts d vd hd).1
                  · exact hctrl x hx
                · intro acc
                  rw [show ('\\' :: 'u' :: a :: b :: c2 :: d :: body') ++ ['"'] =
                        '\\' :: 'u' :: a :: b :: c2 :: d :: (body' ++ ['"']) from rfl,
                    jsonStrAux_u4, ha, hb, hc2, hd]
                  show jsonStrAux
                      (Char.ofNat (((va * 16 + vb) * 16 + vc) * 16 + vd) :: acc)
                      (body' ++ ['"']) = _
                  rw [haux]
                  simp
            · cases h
          · -- the short-escape alternative
            rename_i e tl2 _
            by_cases heu : e = 'u'
            · rw [if_pos heu] at h
              cases h
            · rw [if_neg heu] at h
              split at h
              · rename_i ch hje
                rcases hrec : sjStrChars tl2 with _ | ⟨content', rest'⟩ <;> rw [hrec] at h
                · rw [Option.map_none'] at h
                  cases h
                · simp only [Option.map_some'] at h
                  injection h with h'
                  injection h' with h1 h2
                  subst h2
                  subst h1
                  obtain ⟨body', hsplit, hscan, hctrl, haux⟩ :=
                    ih tl2 (by simp only [List.length_cons] at hlen; omega) content' rest' hrec
                  have hegt : 31 < e.toNat := by
                    rcases jsonUnescape_gt31 e ch hje with ⟨hgt, _⟩ | he | he
                    · exact hgt
                    · subst he; decide
                    · subst he; decide
                  refine ⟨'\\' :: e :: body', by rw [hsplit]; rfl, ?_, ?_, ?_⟩
                  · rw [sjScanBody_esc]
                    exact hscan
                  · intro x hx
                    rcases List.mem_cons.mp hx with hxa | hx
                    · rw [hxa]; decide
                    rcases List.mem_cons.mp hx with hxa | hx
                    · rw [hxa]; exact hegt
                    · exact hctrl x hx
                  · intro acc
                    rw [show ('\\' :: e :: body') ++ ['"'] =
                          '\\' :: e :: (body' ++ ['"']) from rfl,
                      jsonStrAux_esc acc e _ heu, hje]
                    show jsonStrAux (ch :: acc) (body' ++ ['"']) = _
                    rw [haux]
                    simp
              · cases h
          · -- tl = [] alternative
            cases h
        · rw [if_neg hbs] at h
          by_cases hctl : c.toNat ≤ 31
          · rw [if_pos hctl] at h
            cases h
          · rw [if_neg hctl] at h
            rcases hrec : sjStrChars tl with _ | ⟨content', rest'⟩ <;> rw [hrec] at h
            · rw [Option.map_none'] at h
              cases h
            · simp only [Option.map_some'] at h
              injection h with h'
              injection h' with h1 h2
              subst h2
              subst h1
              obtain ⟨body', hsplit, hscan, hctrl, haux⟩ :=
                ih tl (by simp only [List.length_cons] at hlen; omega) content' rest' hrec
              refine ⟨c :: body', by rw [hsplit]; rfl, ?_, ?_, ?_⟩
              · rw [sjScanBody_plain c _ hbs (by
                  intro hcon
                  rcases Bool.or_eq_true _ _ |>.mp hcon with hcc | hcc
                  · rcases Bool.or_eq_true _ _ |>.mp hcc with hcc | hcc <;>
                      rw [decide_eq_true_iff] at hcc
                    · exact hq hcc
                    · rw [hcc] at hctl
                      exact hctl (by decide)
                  · rw [decide_eq_true_iff] at hcc
                    rw [hcc] at hctl
                    exact hctl (by decide))]
                exact hscan
              · intro x hx
                rcases List.mem_cons.mp hx with hxa | hx
                · rw [hxa]; omega
                · exact hctrl x hx
              · intro acc
                rw [show (c :: body') ++ ['"'] = c :: (body' ++ ['"']) from rfl,
                  jsonStrAux_plain acc c _ hq hbs, if_neg hctl, haux]
                simp

/-- The string token a strict string literal tokenizes to decodes (through
the control-character pre-escape and `JSON.parse`) to the literal's
content. -/
theorem parseStringValue_strict (body content : List Char)
    (hctrl : ∀ c ∈ body, 31 < c.toNat)
    (haux : ∀ acc, jsonStrAux acc (body ++ ['"']) = .ok (acc.reverse ++ content)) :
    parseStringValue (sTok ('"' :: body ++ ['"'])) = .ok content := by
  rw [parseStringValue]
  have hid : escapeCtrl ('"' :: body ++ ['"']) = '"' :: body ++ ['"'] := by
    apply escapeCtrl_id
    intro c hcm
    rcases List.mem_cons.mp hcm with rfl | hcm
    · decide
    rcases List.mem_append.mp hcm with hcm | hcm
    · exact hctrl c hcm
    · rcases List.mem_cons.mp hcm with rfl | hcm
      · decide
      · exact absurd hcm (List.not_mem_nil c)
  rw [show (sTok ('"' :: body ++ ['"'])).value = '"' :: body ++ ['"'] from rfl, hid]
  have := haux []
  rw [List.reverse_nil, List.nil_append] at this
  exact this

/-! ### Numbers: `sjNumber` against `parseNumberValue` -/

theorem dropWhile_head_false {α : Type} (p : α → Bool) :
    ∀ (l : List α) (t : α) (ts : List α), l.dropWhile p = t :: ts → p t = false := by
  intro l
  induction l with
  | nil => intro t ts h; cases h
  | cons x xs ih =>
    intro t ts h
    rw [List.dropWhile_cons] at h
    by_cases hx : p x = true
    · rw [if_pos hx] at h
      exact ih t ts h
    · rw [if_neg hx] at h
      injection h with h1 _
      rw [← h1]
      exact Bool.eq_false_iff.mpr hx

theorem takeWhile_all (p : Char → Bool) (l : List Char) (h : ∀ c ∈ l, p c = true) :
    l.takeWhile p = l := by
  have := takeWhile_all_stop p l [] h (fun c cs hc => by cases hc)
  rwa [List.append_nil] at this

theorem dropWhile_all (p : Char → Bool) (l : List Char) (h : ∀ c ∈ l, p c = true) :
    l.dropWhile p = [] := by
  have := dropWhile_all_stop p l [] h (fun c cs hc => by cases hc)
  rwa [List.append_nil] at this

theorem digitsVal10_foldl : ∀ (ds : List Char), (∀ c ∈ ds, isDigit c = true) →
    ∀ a : Nat, List.foldl (fun a c => a * 10 + digitVal c) a ds =
      List.foldl (fun a c => 10 * a + (c.toNat - 48)) a ds := by
  intro ds
  induction ds with
  | nil => intro _ a; rfl
  | cons c tl ih =>
    intro h a
    rw [List.foldl_cons, List.foldl_cons, digitVal,
      if_pos (h c (List.mem_cons_self c tl)), Nat.mul_comm]
    exact ih (fun x hx => h x (List.mem_cons_of_mem c hx)) _

theorem digitsVal10_eq (ds : List Char) (h : ∀ c ∈ ds, isDigit c = true) :
    digitsVal 10 ds = sjDigitsToNat ds := by
  rw [digitsVal, sjDigitsToNat]
  exact digitsVal10_foldl ds h 0

theorem parseNumberValue_nTok (text : List Char) (neg : Bool) :
    parseNumberValue (nTok text neg) =
      (if neg then (jsParseFloat text).neg else jsParseFloat text) := rfl

theorem sjFrac_inv (r1 fp r2 : List Char) (h : sjFrac r1 = some (fp, r2)) :
    (fp = [] ∧ r2 = r1 ∧ (∀ t ts, r1 = t :: ts → ¬ t = '.')) ∨
    (fp ≠ [] ∧ (∀ c ∈ fp, isDigit c = true) ∧ r1 = '.' :: (fp ++ r2) ∧
      (∀ t ts, r2 = t :: ts → isDigit t = false)) := by
  rw [sjFrac.eq_def] at h
  split at h
  · rename_i r
    split at h
    · cases h
    · rename_i hne
      injection h with h'
      injection h' with h1 h2
      refine Or.inr ⟨?_, ?_, ?_, ?_⟩
      · rw [← h1]
        intro hcon
        exact hne (by rw [hcon])
      · intro c hc
        rw [← h1] at hc
        exact List.mem_takeWhile_imp hc
      · rw [← h1, ← h2, List.takeWhile_append_dropWhile]
      · intro t ts ht
        rw [← h2] at ht
        exact dropWhile_head_false isDigit r t ts ht
  · rename_i hnodot
    injection h with h'
    injection h' with h1 h2
    refine Or.inl ⟨h1.symm, h2.symm, ?_⟩
    intro t ts ht hdot
    subst hdot
    exact hnodot ts ht

theorem sjExp_inv (r2 : List Char) (ex : Int) (r3 : List Char)
    (h : sjExp r2 = some (ex, r3)) :
    (ex = 0 ∧ r3 = r2 ∧ (∀ t ts, r2 = t :: ts → ¬ t = 'e' ∧ ¬ t = 'E')) ∨
    (∃ echar sgn ed, (echar = 'e' ∨ echar = 'E') ∧
      (sgn = [] ∨ sgn = ['-'] ∨ sgn = ['+']) ∧ ed ≠ [] ∧
      (∀ c ∈ ed, isDigit c = true) ∧
      r2 = echar :: (sgn ++ (ed ++ r3)) ∧
      ex = (if sgn = ['-'] then (-1 : Int) else 1) * (sjDigitsToNat ed : Int) ∧
      (∀ t ts, r3 = t :: ts → isDigit t = false)) := by
  rw [sjExp.eq_def] at h
  split at h
  · injection h with h'
    injection h' with h1 h2
    exact Or.inl ⟨h1.symm, h2.symm, fun t ts ht => by cases ht⟩
  · rename_i e r
    by_cases he : (e = 'e' || e = 'E') = true
    · rw [if_pos he] at h
      have heor : e = 'e' ∨ e = 'E' := by
        rcases Bool.or_eq_true _ _ |>.mp he with h' | h' <;>
          rw [decide_eq_true_iff] at h'
        · exact Or.inl h'
        · exact Or.inr h'
      dsimp only at h
      split at h
      · cases h
      · rename_i ds hds
        injection h with h'
        injection h' with h1 h2
        by_cases hm : r.head? = some '-'
        · rcases r with _ | ⟨r0, rtl⟩
          · cases hm
          rw [List.head?_cons, Option.some.injEq] at hm
          subst hm
          have hdrop : (if (decide (('-' :: rtl).head? = some '-') ||
              decide (('-' :: rtl).head? = some '+')) = true
              then List.drop 1 ('-' :: rtl) else '-' :: rtl) = rtl := by
            simp
          rw [hdrop] at hds h1 h2
          refine Or.inr ⟨e, ['-'], rtl.takeWhile isDigit, heor, Or.inr (Or.inl rfl),
            hds, fun c hc => List.mem_takeWhile_imp hc, ?_, ?_, ?_⟩
          · rw [← h2]
            simp [List.takeWhile_append_dropWhile]
          · rw [← h1]
            simp
          · intro t ts ht
            rw [← h2] at ht
            exact dropWhile_head_false isDigit rtl t ts ht
        · by_cases hp : r.head? = some '+'
          · rcases r with _ | ⟨r0, rtl⟩
            · cases hp
            rw [List.head?_cons, Option.some.injEq] at hp
            subst hp
            have hdrop : (if (decide (('+' :: rtl).head? = some '-') ||
                decide (('+' :: rtl).head? = some '+')) = true
                then List.drop 1 ('+' :: rtl) else '+' :: rtl) = rtl := by
              simp
            rw [hdrop] at hds h1 h2
            refine Or.inr ⟨e, ['+'], rtl.takeWhile isDigit, heor, Or.inr (Or.inr rfl),
              hds, fun c hc => List.mem_takeWhile_imp hc, ?_, ?_, ?_⟩
            · rw [← h2]
              simp [List.takeWhile_append_dropWhile]
            · rw [← h1]
              simp
            · intro t ts ht
              rw [← h2] at ht
              exact dropWhile_head_false isDigit rtl t ts ht
          · have hdrop : (if (decide (r.head? = some '-') ||
                decide (r.head? = some '+')) = true
                then List.drop 1 r else r) = r := by
              simp [hm, hp]
            rw [hdrop] at hds h1 h2
            refine Or.inr ⟨e, [], r.takeWhile isDigit, heor, Or.inl rfl,
              hds, fun c hc => List.mem_takeWhile_imp hc, ?_, ?_, ?_⟩
            · rw [← h2]
              simp [List.takeWhile_append_dropWhile]
            · rw [← h1]
              simp [hm]
            · intro t ts ht
              rw [← h2] at ht
              exact dropWhile_head_false isDigit r t ts ht
    · rw [if_neg he] at h
      injection h with h'
      injection h' with h1 h2
      refine Or.inl ⟨h1.symm, h2.symm, ?_⟩
      intro t ts ht
      injection ht with ht1 _
      subst ht1
      constructor
      · intro hcon
        exact he (by rw [hcon]; decide)
      · intro hcon
        exact he (by rw [hcon]; decide)

/-- `parseFloat` on an exactly strict-shaped decimal literal computes the
RFC 8259 number value. -/
theorem jsParseFloat_strict (d : Char) (ip' fp ed : List Char) (exq : Int)
    (fracText expText : List Char)
    (hd : isDigit d = true)
    (hipd : ∀ c ∈ ip', isDigit c = true)
    (hfpd : ∀ c ∈ fp, isDigit c = true)
    (hfrac : (fp = [] ∧ fracText = []) ∨ fracText = '.' :: fp)
    (hexp : (expText = [] ∧ exq = 0 ∧ ed = []) ∨
      (∃ echar sgn, (echar = 'e' ∨ echar = 'E') ∧
        (sgn = [] ∨ sgn = ['-'] ∨ sgn = ['+']) ∧ ed ≠ [] ∧
        (∀ c ∈ ed, isDigit c = true) ∧
        expText = echar :: (sgn ++ ed) ∧
        exq = (if sgn = ['-'] then (-1 : Int) else 1) * (sjDigitsToNat ed : Int))) :
    jsParseFloat (d :: (ip' ++ (fracText ++ expText))) =
      .val (((sjDigitsToNat (d :: ip') : ℚ) +
        (sjDigitsToNat fp : ℚ) / (10 : ℚ) ^ fp.length) * (10 : ℚ) ^ exq) := by
  have hdm : ¬ d = '-' := fun hcon => by rw [hcon] at hd; cases hd
  have hdp : ¬ d = '+' := fun hcon => by rw [hcon] at hd; cases hd
  have hipall : ∀ c ∈ d :: ip', isDigit c = true := by
    intro c hc
    rcases List.mem_cons.mp hc with hca | hc
    · rw [hca]; exact hd
    · exact hipd c hc
  -- the character after the integer digits is not a digit
  have hstop1 : ∀ t ts, fracText ++ expText = t :: ts → isDigit t = false := by
    intro t ts ht
    rcases hfrac with ⟨_, hft⟩ | hft
    · rw [hft, List.nil_append] at ht
      rcases hexp with ⟨het, _, _⟩ | ⟨echar, sgn, heor, _, _, _, het, _⟩
      · rw [het] at ht; cases ht
      · rw [het] at ht
        injection ht with ht1 _
        rw [← ht1]
        rcases heor with h' | h' <;> (rw [h']; decide)
    · rw [hft] at ht
      injection ht with ht1 _
      rw [← ht1]
      decide
  have htw : (d :: (ip' ++ (fracText ++ expText))).takeWhile isDigit = d :: ip' := by
    rw [List.takeWhile_cons]
    simp [hd, takeWhile_all_stop isDigit ip' _ hipd hstop1]
  have hdw : (d :: (ip' ++ (fracText ++ expText))).dropWhile isDigit =
      fracText ++ expText := by
    rw [List.dropWhile_cons]
    simp [hd, dropWhile_all_stop isDigit ip' _ hipd hstop1]
  have hbridge : ∀ ipl fpl : List Char, (∀ c ∈ ipl, isDigit c = true) →
      (∀ c ∈ fpl, isDigit c = true) → ∀ exv : Int,
      qmul (qadd (digitsVal 10 ipl : ℚ)
          (qdiv (digitsVal 10 fpl : ℚ) (qpow 10 fpl.length))) (qzpow 10 exv) =
        ((sjDigitsToNat ipl : ℚ) + (sjDigitsToNat fpl : ℚ) / (10 : ℚ) ^ fpl.length) *
          (10 : ℚ) ^ exv := by
    intro ipl fpl hi hf exv
    rw [qmul_eq_mul, qadd_eq_add, qdiv_eq_div, qpow_eq_pow, qzpow_eq_zpow,
      digitsVal10_eq ipl hi, digitsVal10_eq fpl hf]
  rcases hfrac with ⟨hfp, hft⟩ | hft
  · subst hfp
    subst hft
    rcases hexp with ⟨het, hexq, _⟩ | ⟨echar, sgn, heor, hsgn, hed, hedd, het, hexq⟩
    · subst het
      subst hexq
      simp only [List.nil_append] at htw hdw ⊢
      simp only [jsParseFloat, List.head?_cons, Option.some.injEq, hdm, hdp,
        decide_False, Bool.or_self, Bool.false_eq_true, reduceIte, htw, hdw,
        List.head?_nil, reduceCtorEq, List.isEmpty_cons, Bool.false_and]
      rw [hbridge _ _ hipall (fun c hc => absurd hc (List.not_mem_nil c)) 0]
    · subst het
      subst hexq
      have hech : (echar = 'e' || echar = 'E') = true := by
        rcases heor with h' | h' <;> (rw [h']; decide)
      have hechdot : ¬ echar = '.' := by
        rcases heor with h' | h' <;> (rw [h']; decide)
      have hedf : ed.isEmpty = false := by
        rcases ed with _ | ⟨x, xs⟩
        · exact absurd rfl hed
        · rfl
      have htwed := takeWhile_all isDigit ed hedd
      rcases hsgn with rfl | rfl | rfl
      · -- no exponent sign
        simp only [List.nil_append] at htw hdw ⊢
        have hedh : ∀ t ts, ed = t :: ts → ¬ t = '-' ∧ ¬ t = '+' := by
          intro t ts ht
          have := hedd t (by rw [ht]; exact List.mem_cons_self t ts)
          constructor
          · intro hcon; rw [hcon] at this; cases this
          · intro hcon; rw [hcon] at this; cases this
        have hedhm : (decide (ed.head? = some '-') || decide (ed.head? = some '+')) = false := by
          rcases hh : ed with _ | ⟨x, xs⟩
          · simp
          · obtain ⟨hx1, hx2⟩ := hedh x xs hh
            simp [hx1, hx2]
        simp only [jsParseFloat, List.head?_cons, Option.some.injEq, hdm, hdp,
          decide_False, Bool.or_self, Bool.false_eq_true, reduceIte, htw, hdw,
          hechdot, hech, hedhm, htwed, hedf, List.isEmpty_cons, Bool.false_and]
        rw [hbridge _ _ hipall (fun c hc => absurd hc (List.not_mem_nil c)) _]
        have hmne : ¬ ed.head? = some '-' := by
          rcases hh : ed with _ | ⟨x, xs⟩
          · simp
          · obtain ⟨hx1, _⟩ := hedh x xs hh
            simp [hx1]
        rw [if_neg hmne, digitsVal10_eq ed hedd]
        rfl
      · -- exponent sign '-'
        simp only [List.cons_append, List.nil_append] at htw hdw ⊢
        simp only [jsParseFloat, List.head?_cons, Option.some.injEq, hdm, hdp,
          decide_False, Bool.or_self, Bool.false_eq_true, reduceIte, htw, hdw,
          hechdot, hech, htwed, hedf, List.isEmpty_cons, Bool.false_and,
          eq_self_iff_true, decide_True, Bool.true_or, List.drop_succ_cons,
          List.drop_zero]
        rw [hbridge _ _ hipall (fun c hc => absurd hc (List.not_mem_nil c)) _]
        rw [digitsVal10_eq ed hedd]
      · -- exponent sign '+'
        simp only [List.cons_append, List.nil_append] at htw hdw ⊢
        simp only [jsParseFloat, List.head?_cons, Option.some.injEq, hdm, hdp,
          decide_False, Bool.or_self, Bool.false_eq_true, reduceIte, htw, hdw,
          hechdot, hech, htwed, hedf, List.isEmpty_cons, Bool.false_and,
          eq_self_iff_true, decide_True, Bool.or_true, List.drop_succ_cons,
          List.drop_zero, reduceCtorEq]
        rw [hbridge _ _ hipall (fun c hc => absurd hc (List.not_mem_nil c)) _]
        rw [digitsVal10_eq ed hedd]
        rfl
  · subst hft
    have hstop2 : ∀ t ts, expText = t :: ts → isDigit t = false := by
      intro t ts ht
      rcases hexp with ⟨het, _, _⟩ | ⟨echar, sgn, heor, _, _, _, het, _⟩
      · rw [het] at ht; cases ht
      · rw [het] at ht
        injection ht with ht1 _
        rw [← ht1]
        rcases heor with h' | h' <;> (rw [h']; decide)
    have htwfp : (fp ++ expText).takeWhile isDigit = fp :=
      takeWhile_all_stop isDigit fp expText hfpd hstop2
    have hdwfp : (fp ++ expText).dropWhile isDigit = expText :=
      dropWhile_all_stop isDigit fp expText hfpd hstop2
    rcases hexp with ⟨het, hexq, _⟩ | ⟨echar, sgn, heor, hsgn, hed, hedd, het, hexq⟩
    · subst het
      subst hexq
      simp only [List.cons_append, List.append_nil, List.nil_append]
        at htw hdw htwfp hdwfp
      simp only [jsParseFloat, List.cons_append, List.append_nil,
        List.nil_append, List.head?_cons, Option.some.injEq, hdm, hdp,
        decide_False, Bool.or_self, Bool.false_eq_true, reduceIte, htw, hdw,
        eq_self_iff_true, decide_True, List.drop_succ_cons, List.drop_zero,
        htwfp, hdwfp, List.isEmpty_cons, Bool.false_and]
      rw [hbridge _ _ hipall hfpd _]
    · subst het
      subst hexq
      have hech : (echar = 'e' || echar = 'E') = true := by
        rcases heor with h' | h' <;> (rw [h']; decide)
      have hechdot : ¬ echar = '.' := by
        rcases heor with h' | h' <;> (rw [h']; decide)
      have hedf : ed.isEmpty = false := by
        rcases ed with _ | ⟨x, xs⟩
        · exact absurd rfl hed
        · rfl
      have htwed := takeWhile_all isDigit ed hedd
      rcases hsgn with rfl | rfl | rfl
      · have hedh : ∀ t ts, ed = t :: ts → ¬ t = '-' ∧ ¬ t = '+' := by
          intro t ts ht
          have := hedd t (by rw [ht]; exact List.mem_cons_self t ts)
          constructor
          · intro hcon; rw [hcon] at this; cases this
          · intro hcon; rw [hcon] at this; cases this
        have hedhm : (decide (ed.head? = some '-') || decide (ed.head? = some '+')) = false := by
          rcases hh : ed with _ | ⟨x, xs⟩
          · simp
          · obtain ⟨hx1, hx2⟩ := hedh x xs hh
            simp [hx1, hx2]
        simp only [List.cons_append, List.append_nil, List.nil_append]
          at htw hdw htwfp hdwfp
        simp only [jsParseFloat, List.cons_append, List.append_nil,
          List.nil_append, List.head?_cons, Option.some.injEq, hdm, hdp,
          decide_False, Bool.or_self, Bool.false_eq_true, reduceIte, htw, hdw,
          eq_self_iff_true, decide_True, List.drop_succ_cons, List.drop_zero,
          htwfp, hdwfp, hechdot, hech, hedhm, htwed, hedf, List.isEmpty_cons,
          Bool.false_and]
        rw [hbridge _ _ hipall hfpd _]
        have hmne : ¬ ed.head? = some '-' := by
          rcases hh : ed with _ | ⟨x, xs⟩
          · simp
          · obtain ⟨hx1, _⟩ := hedh x xs hh
            simp [hx1]
        rw [if_neg hmne, digitsVal10_eq ed hedd]
        rfl
      · simp only [List.cons_append, List.append_nil, List.nil_append]
          at htw hdw htwfp hdwfp
        simp only [jsParseFloat, List.cons_append, List.append_nil,
          List.nil_append, List.head?_cons, Option.some.injEq, hdm, hdp,
          decide_False, Bool.or_self, Bool.false_eq_true, reduceIte, htw, hdw,
          eq_self_iff_true, decide_True, Bool.true_or, List.drop_succ_cons,
          List.drop_zero, htwfp, hdwfp, hechdot, hech, htwed, hedf,
          List.isEmpty_cons, Bool.false_and]
        rw [hbridge _ _ hipall hfpd _]
        rw [digitsVal10_eq ed hedd]
      · simp only [List.cons_append, List.append_nil, List.nil_append]
          at htw hdw htwfp hdwfp
        simp only [jsParseFloat, List.cons_append, List.append_nil,
          List.nil_append, List.head?_cons, Option.some.injEq, hdm, hdp,
          decide_False, Bool.or_self, Bool.false_eq_true, reduceIte, htw, hdw,
          eq_self_iff_true, decide_True, Bool.or_true, List.drop_succ_cons,
          List.drop_zero, htwfp, hdwfp, hechdot, hech, htwed, hedf,
          List.isEmpty_cons, Bool.false_and, reduceCtorEq]
        rw [hbridge _ _ hipall hfpd _]
        rw [digitsVal10_eq ed hedd]
        rfl

/-! ### Number and string fragments: tokenizer and leaf-value soundness -/

theorem isDecNumChar_of_digit (c : Char) (h : isDigit c = true) :
    isDecNumChar c = true := by
  rw [isDecNumChar, h]; rfl

theorem sjFracText_decnum (fp : List Char) (hfpd : ∀ c ∈ fp, isDigit c = true) :
    ∀ c ∈ '.' :: fp, isDecNumChar c = true := by
  intro c hc
  rcases List.mem_cons.mp hc with rfl | hc
  · decide
  · exact isDecNumChar_of_digit c (hfpd c hc)

theorem sjExpText_decnum (echar : Char) (sgn ed : List Char)
    (heor : echar = 'e' ∨ echar = 'E')
    (hsgn : sgn = [] ∨ sgn = ['-'] ∨ sgn = ['+'])
    (hedd : ∀ c ∈ ed, isDigit c = true) :
    ∀ c ∈ echar :: (sgn ++ ed), isDecNumChar c = true := by
  intro c hc
  rcases List.mem_cons.mp hc with rfl | hc
  · rcases heor with rfl | rfl <;> decide
  rcases List.mem_append.mp hc with hc | hc
  · rcases hsgn with rfl | rfl | rfl
    · exact absurd hc (List.not_mem_nil c)
    · rcases List.mem_cons.mp hc with rfl | hc
      · decide
      · exact absurd hc (List.not_mem_nil c)
    · rcases List.mem_cons.mp hc with rfl | hc
      · decide
      · exact absurd hc (List.not_mem_nil c)
  · exact isDecNumChar_of_digit c (hedd c hc)

theorem sjBoundary_not_radix (r2 : List Char) (h : sjBoundary r2 = true) :
    ∀ x xs, r2 = x :: xs →
      x ≠ 'x' ∧ x ≠ 'X' ∧ x ≠ 'o' ∧ x ≠ 'O' ∧ x ≠ 'b' ∧ x ≠ 'B' := by
  intro x xs hr
  subst hr
  rcases sjBoundary_cases x xs h with h' | h' | h' | h' | h' | h' | h' <;>
    subst h' <;>
    exact ⟨by decide, by decide, by decide, by decide, by decide, by decide⟩

theorem dotEE_not_radix (x : Char) (hx : x = '.' ∨ x = 'e' ∨ x = 'E') :
    x ≠ 'x' ∧ x ≠ 'X' ∧ x ≠ 'o' ∧ x ≠ 'O' ∧ x ≠ 'b' ∧ x ≠ 'B' := by
  rcases hx with rfl | rfl | rfl <;>
    exact ⟨by decide, by decide, by decide, by decide, by decide, by decide⟩

theorem sjNumber_frag (d : Char) (tl fp r2 : List Char) (ex : Int) (r3 : List Char)
    (hd : isDigit d = true)
    (hf : sjFrac (if d = '0' then tl else tl.dropWhile isDigit) = some (fp, r2))
    (he : sjExp r2 = some (ex, r3)) :
    ∃ text' : List Char, tl = text' ++ r3 ∧
      (∀ c ∈ text', isDecNumChar c = true) ∧
      (d = '0' → ∀ x xs, text' = x :: xs → x = '.' ∨ x = 'e' ∨ x = 'E') ∧
      jsParseFloat (d :: text') =
        .val (((sjDigitsToNat (if d = '0' then ['0'] else d :: tl.takeWhile isDigit) : ℚ) +
          (sjDigitsToNat fp : ℚ) / (10 : ℚ) ^ fp.length) * (10 : ℚ) ^ ex) := by
  by_cases hz : d = '0'
  · subst hz
    rw [if_pos rfl] at hf
    rw [if_pos rfl]
    rcases sjFrac_inv tl fp r2 hf with ⟨hfp, hr2, _⟩ | ⟨hfpne, hfpd, htl, _⟩
    · rcases sjExp_inv r2 ex r3 he with ⟨hex0, hr3, _⟩ |
        ⟨echar, sgn, ed, heor, hsgn, hedne, hedd, hr2eq, hexval, _⟩
      · refine ⟨[], ?_, ?_, ?_, ?_⟩
        · rw [List.nil_append, hr3, hr2]
        · intro c hc; exact absurd hc (List.not_mem_nil c)
        · intro _ x xs hx; cases hx
        · rw [hfp, hex0]
          have := jsParseFloat_strict '0' [] [] [] 0 [] [] (by decide)
            (fun c hc => absurd hc (List.not_mem_nil c))
            (fun c hc => absurd hc (List.not_mem_nil c))
            (Or.inl ⟨rfl, rfl⟩) (Or.inl ⟨rfl, rfl, rfl⟩)
          simpa only [List.nil_append] using this
      · refine ⟨echar :: (sgn ++ ed), ?_, ?_, ?_, ?_⟩
        · rw [hr2] at hr2eq
          rw [hr2eq]
          simp [List.append_assoc]
        · exact sjExpText_decnum echar sgn ed heor hsgn hedd
        · intro _ x xs hx
          injection hx with hx1 _
          rw [← hx1]
          rcases heor with rfl | rfl
          · exact Or.inr (Or.inl rfl)
          · exact Or.inr (Or.inr rfl)
        · rw [hfp]
          have := jsParseFloat_strict '0' [] [] ed ex [] (echar :: (sgn ++ ed)) (by decide)
            (fun c hc => absurd hc (List.not_mem_nil c))
            (fun c hc => absurd hc (List.not_mem_nil c))
            (Or.inl ⟨rfl, rfl⟩)
            (Or.inr ⟨echar, sgn, heor, hsgn, hedne, hedd, rfl, hexval⟩)
          simpa only [List.nil_append] using this
    · rcases sjExp_inv r2 ex r3 he with ⟨hex0, hr3, _⟩ |
        ⟨echar, sgn, ed, heor, hsgn, hedne, hedd, hr2eq, hexval, _⟩
      · refine ⟨'.' :: fp, ?_, ?_, ?_, ?_⟩
        · rw [htl, hr3]
          simp
        · exact sjFracText_decnum fp hfpd
        · intro _ x xs hx
          injection hx with hx1 _
          rw [← hx1]
          exact Or.inl rfl
        · rw [hex0]
          have := jsParseFloat_strict '0' [] fp [] 0 ('.' :: fp) [] (by decide)
            (fun c hc => absurd hc (List.not_mem_nil c)) hfpd
            (Or.inr rfl) (Or.inl ⟨rfl, rfl, rfl⟩)
          simpa only [List.nil_append, List.append_nil] using this
      · refine ⟨'.' :: fp ++ (echar :: (sgn ++ ed)), ?_, ?_, ?_, ?_⟩
        · rw [htl, hr2eq]
          simp [List.append_assoc]
        · intro c hc
          rcases List.mem_append.mp hc with hc | hc
          · exact sjFracText_decnum fp hfpd c hc
          · exact sjExpText_decnum echar sgn ed heor hsgn hedd c hc
        · intro _ x xs hx
          rw [List.cons_append] at hx
          injection hx with hx1 _
          rw [← hx1]
          exact Or.inl rfl
        · have := jsParseFloat_strict '0' [] fp ed ex ('.' :: fp)
            (echar :: (sgn ++ ed)) (by decide)
            (fun c hc => absurd hc (List.not_mem_nil c)) hfpd
            (Or.inr rfl) (Or.inr ⟨echar, sgn, heor, hsgn, hedne, hedd, rfl, hexval⟩)
          simpa only [List.nil_append] using this
  · rw [if_neg hz] at hf
    rw [if_neg hz]
    have htwd : ∀ c ∈ tl.takeWhile isDigit, isDigit c = true :=
      fun c hc => List.mem_takeWhile_imp hc
    have htl0 : tl = tl.takeWhile isDigit ++ tl.dropWhile isDigit :=
      (List.takeWhile_append_dropWhile isDigit tl).symm
    rcases sjFrac_inv (tl.dropWhile isDigit) fp r2 hf with ⟨hfp, hr2, _⟩ |
      ⟨hfpne, hfpd, htl, _⟩
    · rcases sjExp_inv r2 ex r3 he with ⟨hex0, hr3, _⟩ |
        ⟨echar, sgn, ed, heor, hsgn, hedne, hedd, hr2eq, hexval, _⟩
      · refine ⟨tl.takeWhile isDigit, ?_, ?_, ?_, ?_⟩
        · rw [hr3, hr2]; exact htl0
        · intro c hc; exact isDecNumChar_of_digit c (htwd c hc)
        · intro h0; exact absurd h0 hz
        · rw [hfp, hex0]
          have := jsParseFloat_strict d (tl.takeWhile isDigit) [] [] 0 [] [] hd htwd
            (fun c hc => absurd hc (List.not_mem_nil c))
            (Or.inl ⟨rfl, rfl⟩) (Or.inl ⟨rfl, rfl, rfl⟩)
          simpa only [List.nil_append, List.append_nil] using this
      · refine ⟨tl.takeWhile isDigit ++ (echar :: (sgn ++ ed)), ?_, ?_, ?_, ?_⟩
        · have h1 : tl.dropWhile isDigit = (echar :: (sgn ++ ed)) ++ r3 := by
            rw [← hr2, hr2eq]
            simp [List.append_assoc]
          conv_lhs => rw [htl0]
          rw [h1]
          simp [List.append_assoc]
        · intro c hc
          rcases List.mem_append.mp hc with hc | hc
          · exact isDecNumChar_of_digit c (htwd c hc)
          · exact sjExpText_decnum echar sgn ed heor hsgn hedd c hc
        · intro h0; exact absurd h0 hz
        · rw [hfp]
          have := jsParseFloat_strict d (tl.takeWhile isDigit) [] ed ex []
            (echar :: (sgn ++ ed)) hd htwd
            (fun c hc => absurd hc (List.not_mem_nil c))
            (Or.inl ⟨rfl, rfl⟩)
            (Or.inr ⟨echar, sgn, heor, hsgn, hedne, hedd, rfl, hexval⟩)
          simpa only [List.nil_append] using this
    · rcases sjExp_inv r2 ex r3 he with ⟨hex0, hr3, _⟩ |
        ⟨echar, sgn, ed, heor, hsgn, hedne, hedd, hr2eq, hexval, _⟩
      · refine ⟨tl.takeWhile isDigit ++ ('.' :: fp), ?_, ?_, ?_, ?_⟩
        · have h1 : tl.dropWhile isDigit = ('.' :: fp) ++ r3 := by
            rw [htl, hr3]
            simp
          conv_lhs => rw [htl0]
          rw [h1]
          simp [List.append_assoc]
        · intro c hc
          rcases List.mem_append.mp hc with hc | hc
          · exact isDecNumChar_of_digit c (htwd c hc)
          · exact sjFracText_decnum fp hfpd c hc
        · intro h0; exact absurd h0 hz
        · rw [hex0]
          have := jsParseFloat_strict d (tl.takeWhile isDigit) fp [] 0 ('.' :: fp) []
            hd htwd hfpd (Or.inr rfl) (Or.inl ⟨rfl, rfl, rfl⟩)
          simpa only [List.append_nil] using this
      · refine ⟨tl.takeWhile isDigit ++ ('.' :: fp ++ (echar :: (sgn ++ ed))), ?_, ?_, ?_, ?_⟩
        · have h1 : tl.dropWhile isDigit = ('.' :: fp ++ (echar :: (sgn ++ ed))) ++ r3 := by
            rw [htl, hr2eq]
            simp [List.append_assoc]
          conv_lhs => rw [htl0]
          rw [h1]
          simp [List.append_assoc]
        · intro c hc
          rcases List.mem_append.mp hc with hc | hc
          · exact isDecNumChar_of_digit c (htwd c hc)
          rcases List.mem_append.mp hc with hc | hc
          · exact sjFracText_decnum fp hfpd c hc
          · exact sjExpText_decnum echar sgn ed heor hsgn hedd c hc
        · intro h0; exact absurd h0 hz
        · exact jsParseFloat_strict d (tl.takeWhile isDigit) fp ed ex ('.' :: fp)
            (echar :: (sgn ++ ed)) hd htwd hfpd
            (Or.inr rfl) (Or.inr ⟨echar, sgn, heor, hsgn, hedne, hedd, rfl, hexval⟩)

theorem nTok_emits (d : Char) (text' : List Char) (neg : Bool)
    (hd : isDigit d = true)
    (hall : ∀ c ∈ text', isDecNumChar c = true)
    (hzhead : d = '0' → ∀ x xs, text' = x :: xs → x = '.' ∨ x = 'e' ∨ x = 'E') :
    TkEmits ((if neg then ['-'] else []) ++ d :: text') [nTok (d :: text') neg] := by
  intro r2 hb
  have hnr : d = '0' → ∀ x xs, text' ++ r2 = x :: xs →
      x ≠ 'x' ∧ x ≠ 'X' ∧ x ≠ 'o' ∧ x ≠ 'O' ∧ x ≠ 'b' ∧ x ≠ 'B' := by
    intro h0 x xs hx
    cases htx : text' with
    | nil =>
      rw [htx, List.nil_append] at hx
      exact sjBoundary_not_radix r2 hb x xs hx
    | cons a as =>
      rw [htx, List.cons_append] at hx
      injection hx with hx1 _
      rw [← hx1]
      exact dotEE_not_radix a (hzhead h0 a as htx)
  have hstop := sjBoundary_not_decnum r2 hb
  cases neg with
  | true => exact tokenize_num_neg d text' r2 hd hall hnr hstop
  | false => exact tokenize_num d text' r2 hd hall hnr hstop

theorem digit_head_ne (d : Char) (text' : List Char) (hd : isDigit d = true) :
    (d :: text') ≠ ([','] : List Char) ∧ (d :: text') ≠ (['}'] : List Char) := by
  constructor <;>
    (intro hv; injection hv with h1 _; rw [h1] at hd; exact absurd hd (by decide))

theorem sjNumber_sound (cs : List Char) (q : ℚ) (rest : List Char)
    (h : sjNumber cs = some (q, rest)) :
    ∃ (cons : List Char) (t : Token),
      cs = cons ++ rest ∧ t.type = .num ∧
      t.value ≠ [','] ∧ t.value ≠ ['}'] ∧
      TkEmits cons [t] ∧ parseValueToken t = .ok (.jnum (.val q)) := by
  by_cases hm : cs.head? = some '-'
  · rcases cs with _ | ⟨c0, cs'⟩
    · cases hm
    rw [List.head?_cons, Option.some.injEq] at hm
    subst hm
    simp only [sjNumber, List.head?_cons, Option.some.injEq, eq_self_iff_true,
      decide_True, reduceIte, List.drop_succ_cons, List.drop_zero] at h
    split at h
    · cases h
    · rename_i d tl
      split at h
      · rename_i hd
        split at h
        · cases h
        · rename_i fp r2 hf
          split at h
          · cases h
          · rename_i ex r3 he
            injection h with h'
            injection h' with hq hrest
            obtain ⟨text', htext, hall, hzhead, hjpf⟩ :=
              sjNumber_frag d tl fp r2 ex r3 hd hf he
            refine ⟨'-' :: d :: text', nTok (d :: text') true, ?_, rfl,
              (digit_head_ne d text' hd).1, (digit_head_ne d text' hd).2, ?_, ?_⟩
            · rw [htext, ← hrest]; rfl
            · exact nTok_emits d text' true hd hall hzhead
            · show Except.ok (JVal.jnum (parseNumberValue (nTok (d :: text') true))) =
                Except.ok (JVal.jnum (JsNumber.val q))
              rw [parseNumberValue_nTok, if_pos rfl, hjpf, ← hq]
              rfl
      · cases h
  · simp only [sjNumber, hm, decide_False, Bool.false_eq_true, reduceIte] at h
    split at h
    · cases h
    · rename_i d tl
      split at h
      · rename_i hd
        split at h
        · cases h
        · rename_i fp r2 hf
          split at h
          · cases h
          · rename_i ex r3 he
            injection h with h'
            injection h' with hq hrest
            obtain ⟨text', htext, hall, hzhead, hjpf⟩ :=
              sjNumber_frag d tl fp r2 ex r3 hd hf he
            refine ⟨d :: text', nTok (d :: text') false, ?_, rfl,
              (digit_head_ne d text' hd).1, (digit_head_ne d text' hd).2, ?_, ?_⟩
            · rw [htext, ← hrest]; rfl
            · exact nTok_emits d text' false hd hall hzhead
            · show Except.ok (JVal.jnum (parseNumberValue (nTok (d :: text') false))) =
                Except.ok (JVal.jnum (JsNumber.val q))
              rw [parseNumberValue_nTok, if_neg Bool.false_ne_true, hjpf, ← hq]
      · cases h

theorem sjString_sound (tl content rest : List Char)
    (h : sjStrChars tl = some (content, rest)) :
    ∃ body : List Char, tl = body ++ '"' :: rest ∧
      TkEmitsU ('"' :: body ++ ['"']) [sTok ('"' :: body ++ ['"'])] ∧
      parseStringValue (sTok ('"' :: body ++ ['"'])) = .ok content ∧
      parseValueToken (sTok ('"' :: body ++ ['"'])) = .ok (.jstr content) := by
  obtain ⟨body, hsplit, hsb, hctrl, haux⟩ :=
    sjStrChars_sound tl.length tl (Nat.le_refl _) content rest h
  refine ⟨body, hsplit, tkU_string body hsb,
    parseStringValue_strict body content hctrl haux, ?_⟩
  show (parseStringValue (sTok ('"' :: body ++ ['"']))).map JVal.jstr =
    Except.ok (JVal.jstr content)
  rw [parseStringValue_strict body content hctrl haux]
  rfl


/-! ### The simulation: strict decoding against tokenize/parse -/

theorem dropComma_noncomma (t : Token) (l : List Token) (h : t.value ≠ [',']) :
    dropComma (t :: l) = t :: l := by
  rw [dropComma, if_neg h]

theorem headNonIdent_cons (t : Token) (l : List Token) (h : isIdentTok t = false) :
    headNonIdent (t :: l) := by
  intro t' ts' ht
  injection ht with h1 _
  rw [← h1]
  exact h

theorem headNonIdent_nil : headNonIdent [] := fun _ _ ht => by cases ht

theorem sjBoundary_ws_append (ws l : List Char) (hws : ∀ c ∈ ws, sjWsChar c = true)
    (hl : sjBoundary l = true) : sjBoundary (ws ++ l) = true := by
  cases ws with
  | nil => exact hl
  | cons c cst =>
    show (sjWsChar c || c = ',' || c = '}' || c = ']') = true
    rw [hws c (List.mem_cons_self c cst)]
    rfl

/-- A value's tokens: nonempty with a head that the colon repair and the
comma skip leave alone; assigning onto any receptive frame; the final
result on the empty stack. -/
def ValSim (ts : List Token) (v : JVal) : Prop :=
  (∃ t ts', ts = t :: ts' ∧ t.value ≠ [','] ∧ t.value ≠ ['}']) ∧
  (∀ more f tl, Recv f → headNonIdent more →
    parseRun (ts ++ more) (f :: tl) = parseRun (dropComma more) (f.assignVal v :: tl)) ∧
  (∀ more, parseRun (ts ++ more) [] = .ok v)

/-- The tokens of an object body after `{`, entered with fields `acc`. -/
def MembSim (acc : List (List Char × JVal)) (ts : List Token)
    (fields : List (List Char × JVal)) : Prop :=
  (∀ more lnk g tl,
    parseRun (ts ++ more) (⟨.obj acc, none, lnk⟩ :: g :: tl) =
      parseRun (dropComma more) (attach g ⟨.obj fields, none, lnk⟩ :: tl)) ∧
  (∀ more lnk, parseRun (ts ++ more) [⟨.obj acc, none, lnk⟩] = .ok (.jobj fields))

/-- The tokens of an array body after `[`, entered with elements `acc`. -/
def ElemSim (acc : List JVal) (ts : List Token) (elems : List JVal) : Prop :=
  (∀ more lnk g tl,
    parseRun (ts ++ more) (⟨.arr acc, none, lnk⟩ :: g :: tl) =
      parseRun (dropComma more) (attach g ⟨.arr elems, none, lnk⟩ :: tl)) ∧
  (∀ more lnk, parseRun (ts ++ more) [⟨.arr acc, none, lnk⟩] = .ok (.jarr elems))

/-- The parse-side obligation of each strict-decoding job. -/
def JobSim : SjJob → List Token → JVal → Prop
  | .value, ts, v => ValSim ts v
  | .members acc, ts, v => ∃ fields, v = .jobj fields ∧ MembSim acc ts fields
  | .elements acc, ts, v => ∃ elems, v = .jarr elems ∧ ElemSim acc ts elems

theorem quote_head_ne (l : List Char) :
    ('"' :: l : List Char) ≠ [','] ∧ ('"' :: l : List Char) ≠ ['}'] := by
  constructor <;>
    (intro hcon; injection hcon with h1 _; exact absurd h1 (by decide))

theorem valSim_single (t : Token) (v : JVal)
    (ht : t.type = .str ∨ t.type = .num ∨ t.type = .ident)
    (hv : parseValueToken t = .ok v)
    (h1 : t.value ≠ [',']) (h2 : t.value ≠ ['}']) : ValSim [t] v := by
  refine ⟨⟨t, [], rfl, h1, h2⟩, ?_, ?_⟩
  · intro more f tl hrecv hni
    exact parseRun_value t v more f tl ht hrecv hv hni
  · intro more
    exact parseRun_value_top t v more ht hv

theorem valSim_empty_obj : ValSim [bTok '{', bTok '}'] (.jobj []) := by
  refine ⟨⟨bTok '{', [bTok '}'], rfl, by decide, by decide⟩, ?_, ?_⟩
  · intro more f tl hrecv _
    show parseRun (bTok '{' :: bTok '}' :: more) (f :: tl) = _
    rw [parseRun_open_obj]
    obtain ⟨lnk, f', hpush, hatt, _⟩ := pushContainer_attach f tl (.obj []) hrecv
    rw [hpush, parseRun_close_pop '}' (Or.inl rfl), hatt (.obj [])]
    rfl
  · intro more
    show parseRun (bTok '{' :: bTok '}' :: more) [] = _
    rw [parseRun_open_obj, pushContainer_top, parseRun_close_last '}' (Or.inl rfl)]
    rfl

theorem valSim_empty_arr : ValSim [bTok '[', bTok ']'] (.jarr []) := by
  refine ⟨⟨bTok '[', [bTok ']'], rfl, by decide, by decide⟩, ?_, ?_⟩
  · intro more f tl hrecv _
    show parseRun (bTok '[' :: bTok ']' :: more) (f :: tl) = _
    rw [parseRun_open_arr]
    obtain ⟨lnk, f', hpush, hatt, _⟩ := pushContainer_attach f tl (.arr []) hrecv
    rw [hpush, parseRun_close_pop ']' (Or.inr rfl), hatt (.arr [])]
    rfl
  · intro more
    show parseRun (bTok '[' :: bTok ']' :: more) [] = _
    rw [parseRun_open_arr, pushContainer_top, parseRun_close_last ']' (Or.inr rfl)]
    rfl

theorem valSim_obj (ts2 : List Token) (fields : List (List Char × JVal))
    (hm : MembSim [] ts2 fields) : ValSim (bTok '{' :: ts2) (.jobj fields) := by
  refine ⟨⟨bTok '{', ts2, rfl, by decide, by decide⟩, ?_, ?_⟩
  · intro more f tl hrecv _
    show parseRun (bTok '{' :: (ts2 ++ more)) (f :: tl) = _
    rw [parseRun_open_obj]
    obtain ⟨lnk, f', hpush, hatt, _⟩ := pushContainer_attach f tl (.obj []) hrecv
    rw [hpush, hm.1 more lnk f' tl, hatt (.obj fields)]
    rfl
  · intro more
    show parseRun (bTok '{' :: (ts2 ++ more)) [] = _
    rw [parseRun_open_obj, pushContainer_top, hm.2 more none]

theorem valSim_arr (ts2 : List Token) (elems : List JVal)
    (he : ElemSim [] ts2 elems) : ValSim (bTok '[' :: ts2) (.jarr elems) := by
  refine ⟨⟨bTok '[', ts2, rfl, by decide, by decide⟩, ?_, ?_⟩
  · intro more f tl hrecv _
    show parseRun (bTok '[' :: (ts2 ++ more)) (f :: tl) = _
    rw [parseRun_open_arr]
    obtain ⟨lnk, f', hpush, hatt, _⟩ := pushContainer_attach f tl (.arr []) hrecv
    rw [hpush, he.1 more lnk f' tl, hatt (.arr elems)]
    rfl
  · intro more
    show parseRun (bTok '[' :: (ts2 ++ more)) [] = _
    rw [parseRun_open_arr, pushContainer_top, he.2 more none]

theorem membSim_close (kt : Token) (ts_v : List Token) (k : List Char) (v1 : JVal)
    (acc : List (List Char × JVal))
    (htk : kt.type = .str) (hkv : parseStringValue kt = .ok k)
    (hvs : ValSim ts_v v1) :
    MembSim acc (kt :: pTok ':' :: (ts_v ++ [bTok '}'])) (objAssign k v1 acc) := by
  obtain ⟨⟨t0, ts0, hts0, ht01, ht02⟩, hv1, _⟩ := hvs
  constructor
  · intro more lnk g tl
    show parseRun (kt :: pTok ':' :: ((ts_v ++ [bTok '}']) ++ more)) _ = _
    rw [show (ts_v ++ [bTok '}']) ++ more = ts_v ++ (bTok '}' :: more) from by simp]
    rw [parseRun_key kt _ (⟨CVal.obj acc, none, lnk⟩ :: g :: tl) k htk rfl hkv,
      setKey_objFrame]
    rw [parseRun_colon _ (⟨CVal.obj acc, some k, lnk⟩ :: g :: tl)
      (by intro hc; cases hc) rfl]
    have hcf : colonFix (ts_v ++ (bTok '}' :: more))
        (⟨CVal.obj acc, some k, lnk⟩ :: g :: tl) =
        ⟨CVal.obj acc, some k, lnk⟩ :: g :: tl := by
      rw [hts0, List.cons_append]
      exact colonFix_skip t0 _ _ ht01 ht02
    rw [hcf]
    rw [hv1 (bTok '}' :: more) ⟨CVal.obj acc, some k, lnk⟩ (g :: tl)
      (recv_objKey acc k lnk) (headNonIdent_cons _ _ rfl)]
    rw [dropComma_close '}' (Or.inl rfl), assignVal_objKey]
    rw [parseRun_close_pop '}' (Or.inl rfl)]
  · intro more lnk
    show parseRun (kt :: pTok ':' :: ((ts_v ++ [bTok '}']) ++ more)) _ = _
    rw [show (ts_v ++ [bTok '}']) ++ more = ts_v ++ (bTok '}' :: more) from by simp]
    rw [parseRun_key kt _ [⟨CVal.obj acc, none, lnk⟩] k htk rfl hkv,
      setKey_objFrame]
    rw [parseRun_colon _ [⟨CVal.obj acc, some k, lnk⟩]
      (by intro hc; cases hc) rfl]
    have hcf : colonFix (ts_v ++ (bTok '}' :: more))
        [⟨CVal.obj acc, some k, lnk⟩] = [⟨CVal.obj acc, some k, lnk⟩] := by
      rw [hts0, List.cons_append]
      exact colonFix_skip t0 _ _ ht01 ht02
    rw [hcf]
    rw [hv1 (bTok '}' :: more) ⟨CVal.obj acc, some k, lnk⟩ []
      (recv_objKey acc k lnk) (headNonIdent_cons _ _ rfl)]
    rw [dropComma_close '}' (Or.inl rfl), assignVal_objKey]
    rw [parseRun_close_last '}' (Or.inl rfl)]
    rfl

theorem membSim_step (kt : Token) (ts_v ts2 : List Token) (k : List Char) (v1 : JVal)
    (acc fields : List (List Char × JVal))
    (htk : kt.type = .str) (hkv : parseStringValue kt = .ok k)
    (hvs : ValSim ts_v v1)
    (hms : MembSim (objAssign k v1 acc) ts2 fields) :
    MembSim acc (kt :: pTok ':' :: (ts_v ++ (pTok ',' :: ts2))) fields := by
  obtain ⟨⟨t0, ts0, hts0, ht01, ht02⟩, hv1, _⟩ := hvs
  constructor
  · intro more lnk g tl
    show parseRun (kt :: pTok ':' :: ((ts_v ++ (pTok ',' :: ts2)) ++ more)) _ = _
    rw [show (ts_v ++ (pTok ',' :: ts2)) ++ more = ts_v ++ (pTok ',' :: (ts2 ++ more))
      from by simp]
    rw [parseRun_key kt _ (⟨CVal.obj acc, none, lnk⟩ :: g :: tl) k htk rfl hkv,
      setKey_objFrame]
    rw [parseRun_colon _ (⟨CVal.obj acc, some k, lnk⟩ :: g :: tl)
      (by intro hc; cases hc) rfl]
    have hcf : colonFix (ts_v ++ (pTok ',' :: (ts2 ++ more)))
        (⟨CVal.obj acc, some k, lnk⟩ :: g :: tl) =
        ⟨CVal.obj acc, some k, lnk⟩ :: g :: tl := by
      rw [hts0, List.cons_append]
      exact colonFix_skip t0 _ _ ht01 ht02
    rw [hcf]
    rw [hv1 (pTok ',' :: (ts2 ++ more)) ⟨CVal.obj acc, some k, lnk⟩ (g :: tl)
      (recv_objKey acc k lnk) (headNonIdent_cons _ _ rfl)]
    rw [dropComma_comma, assignVal_objKey]
    exact hms.1 more lnk g tl
  · intro more lnk
    show parseRun (kt :: pTok ':' :: ((ts_v ++ (pTok ',' :: ts2)) ++ more)) _ = _
    rw [show (ts_v ++ (pTok ',' :: ts2)) ++ more = ts_v ++ (pTok ',' :: (ts2 ++ more))
      from by simp]
    rw [parseRun_key kt _ [⟨CVal.obj acc, none, lnk⟩] k htk rfl hkv,
      setKey_objFrame]
    rw [parseRun_colon _ [⟨CVal.obj acc, some k, lnk⟩]
      (by intro hc; cases hc) rfl]
    have hcf : colonFix (ts_v ++ (pTok ',' :: (ts2 ++ more)))
        [⟨CVal.obj acc, some k, lnk⟩] = [⟨CVal.obj acc, some k, lnk⟩] := by
      rw [hts0, List.cons_append]
      exact colonFix_skip t0 _ _ ht01 ht02
    rw [hcf]
    rw [hv1 (pTok ',' :: (ts2 ++ more)) ⟨CVal.obj acc, some k, lnk⟩ []
      (recv_objKey acc k lnk) (headNonIdent_cons _ _ rfl)]
    rw [dropComma_comma, assignVal_objKey]
    exact hms.2 more lnk

theorem elemSim_close (ts_v : List Token) (v1 : JVal) (acc : List JVal)
    (hvs : ValSim ts_v v1) :
    ElemSim acc (ts_v ++ [bTok ']']) (acc ++ [v1]) := by
  obtain ⟨_, hv1, _⟩ := hvs
  constructor
  · intro more lnk g tl
    rw [show (ts_v ++ [bTok ']']) ++ more = ts_v ++ (bTok ']' :: more) from by simp]
    rw [hv1 (bTok ']' :: more) ⟨CVal.arr acc, none, lnk⟩ (g :: tl)
      (recv_arr acc none lnk) (headNonIdent_cons _ _ rfl)]
    rw [dropComma_close ']' (Or.inr rfl), assignVal_arr]
    rw [parseRun_close_pop ']' (Or.inr rfl)]
  · intro more lnk
    rw [show (ts_v ++ [bTok ']']) ++ more = ts_v ++ (bTok ']' :: more) from by simp]
    rw [hv1 (bTok ']' :: more) ⟨CVal.arr acc, none, lnk⟩ []
      (recv_arr acc none lnk) (headNonIdent_cons _ _ rfl)]
    rw [dropComma_close ']' (Or.inr rfl), assignVal_arr]
    rw [parseRun_close_last ']' (Or.inr rfl)]
    rfl

theorem elemSim_step (ts_v ts2 : List Token) (v1 : JVal) (acc elems : List JVal)
    (hvs : ValSim ts_v v1)
    (hes : ElemSim (acc ++ [v1]) ts2 elems) :
    ElemSim acc (ts_v ++ (pTok ',' :: ts2)) elems := by
  obtain ⟨_, hv1, _⟩ := hvs
  constructor
  · intro more lnk g tl
    rw [show (ts_v ++ (pTok ',' :: ts2)) ++ more = ts_v ++ (pTok ',' :: (ts2 ++ more))
      from by simp]
    rw [hv1 (pTok ',' :: (ts2 ++ more)) ⟨CVal.arr acc, none, lnk⟩ (g :: tl)
      (recv_arr acc none lnk) (headNonIdent_cons _ _ rfl)]
    rw [dropComma_comma, assignVal_arr]
    exact hes.1 more lnk g tl
  · intro more lnk
    rw [show (ts_v ++ (pTok ',' :: ts2)) ++ more = ts_v ++ (pTok ',' :: (ts2 ++ more))
      from by simp]
    rw [hv1 (pTok ',' :: (ts2 ++ more)) ⟨CVal.arr acc, none, lnk⟩ []
      (recv_arr acc none lnk) (headNonIdent_cons _ _ rfl)]
    rw [dropComma_comma, assignVal_arr]
    exact hes.2 more lnk

theorem tkE_wsFront (cs0 c2 : List Char) (t2 : List Token)
    (h : TkEmits c2 t2) : TkEmits (cs0.takeWhile sjWsChar ++ c2) t2 :=
  tkU_cond_append (tkU_skipWsFront cs0) h

theorem sjRun_sound : ∀ (fuel : Nat) (job : SjJob) (cs : List Char) (v : JVal)
    (rest : List Char), sjRun fuel job cs = some (v, rest) →
    ∃ (cons : List Char) (ts : List Token),
      cs = cons ++ rest ∧ TkEmits cons ts ∧ JobSim job ts v := by
  intro fuel
  induction fuel with
  | zero =>
    intro job cs v rest h
    rw [show sjRun 0 job cs = none from rfl] at h
    cases h
  | succ fuel ih =>
    intro job cs v rest h
    cases job with
    | value =>
      rw [sjRun_succ_value] at h
      split at h
      · cases h
      · rename_i c tl heq
        have hcs : cs = cs.takeWhile sjWsChar ++ (c :: tl) := by
          conv_lhs => rw [← List.takeWhile_append_dropWhile sjWsChar cs]
          rw [show List.dropWhile sjWsChar cs = sjSkipWs cs from rfl, heq]
        by_cases hc1 : c = '{'
        · subst hc1
          rw [if_pos rfl] at h
          split at h
          · rename_i tl2 heq2
            injection h with h'
            injection h' with hv hrest
            have htl : tl = tl.takeWhile sjWsChar ++ ('}' :: tl2) := by
              conv_lhs => rw [← List.takeWhile_append_dropWhile sjWsChar tl]
              rw [show List.dropWhile sjWsChar tl = sjSkipWs tl from rfl, heq2]
            refine ⟨cs.takeWhile sjWsChar ++ ('{' :: (tl.takeWhile sjWsChar ++ ['}'])),
              [bTok '{', bTok '}'], ?_, ?_, ?_⟩
            · rw [← hrest]
              conv_lhs => rw [hcs]
              conv_lhs => rw [htl]
              simp [List.append_assoc]
            · apply tkE_wsFront
              exact tkU_cond_append (tkU_bracket '{' (Or.inl rfl))
                (tkU_cond_append (tkU_skipWsFront tl)
                  ((tkU_bracket '}' (Or.inr (Or.inl rfl))).toTk))
            · show ValSim _ v
              rw [← hv]
              exact valSim_empty_obj
          · obtain ⟨cons2, ts2, hdec2, htk2, hjs⟩ := ih (.members []) tl v rest h
            obtain ⟨fields, hv, hms⟩ := hjs
            refine ⟨cs.takeWhile sjWsChar ++ ('{' :: cons2), bTok '{' :: ts2, ?_, ?_, ?_⟩
            · conv_lhs => rw [hcs]
              conv_lhs => rw [hdec2]
              simp [List.append_assoc]
            · exact tkE_wsFront _ _ _
                (tkU_cond_append (tkU_bracket '{' (Or.inl rfl)) htk2)
            · show ValSim _ v
              rw [hv]
              exact valSim_obj ts2 fields hms
        · by_cases hc2 : c = '['
          · subst hc2
            rw [if_neg hc1, if_pos rfl] at h
            split at h
            · rename_i tl2 heq2
              injection h with h'
              injection h' with hv hrest
              have htl : tl = tl.takeWhile sjWsChar ++ (']' :: tl2) := by
                conv_lhs => rw [← List.takeWhile_append_dropWhile sjWsChar tl]
                rw [show List.dropWhile sjWsChar tl = sjSkipWs tl from rfl, heq2]
              refine ⟨cs.takeWhile sjWsChar ++ ('[' :: (tl.takeWhile sjWsChar ++ [']'])),
                [bTok '[', bTok ']'], ?_, ?_, ?_⟩
              · rw [← hrest]
                conv_lhs => rw [hcs]
                conv_lhs => rw [htl]
                simp [List.append_assoc]
              · apply tkE_wsFront
                exact tkU_cond_append (tkU_bracket '[' (Or.inr (Or.inr (Or.inl rfl))))
                  (tkU_cond_append (tkU_skipWsFront tl)
                    ((tkU_bracket ']' (Or.inr (Or.inr (Or.inr rfl)))).toTk))
              · show ValSim _ v
                rw [← hv]
                exact valSim_empty_arr
            · obtain ⟨cons2, ts2, hdec2, htk2, hjs⟩ := ih (.elements []) tl v rest h
              obtain ⟨elems, hv, hes⟩ := hjs
              refine ⟨cs.takeWhile sjWsChar ++ ('[' :: cons2), bTok '[' :: ts2, ?_, ?_, ?_⟩
              · conv_lhs => rw [hcs]
                conv_lhs => rw [hdec2]
                simp [List.append_assoc]
              · exact tkE_wsFront _ _ _
                  (tkU_cond_append (tkU_bracket '[' (Or.inr (Or.inr (Or.inl rfl)))) htk2)
              · show ValSim _ v
                rw [hv]
                exact valSim_arr ts2 elems hes
          · by_cases hc3 : c = '"'
            · subst hc3
              rw [if_neg hc1, if_neg hc2, if_pos rfl] at h
              split at h
              · rename_i content rest' hstr
                injection h with h'
                injection h' with hv hrest
                obtain ⟨body, hbody, hstk, hpsv, hpvt⟩ := sjString_sound tl content rest' hstr
                refine ⟨cs.takeWhile sjWsChar ++ ('"' :: body ++ ['"']),
                  [sTok ('"' :: body ++ ['"'])], ?_, ?_, ?_⟩
                · rw [← hrest]
                  conv_lhs => rw [hcs]
                  conv_lhs => rw [hbody]
                  simp [List.append_assoc]
                · exact tkE_wsFront _ _ _ hstk.toTk
                · show ValSim _ v
                  rw [← hv]
                  exact valSim_single _ _ (Or.inl rfl) hpvt (quote_head_ne _).1 (quote_head_ne _).2
              · cases h
            · by_cases hc4 : c = 't'
              · subst hc4
                rw [if_neg hc1, if_neg hc2, if_neg hc3, if_pos rfl] at h
                split at h
                · rename_i tl2
                  injection h with h'
                  injection h' with hv hrest
                  refine ⟨cs.takeWhile sjWsChar ++ ['t', 'r', 'u', 'e'],
                    [iTok ['t', 'r', 'u', 'e']], ?_, ?_, ?_⟩
                  · rw [← hrest]
                    conv_lhs => rw [hcs]
                    simp [List.append_assoc]
                  · apply tkE_wsFront
                    intro r2 hb
                    exact tokenize_true r2 (sjBoundary_identStop r2 hb)
                  · show ValSim _ v
                    rw [← hv]
                    exact valSim_single _ _ (Or.inr (Or.inr rfl)) parseValueToken_true
                      (by decide) (by decide)
                · cases h
              · by_cases hc5 : c = 'f'
                · subst hc5
                  rw [if_neg hc1, if_neg hc2, if_neg hc3, if_neg hc4, if_pos rfl] at h
                  split at h
                  · rename_i tl2
                    injection h with h'
                    injection h' with hv hrest
                    refine ⟨cs.takeWhile sjWsChar ++ ['f', 'a', 'l', 's', 'e'],
                      [iTok ['f', 'a', 'l', 's', 'e']], ?_, ?_, ?_⟩
                    · rw [← hrest]
                      conv_lhs => rw [hcs]
                      simp [List.append_assoc]
                    · apply tkE_wsFront
                      intro r2 hb
                      exact tokenize_false r2 (sjBoundary_identStop r2 hb)
                    · show ValSim _ v
                      rw [← hv]
                      exact valSim_single _ _ (Or.inr (Or.inr rfl)) parseValueToken_false
                        (by decide) (by decide)
                  · cases h
                · by_cases hc6 : c = 'n'
                  · subst hc6
                    rw [if_neg hc1, if_neg hc2, if_neg hc3, if_neg hc4, if_neg hc5,
                      if_pos rfl] at h
                    split at h
                    · rename_i tl2
                      injection h with h'
                      injection h' with hv hrest
                      refine ⟨cs.takeWhile sjWsChar ++ ['n', 'u', 'l', 'l'],
                        [iTok ['n', 'u', 'l', 'l']], ?_, ?_, ?_⟩
                      · rw [← hrest]
                        conv_lhs => rw [hcs]
                        simp [List.append_assoc]
                      · apply tkE_wsFront
                        intro r2 hb
                        exact tokenize_null r2 (sjBoundary_identStop r2 hb)
                      · show ValSim _ v
                        rw [← hv]
                        exact valSim_single _ _ (Or.inr (Or.inr rfl)) parseValueToken_null
                          (by decide) (by decide)
                    · cases h
                  · rw [if_neg hc1, if_neg hc2, if_neg hc3, if_neg hc4, if_neg hc5,
                      if_neg hc6] at h
                    split at h
                    · rename_i q rest' hnum
                      injection h with h'
                      injection h' with hv hrest
                      obtain ⟨cons2, t, hdec2, httype, hvne1, hvne2, htk2, hpvt⟩ :=
                        sjNumber_sound (c :: tl) q rest' hnum
                      refine ⟨cs.takeWhile sjWsChar ++ cons2, [t], ?_, ?_, ?_⟩
                      · rw [← hrest]
                        conv_lhs => rw [hcs]
                        conv_lhs => rw [hdec2]
                        simp [List.append_assoc]
                      · exact tkE_wsFront _ _ _ htk2
                      · show ValSim _ v
                        rw [← hv]
                        exact valSim_single t _ (Or.inr (Or.inl httype)) hpvt hvne1 hvne2
                    · cases h
    | members acc =>
      rw [sjRun_succ_members] at h
      split at h
      · rename_i tl heq
        have hcs : cs = cs.takeWhile sjWsChar ++ ('"' :: tl) := by
          conv_lhs => rw [← List.takeWhile_append_dropWhile sjWsChar cs]
          rw [show List.dropWhile sjWsChar cs = sjSkipWs cs from rfl, heq]
        split at h
        · rename_i k r1 hstr
          split at h
          · rename_i r2 heq2
            have hr1 : r1 = r1.takeWhile sjWsChar ++ (':' :: r2) := by
              conv_lhs => rw [← List.takeWhile_append_dropWhile sjWsChar r1]
              rw [show List.dropWhile sjWsChar r1 = sjSkipWs r1 from rfl, heq2]
            split at h
            · rename_i v1 r3 hval
              obtain ⟨cons_v, ts_v, hdecv, htkv, hvs⟩ := ih .value r2 v1 r3 hval
              have hvs' : ValSim ts_v v1 := hvs
              obtain ⟨body, hbody, hstk, hpsv, _⟩ := sjString_sound tl k r1 hstr
              split at h
              · rename_i r4 heq3
                have hr3 : r3 = r3.takeWhile sjWsChar ++ (',' :: r4) := by
                  conv_lhs => rw [← List.takeWhile_append_dropWhile sjWsChar r3]
                  rw [show List.dropWhile sjWsChar r3 = sjSkipWs r3 from rfl, heq3]
                obtain ⟨cons2, ts2, hdec2, htk2, hjs2⟩ :=
                  ih (.members (objAssign k v1 acc)) r4 v rest h
                obtain ⟨fields, hv, hms⟩ := hjs2
                refine ⟨cs.takeWhile sjWsChar ++ (('"' :: body ++ ['"']) ++
                    (r1.takeWhile sjWsChar ++ (':' :: (cons_v ++
                      (r3.takeWhile sjWsChar ++ (',' :: cons2)))))),
                  sTok ('"' :: body ++ ['"']) :: (pTok ':' ::
                    (ts_v ++ (pTok ',' :: ts2))), ?_, ?_, ?_⟩
                · conv_lhs => rw [hcs]
                  conv_lhs => rw [hbody]
                  conv_lhs => rw [hr1]
                  conv_lhs => rw [hdecv]
                  conv_lhs => rw [hr3]
                  conv_lhs => rw [hdec2]
                  simp [List.append_assoc]
                · apply tkE_wsFront
                  apply tkU_cond_append hstk
                  apply tkU_cond_append (tkU_skipWsFront r1)
                  apply tkU_cond_append (tkU_punct ':' (Or.inr rfl))
                  apply tk_cond_append htkv
                  · exact tkU_cond_append (tkU_skipWsFront r3)
                      (tkU_cond_append (tkU_punct ',' (Or.inl rfl)) htk2)
                  · intro r2' _
                    rw [List.append_assoc]
                    exact sjBoundary_ws_append _ _
                      (fun c hc => List.mem_takeWhile_imp hc) rfl
                · refine ⟨fields, hv, ?_⟩
                  exact membSim_step (sTok ('"' :: body ++ ['"'])) ts_v ts2 k v1 acc
                    fields rfl hpsv hvs' hms
              · rename_i r4 heq3
                injection h with h'
                injection h' with hv hrest
                have hr3 : r3 = r3.takeWhile sjWsChar ++ ('}' :: r4) := by
                  conv_lhs => rw [← List.takeWhile_append_dropWhile sjWsChar r3]
                  rw [show List.dropWhile sjWsChar r3 = sjSkipWs r3 from rfl, heq3]
                refine ⟨cs.takeWhile sjWsChar ++ (('"' :: body ++ ['"']) ++
                    (r1.takeWhile sjWsChar ++ (':' :: (cons_v ++
                      (r3.takeWhile sjWsChar ++ ['}']))))),
                  sTok ('"' :: body ++ ['"']) :: (pTok ':' ::
                    (ts_v ++ [bTok '}'])), ?_, ?_, ?_⟩
                · rw [← hrest]
                  conv_lhs => rw [hcs]
                  conv_lhs => rw [hbody]
                  conv_lhs => rw [hr1]
                  conv_lhs => rw [hdecv]
                  conv_lhs => rw [hr3]
                  simp [List.append_assoc]
                · apply tkE_wsFront
                  apply tkU_cond_append hstk
                  apply tkU_cond_append (tkU_skipWsFront r1)
                  apply tkU_cond_append (tkU_punct ':' (Or.inr rfl))
                  apply tk_cond_append htkv
                  · exact tkU_cond_append (tkU_skipWsFront r3)
                      ((tkU_bracket '}' (Or.inr (Or.inl rfl))).toTk)
                  · intro r2' _
                    rw [List.append_assoc]
                    exact sjBoundary_ws_append _ _
                      (fun c hc => List.mem_takeWhile_imp hc) rfl
                · refine ⟨objAssign k v1 acc, hv.symm, ?_⟩
                  exact membSim_close (sTok ('"' :: body ++ ['"'])) ts_v k v1 acc
                    rfl hpsv hvs'
              · cases h
            · cases h
          · cases h
        · cases h
      · cases h
    | elements acc =>
      rw [sjRun_succ_elements] at h
      split at h
      · rename_i v1 r1 hval
        obtain ⟨cons_v, ts_v, hdecv, htkv, hvs⟩ := ih .value cs v1 r1 hval
        have hvs' : ValSim ts_v v1 := hvs
        split at h
        · rename_i r2 heq2
          have hr1 : r1 = r1.takeWhile sjWsChar ++ (',' :: r2) := by
            conv_lhs => rw [← List.takeWhile_append_dropWhile sjWsChar r1]
            rw [show List.dropWhile sjWsChar r1 = sjSkipWs r1 from rfl, heq2]
          obtain ⟨cons2, ts2, hdec2, htk2, hjs2⟩ :=
            ih (.elements (acc ++ [v1])) r2 v rest h
          obtain ⟨elems, hv, hes⟩ := hjs2
          refine ⟨cons_v ++ (r1.takeWhile sjWsChar ++ (',' :: cons2)),
            ts_v ++ (pTok ',' :: ts2), ?_, ?_, ?_⟩
          · rw [hdecv]
            conv_lhs => rw [hr1]
            conv_lhs => rw [hdec2]
            simp [List.append_assoc]
          · apply tk_cond_append htkv
            · exact tkU_cond_append (tkU_skipWsFront r1)
                (tkU_cond_append (tkU_punct ',' (Or.inl rfl)) htk2)
            · intro r2' _
              rw [List.append_assoc]
              exact sjBoundary_ws_append _ _
                (fun c hc => List.mem_takeWhile_imp hc) rfl
          · refine ⟨elems, hv, ?_⟩
            exact elemSim_step ts_v ts2 v1 acc elems hvs' hes
        · rename_i r2 heq2
          injection h with h'
          injection h' with hv hrest
          have hr1 : r1 = r1.takeWhile sjWsChar ++ (']' :: r2) := by
            conv_lhs => rw [← List.takeWhile_append_dropWhile sjWsChar r1]
            rw [show List.dropWhile sjWsChar r1 = sjSkipWs r1 from rfl, heq2]
          refine ⟨cons_v ++ (r1.takeWhile sjWsChar ++ [']']),
            ts_v ++ [bTok ']'], ?_, ?_, ?_⟩
          · rw [hdecv, ← hrest]
            conv_lhs => rw [hr1]
            simp [List.append_assoc]
          · apply tk_cond_append htkv
            · exact tkU_cond_append (tkU_skipWsFront r1)
                ((tkU_bracket ']' (Or.inr (Or.inr (Or.inr rfl)))).toTk)
            · intro r2' _
              rw [List.append_assoc]
              exact sjBoundary_ws_append _ _
                (fun c hc => List.mem_takeWhile_imp hc) rfl
          · refine ⟨acc ++ [v1], hv.symm, ?_⟩
            exact elemSim_close ts_v v1 acc hvs'
        · cases h
      · cases h

/-! ## Claim theorems

One theorem per audited claim.  Universally quantified parts are stated as
step equations of `parseLoop` (one loop iteration at successor fuel), which
is exactly the source's per-token processing; concrete end-to-end examples
use `decodeStr`. -/

/-- A closing bracket token, as the tokenizer produces it. -/
def closeTok (b : Char) : Token := { type := .bracket, value := [b] }

/-- The comma punctuation token. -/
def commaTok : Token := { type := .punct, value := [','] }

/-- The colon punctuation token. -/
def colonTok : Token := { type := .punct, value := [':'] }

/-- C2: processing a closing bracket token (`}` or `]`) pops the innermost
open container regardless of whether the symbol matches the container's
shape (the frame `f` is arbitrary in both conjuncts): when the pop empties
the stack, the popped container's value is returned immediately and all
remaining tokens (`rest`) are ignored; otherwise parsing continues with the
parent as current container (attaching the child and consuming one
following comma, the source's `skipNext`).  Concretely, `{"a":[1}` decodes
to `{a: [1]}`. -/
theorem c2_close_any_bracket (b : Char) (hb : b = '}' ∨ b = ']') :
    (∀ (fuel : Nat) (rest : List Token) (f : Frame),
        parseLoop (fuel + 1) (closeTok b :: rest) [f] = .ok (cvalToJ f.cval))
  ∧ (∀ (fuel : Nat) (rest : List Token) (f g : Frame) (tl : List Frame),
        parseLoop (fuel + 1) (closeTok b :: rest) (f :: g :: tl) =
          parseLoop fuel (dropComma rest) (attach g f :: tl))
  ∧ decodeStr "\x7b\"a\":[1\x7d" =
      .ok (.jobj [("a".toList, .jarr [.jnum (.val 1)])]) := by
  rcases hb with rfl | rfl
  · exact ⟨fun _ _ _ => rfl, fun _ _ _ _ _ => rfl, rfl⟩
  · exact ⟨fun _ _ _ => rfl, fun _ _ _ _ _ => rfl, rfl⟩

/-- C2 witness: a `]` token closing an OBJECT frame (mismatched shape) with
nothing else on the stack returns the object's value at once. -/
theorem c2_close_any_bracket_witness :
    parseLoop 1 [closeTok ']'] [{ cval := .obj [] }] = .ok (.jobj []) :=
  (c2_close_any_bracket ']' (Or.inr rfl)).1 0 [] { cval := .obj [] }

/-- C4: at end of input with containers still open, a pending key on the
innermost object is resolved to `null`, and the result is the value of the
outermost (first-pushed, bottom) container — `collapseStack` folds the open
frames into the bottom frame's value; with no containers and no produced
value (the empty token stream / empty input) the result is the distinct
`undefined` marker; and `{` alone decodes to the empty object. -/
theorem c4_end_of_input :
    (∀ (fuel : Nat) (fields : List (List Char × JVal)) (k : List Char)
        (l : Option PLink) (tl : List Frame),
        parseLoop (fuel + 1) []
            ({ cval := .obj fields, key := some k, link := l } :: tl) =
          .ok (collapseStack
            ({ cval := .obj (objAssign k .jnull fields), key := none, link := l }
              :: tl)))
  ∧ (∀ (fuel : Nat) (f : Frame) (tl : List Frame),
        parseLoop (fuel + 1) [] (f :: tl) =
          .ok (collapseStack (resolveKeyNull (f :: tl))))
  ∧ parseTokens [] = .ok .jundef
  ∧ decodeStr "" = .ok .jundef
  ∧ decodeStr "\x7b" = .ok (.jobj []) :=
  ⟨fun _ _ _ _ _ => rfl, fun _ _ _ => rfl, rfl, rfl, rfl⟩

/-- C5: a comma token in value position appends a `null` placeholder if and
only if the current container is an ARRAY: in an array the slot is
materialized; in an object it is skipped with no placeholder both in key
position (no pending key) and with a pending key.  Concretely,
`[1, , 3]` decodes to `[1, null, 3]` and `{"a": 1,, "b": 2}` to
`{a: 1, b: 2}`. -/
theorem c5_comma_placeholder :
    (∀ (fuel : Nat) (rest : List Token) (elems : List JVal)
        (k : Option (List Char)) (l : Option PLink) (tl : List Frame),
        parseLoop (fuel + 1) (commaTok :: rest)
            ({ cval := .arr elems, key := k, link := l } :: tl) =
          parseLoop fuel rest
            ({ cval := .arr (elems ++ [.jnull]), key := k, link := l } :: tl))
  ∧ (∀ (fuel : Nat) (rest : List Token) (fields : List (List Char × JVal))
        (l : Option PLink) (tl : List Frame),
        parseLoop (fuel + 1) (commaTok :: rest)
            ({ cval := .obj fields, key := none, link := l } :: tl) =
          parseLoop fuel rest
            ({ cval := .obj fields, key := none, link := l } :: tl))
  ∧ (∀ (fuel : Nat) (rest : List Token) (fields : List (List Char × JVal))
        (k : List Char) (l : Option PLink) (tl : List Frame),
        parseLoop (fuel + 1) (commaTok :: rest)
            ({ cval := .obj fields, key := some k, link := l } :: tl) =
          parseLoop fuel rest
            ({ cval := .obj fields, key := some k, link := l } :: tl))
  ∧ decodeStr "[1, , 3]" = .ok (.jarr [.jnum (.val 1), .jnull, .jnum (.val 3)])
  ∧ decodeStr "\x7b\"a\": 1,, \"b\": 2\x7d" =
      .ok (.jobj [("a".toList, .jnum (.val 1)), ("b".toList, .jnum (.val 2))]) :=
  ⟨fun _ _ _ _ _ _ => rfl, fun _ _ _ _ _ => rfl, fun _ _ _ _ _ _ => rfl, rfl, rfl⟩

/-- C8: a closing bracket, or a comma/colon punctuation token, reached while
the container stack is empty aborts the decode with a structural error (no
partial value is produced — the result is an `error`); `}` alone decodes to
the unmatched-brace error. -/
theorem c8_empty_stack_errors :
    (∀ (fuel : Nat) (rest : List Token) (b : Char), b = '}' ∨ b = ']' →
        parseLoop (fuel + 1) (closeTok b :: rest) [] =
          .error (if b = '}' then .unmatchedBrace else .unmatchedBracket))
  ∧ (∀ (fuel : Nat) (rest : List Token) (t : Token), t.type = .punct →
        parseLoop (fuel + 1) (t :: rest) [] = .error .unexpectedPunct)
  ∧ decodeStr "\x7d" = .error .unmatchedBrace := by
  refine ⟨?_, ?_, rfl⟩
  · rintro fuel rest b (rfl | rfl) <;> rfl
  · rintro fuel rest ⟨ty, v, r, n, p⟩ h
    cases h
    rfl

/-- C8 witness: a colon token at top level with the empty stack errors. -/
theorem c8_empty_stack_errors_witness :
    parseLoop 1 [colonTok] [] = .error .unexpectedPunct :=
  c8_empty_stack_errors.2.1 0 [] colonTok rfl

/-- C6 counterexample: the claim says a colon whose next token is a
*closing bracket* (which, in the specification's vocabulary, covers both
`}` and `]`) completes the pending key with `null`, so it predicts
`{"a":]` decodes to `{a: null}`; the code checks only `,` and `}` in the
lookahead, leaves the key pending, and the `]` then pops the object with
the key dropped, yielding the empty object. -/
theorem c6_colon_counterexample :
    decodeStr "\x7b\"a\":]" = .ok (.jobj [])
  ∧ JVal.jobj [] ≠ JVal.jobj [("a".toList, .jnull)] :=
  ⟨rfl, by simp⟩

/-- C6 (amended): a colon processed while the current object has a pending
key completes the key with `null` immediately exactly when the very next
token is a comma or a closing *brace* `}` (by token text, the source's
`nextToken.value` check), or the colon is the last token; with any other
next token — including a closing bracket `]` — the pending key is left in
place.  `{"name": "John", "age":` decodes to `{name: "John", age: null}`. -/
theorem c6_colon_null_completion :
    (∀ (fuel : Nat) (rest : List Token) (nt : Token)
        (fields : List (List Char × JVal)) (k : List Char) (l : Option PLink)
        (tl : List Frame),
        nt.value = [','] ∨ nt.value = ['}'] →
        parseLoop (fuel + 1) (colonTok :: nt :: rest)
            ({ cval := .obj fields, key := some k, link := l } :: tl) =
          parseLoop fuel (nt :: rest)
            ({ cval := .obj (objAssign k .jnull fields), key := none, link := l }
              :: tl))
  ∧ (∀ (fuel : Nat) (fields : List (List Char × JVal)) (k : List Char)
        (l : Option PLink) (tl : List Frame),
        parseLoop (fuel + 1) [colonTok]
            ({ cval := .obj fields, key := some k, link := l } :: tl) =
          parseLoop fuel []
            ({ cval := .obj (objAssign k .jnull fields), key := none, link := l }
              :: tl))
  ∧ (∀ (fuel : Nat) (rest : List Token) (nt : Token)
        (fields : List (List Char × JVal)) (k : List Char) (l : Option PLink)
        (tl : List Frame),
        nt.value ≠ [','] → nt.value ≠ ['}'] →
        parseLoop (fuel + 1) (colonTok :: nt :: rest)
            ({ cval := .obj fields, key := some k, link := l } :: tl) =
          parseLoop fuel (nt :: rest)
            ({ cval := .obj fields, key := some k, link := l } :: tl))
  ∧ decodeStr "\x7b\"name\": \"John\", \"age\":" =
      .ok (.jobj [("name".toList, .jstr "John".toList), ("age".toList, .jnull)]) := by
  refine ⟨?_, fun _ _ _ _ _ => rfl, ?_, rfl⟩
  · intro fuel rest nt fields k l tl h
    have hcf :
        colonFix (nt :: rest)
            ({ cval := .obj fields, key := some k, link := l } :: tl) =
          { cval := CVal.obj (objAssign k .jnull fields), key := none, link := l }
            :: tl := by
      rcases h with h | h <;> simp [colonFix, h, resolveKeyNull]
    calc parseLoop (fuel + 1) (colonTok :: nt :: rest)
          ({ cval := .obj fields, key := some k, link := l } :: tl)
        = parseLoop fuel (nt :: rest)
            (colonFix (nt :: rest)
              ({ cval := .obj fields, key := some k, link := l } :: tl)) := rfl
      _ = _ := by rw [hcf]
  · intro fuel rest nt fields k l tl h1 h2
    have hcf :
        colonFix (nt :: rest)
            ({ cval := .obj fields, key := some k, link := l } :: tl) =
          { cval := CVal.obj fields, key := some k, link := l } :: tl := by
      simp [colonFix, h1, h2]
    calc parseLoop (fuel + 1) (colonTok :: nt :: rest)
          ({ cval := .obj fields, key := some k, link := l } :: tl)
        = parseLoop fuel (nt :: rest)
            (colonFix (nt :: rest)
              ({ cval := .obj fields, key := some k, link := l } :: tl)) := rfl
      _ = _ := by rw [hcf]

/-- C6 witness: the amended colon repair applied at a concrete comma
lookahead. -/
theorem c6_colon_null_completion_witness :
    parseLoop 1 [colonTok, commaTok]
        [{ cval := .obj [], key := some "k".toList, link := none }] =
      parseLoop 0 [commaTok]
        [{ cval := .obj [("k".toList, .jnull)], key := none, link := none }] :=
  c6_colon_null_completion.1 0 [] commaTok [] "k".toList none [] (Or.inl rfl)

/-- C7: an IDENTIFIER token in value position decodes by lower-casing its
text (hence case-insensitively) and matching it against the four fixed
alias tables of `lib/constants.ts`: the result is `true` exactly on the
truthy set, `false` exactly on the falsy set, `null` exactly on the
null-like set, the `undefined` marker exactly on the undefined-like set,
and on no match it is an unquoted string equal to the identifier's own
text — `parseIdentifierValue` is total, so no identifier raises an
error. -/
theorem c7_identifier_aliases (t : Token) :
    (parseIdentifierValue t = .jbool true ↔ asciiLower t.value ∈ TRUE_ALIAS)
  ∧ (parseIdentifierValue t = .jbool false ↔ asciiLower t.value ∈ FALSE_ALIAS)
  ∧ (parseIdentifierValue t = .jnull ↔ asciiLower t.value ∈ NULL_ALIAS)
  ∧ (parseIdentifierValue t = .jundef ↔ asciiLower t.value ∈ UNDEFINED_ALIAS)
  ∧ (asciiLower t.value ∉ TRUE_ALIAS → asciiLower t.value ∉ FALSE_ALIAS →
      asciiLower t.value ∉ NULL_ALIAS → asciiLower t.value ∉ UNDEFINED_ALIAS →
      parseIdentifierValue t = .jstr t.value) := by
  have hd : ∀ (A B : List (List Char)), A ∩ B = [] →
      ∀ {s : List Char}, s ∈ A → s ∈ B → False := by
    intro A B hAB s hA hB
    have hm : s ∈ A ∩ B := List.mem_inter_iff.mpr ⟨hA, hB⟩
    rw [hAB] at hm
    exact List.not_mem_nil s hm
  by_cases h1 : asciiLower t.value ∈ TRUE_ALIAS
  · refine ⟨by simp [parseIdentifierValue, h1], ?_, ?_, ?_, ?_⟩ <;>
      simp only [parseIdentifierValue, if_pos h1]
    · exact ⟨(fun h => by cases h), fun h => absurd (hd _ _ (by decide) h1 h) id⟩
    · exact ⟨(fun h => by cases h), fun h => absurd (hd _ _ (by decide) h1 h) id⟩
    · exact ⟨(fun h => by cases h), fun h => absurd (hd _ _ (by decide) h1 h) id⟩
    · intro ht _ _ _; exact absurd h1 ht
  by_cases h2 : asciiLower t.value ∈ FALSE_ALIAS
  · refine ⟨?_, by simp [parseIdentifierValue, h1, h2], ?_, ?_, ?_⟩ <;>
      simp only [parseIdentifierValue, if_neg h1, if_pos h2]
    · exact ⟨(fun h => by cases h), fun h => absurd h1 (fun _ => by simp_all)⟩
    · exact ⟨(fun h => by cases h), fun h => absurd (hd _ _ (by decide) h2 h) id⟩
    · exact ⟨(fun h => by cases h), fun h => absurd (hd _ _ (by decide) h2 h) id⟩
    · intro _ hf _ _; exact absurd h2 hf
  by_cases h3 : asciiLower t.value ∈ NULL_ALIAS
  · refine ⟨?_, ?_, by simp [parseIdentifierValue, h1, h2, h3], ?_, ?_⟩ <;>
      simp only [parseIdentifierValue, if_neg h1, if_neg h2, if_pos h3]
    · exact ⟨(fun h => by cases h), fun h => absurd h h1⟩
    · exact ⟨(fun h => by cases h), fun h => absurd h h2⟩
    · exact ⟨(fun h => by cases h), fun h => absurd (hd _ _ (by decide) h3 h) id⟩
    · intro _ _ hn _; exact absurd h3 hn
  by_cases h4 : asciiLower t.value ∈ UNDEFINED_ALIAS
  · refine ⟨?_, ?_, ?_, by simp [parseIdentifierValue, h1, h2, h3, h4], ?_⟩ <;>
      simp only [parseIdentifierValue, if_neg h1, if_neg h2, if_neg h3, if_pos h4]
    · exact ⟨(fun h => by cases h), fun h => absurd h h1⟩
    · exact ⟨(fun h => by cases h), fun h => absurd h h2⟩
    · exact ⟨(fun h => by cases h), fun h => absurd h h3⟩
    · intro _ _ _ hu; exact absurd h4 hu
  · refine ⟨?_, ?_, ?_, ?_, fun _ _ _ _ => by
      simp [parseIdentifierValue, h1, h2, h3, h4]⟩ <;>
      simp only [parseIdentifierValue, if_neg h1, if_neg h2, if_neg h3, if_neg h4]
    · exact ⟨(fun h => by cases h), fun h => absurd h h1⟩
    · exact ⟨(fun h => by cases h), fun h => absurd h h2⟩
    · exact ⟨(fun h => by cases h), fun h => absurd h h3⟩
    · exact ⟨(fun h => by cases h), fun h => absurd h h4⟩

/-- C7 witness: the case-insensitive null alias at a concrete token. -/
theorem c7_identifier_aliases_witness :
    parseIdentifierValue { type := .ident, value := "NULL".toList } = .jnull :=
  (c7_identifier_aliases { type := .ident, value := "NULL".toList }).2.2.1.mpr
    (by decide)

/-- C9 counterexample: a hexadecimal NUMBER token with no digits (from the
input `[0x]`) does *not* make the decode fail — `parseInt('0x', 16)` yields
`NaN` and the decode succeeds with `[NaN]`, contradicting the claim that
such a token is rejected with an error. -/
theorem c9_invalid_number_counterexample :
    decodeStr "[0x]" = .ok (.jarr [.jnum .nan])
  ∧ ∀ e, decodeStr "[0x]" ≠ .error e := by
  refine ⟨rfl, fun e h => ?_⟩
  rw [show decodeStr "[0x]" = .ok (.jarr [.jnum .nan]) from rfl] at h
  exact Except.noConfusion h

/-- C9 (amended): leaf decoding never rejects a NUMBER token: decoding a
NUMBER token always succeeds with the (possibly `NaN`) number value —
`parseNumberValue` is total and has no error channel — and a hexadecimal
token with no digits (any sign) evaluates to `NaN`, which `decode` stores
as the value rather than raising an error. -/
theorem c9_number_leaf_total :
    (∀ (t : Token), t.type = .num →
        parseValueToken t = .ok (.jnum (parseNumberValue t)))
  ∧ (∀ (n p : Bool) (x : Char), x = 'x' ∨ x = 'X' →
        parseNumberValue { type := .num, value := ['0', x], radix := 16,
                           isNegative := n, isPositive := p } = .nan)
  ∧ decodeStr "[0x]" = .ok (.jarr [.jnum .nan]) := by
  refine ⟨?_, ?_, rfl⟩
  · rintro ⟨ty, v, r, n, p⟩ h
    cases h
    rfl
  · rintro n p x (rfl | rfl) <;> cases n <;> rfl

/-- C9 witness: the total number decode applied at the digitless hex
token. -/
theorem c9_number_leaf_total_witness :
    parseValueToken { type := .num, value := ['0', 'x'], radix := 16 } =
      .ok (.jnum (parseNumberValue
        { type := .num, value := ['0', 'x'], radix := 16 })) :=
  c9_number_leaf_total.1 { type := .num, value := ['0', 'x'], radix := 16 } rfl

/-- C10: assigning a value to a key already present in an object's ordered
mapping overwrites in place: with the key first present at the end of the
prefix `l₁`, the assignment rewrites exactly that entry (the key keeps the
position of its first insertion, every other entry is untouched, and no
entry is appended), and when the key occurs nowhere else the mapping has
exactly one entry for it both before and after.  Concretely,
`{"a":1,"a":2}` decodes to a single-entry `{a: 2}`. -/
theorem c10_duplicate_key_overwrite :
    (∀ (l₁ l₂ : List (List Char × JVal)) (k : List Char) (v₀ v : JVal),
        k ∉ l₁.map Prod.fst →
        objAssign k v (l₁ ++ (k, v₀) :: l₂) = l₁ ++ (k, v) :: l₂)
  ∧ (∀ (l₁ l₂ : List (List Char × JVal)) (k : List Char) (v₀ v : JVal),
        k ∉ l₁.map Prod.fst → k ∉ l₂.map Prod.fst →
        (l₁ ++ (k, v₀) :: l₂).countP (fun p => p.1 = k) = 1 ∧
        (objAssign k v (l₁ ++ (k, v₀) :: l₂)).countP (fun p => p.1 = k) = 1)
  ∧ decodeStr "\x7b\"a\":1,\"a\":2\x7d" =
      .ok (.jobj [("a".toList, .jnum (.val 2))]) := by
  have key : ∀ (l₁ l₂ : List (List Char × JVal)) (k : List Char) (v₀ v : JVal),
      k ∉ l₁.map Prod.fst →
      objAssign k v (l₁ ++ (k, v₀) :: l₂) = l₁ ++ (k, v) :: l₂ := by
    intro l₁ l₂ k v₀ v h
    induction l₁ with
    | nil => simp [objAssign]
    | cons hd tl ih =>
      obtain ⟨k', v'⟩ := hd
      simp only [List.map_cons, List.mem_cons, not_or] at h
      simp only [List.cons_append, objAssign,
        if_neg (fun hh : k' = k => h.1 hh.symm)]
      exact congrArg _ (ih h.2)
  have count0 : ∀ (l : List (List Char × JVal)) (k : List Char),
      k ∉ l.map Prod.fst → l.countP (fun p => p.1 = k) = 0 := by
    intro l k h
    rw [List.countP_eq_zero]
    intro p hp hk
    exact h (List.mem_map.mpr ⟨p, hp, by simpa using hk⟩)
  refine ⟨key, ?_, rfl⟩
  intro l₁ l₂ k v₀ v h1 h2
  constructor
  · rw [List.countP_append, List.countP_cons, count0 _ _ h1, count0 _ _ h2]
    simp
  · rw [key l₁ l₂ k v₀ v h1, List.countP_append, List.countP_cons,
      count0 _ _ h1, count0 _ _ h2]
    simp

/-- C10 witness: overwriting the only entry of a singleton mapping. -/
theorem c10_duplicate_key_overwrite_witness :
    objAssign "a".toList (.jnum (.val 2)) ([] ++ ("a".toList, .jnum (.val 1)) :: []) =
      [] ++ ("a".toList, .jnum (.val 2)) :: [] :=
  c10_duplicate_key_overwrite.1 [] [] "a".toList (.jnum (.val 1)) (.jnum (.val 2))
    (by simp)

set_option maxHeartbeats 1000000 in
/-- C3: for every string scan that reaches a raw newline or carriage return
(an arbitrary mid-scan state: any already-scanned content `seen`, any
remaining input `cur`), if the scanned content ends with a backslash, a
quote character, and an optional trailing comma or colon (the lookbehind
regex, modelled by `matchEscSuffix seen = some k`), the scan terminates the
string token before the backslash: the token keeps exactly the content
before the matched suffix, the discarded suffix (backslash, quote, optional
separator) is left in `remaining` ahead of the newline, the rest of the
input `cur` is not consumed as string content, and `skippedBadEscape` is
set; `badEscapeSkip` then drops the two-character escape plus the optional
trailing `,`/`:`, resuming at the newline.  Moreover, for every scan that
sets `skippedBadEscape`, one tokenizer loop step emits the truncated token
and continues at `badEscapeSkip` of the remaining input.  Concretely, an
array of strings whose first string contains an erroneously escaped quote
followed by a raw newline and a comma decodes with that string truncated
before the bad escape. -/
theorem c3_bad_escape_recovery :
    (∀ (q nl : Char) (seen cur : List Char) (k : Nat),
      q = '"' ∨ q = '\'' → nl = '\n' ∨ nl = '\r' →
      matchEscSuffix seen = some k →
      ∃ (q' : Char) (sep : List Char),
        (q' = '"' ∨ q' = '\'') ∧ (sep = [] ∨ sep = [','] ∨ sep = [':']) ∧
        (seen.take k).reverse = '\\' :: q' :: sep ∧
        stringScan q seen (nl :: cur) =
          { tokenValue := q :: (seen.drop k).reverse ++ [q],
            remaining := '\\' :: q' :: (sep ++ nl :: cur),
            skippedBadEscape := true } ∧
        badEscapeSkip ('\\' :: q' :: (sep ++ nl :: cur)) = nl :: cur)
  ∧ (∀ (fuel : Nat) (q : Char) (cs : List Char) (r : StrScanResult),
      q = '"' ∨ q = '\'' → stringScan q [] cs = r → r.skippedBadEscape = true →
      tokenizeLoop (fuel + 1) (q :: cs) =
        mkStringToken q r.tokenValue :: tokenizeLoop fuel (badEscapeSkip r.remaining))
  ∧ decodeStr "[\"ab\\\"\n, \"cd\"]" =
      .ok (.jarr [.jstr "ab".toList, .jstr "cd".toList]) := by
  refine ⟨?_, ?_, rfl⟩
  · intro q nl seen cur k hq hnl hm
    have hscan : stringScan q seen (nl :: cur) =
        { tokenValue := q :: (seen.drop k).reverse ++ [q],
          remaining := (seen.take k).reverse ++ nl :: cur,
          skippedBadEscape := true } := by
      have h1 : ¬ nl = q := by
        rcases hq with rfl | rfl <;> rcases hnl with rfl | rfl <;> decide
      have h2 : ¬ nl = '\\' := by rcases hnl with rfl | rfl <;> decide
      have h3 : (nl = '\n' || nl = '\r') = true := by
        rcases hnl with rfl | rfl <;> decide
      rw [stringScan_cons, if_neg h1, if_neg h2, if_pos h3, hm]
    have hquote : ∀ s : Char, isQuoteChar s = true → s = '"' ∨ s = '\'' := by
      intro s hs
      rcases Bool.or_eq_true _ _ |>.mp hs with h | h <;>
        rw [decide_eq_true_iff] at h
      · exact Or.inl h
      · exact Or.inr h
    have hsepc : ∀ s : Char, isSepChar s = true → s = ',' ∨ s = ':' := by
      intro s hs
      rcases Bool.or_eq_true _ _ |>.mp hs with h | h <;>
        rw [decide_eq_true_iff] at h
      · exact Or.inl h
      · exact Or.inr h
    have hbskip : ∀ (q' : Char) (sep : List Char),
        (q' = '"' ∨ q' = '\'') → (sep = [] ∨ sep = [','] ∨ sep = [':']) →
        badEscapeSkip ('\\' :: q' :: (sep ++ nl :: cur)) = nl :: cur := by
      intro q' sep hq' hsep
      rcases hq' with rfl | rfl <;> rcases hsep with rfl | rfl | rfl <;>
        rcases hnl with rfl | rfl <;> rfl
    rw [matchEscSuffix.eq_def] at hm
    split at hm
    · rename_i s1 s2 s3 rest4
      by_cases hb3 : (isSepChar s1 && isQuoteChar s2 && decide (s3 = '\\')) = true
      · rw [if_pos hb3] at hm
        injection hm with hk
        obtain ⟨hb12, hb3'⟩ := Bool.and_eq_true _ _ |>.mp hb3
        obtain ⟨hs1, hs2⟩ := Bool.and_eq_true _ _ |>.mp hb12
        rw [decide_eq_true_iff] at hb3'
        subst hb3'
        have hsepd : ([s1] : List Char) = [] ∨ ([s1] : List Char) = [','] ∨
            ([s1] : List Char) = [':'] := by
          rcases hsepc s1 hs1 with rfl | rfl
          · exact Or.inr (Or.inl rfl)
          · exact Or.inr (Or.inr rfl)
        refine ⟨s2, [s1], hquote s2 hs2, hsepd, ?_, ?_, ?_⟩
        · rw [← hk]; rfl
        · rw [hscan, ← hk]; rfl
        · exact hbskip s2 [s1] (hquote s2 hs2) hsepd
      · rw [if_neg hb3] at hm
        by_cases hb2 : (isQuoteChar s1 && decide (s2 = '\\')) = true
        · rw [if_pos hb2] at hm
          injection hm with hk
          obtain ⟨hs1, hs2⟩ := Bool.and_eq_true _ _ |>.mp hb2
          rw [decide_eq_true_iff] at hs2
          subst hs2
          refine ⟨s1, [], hquote s1 hs1, Or.inl rfl, ?_, ?_, ?_⟩
          · rw [← hk]; rfl
          · rw [hscan, ← hk]; rfl
          · exact hbskip s1 [] (hquote s1 hs1) (Or.inl rfl)
        · rw [if_neg hb2] at hm
          cases hm
    · rename_i s1 s2
      by_cases hb2 : (isQuoteChar s1 && decide (s2 = '\\')) = true
      · rw [if_pos hb2] at hm
        injection hm with hk
        obtain ⟨hs1, hs2⟩ := Bool.and_eq_true _ _ |>.mp hb2
        rw [decide_eq_true_iff] at hs2
        subst hs2
        refine ⟨s1, [], hquote s1 hs1, Or.inl rfl, ?_, ?_, ?_⟩
        · rw [← hk]; rfl
        · rw [hscan, ← hk]; rfl
        · exact hbskip s1 [] (hquote s1 hs1) (Or.inl rfl)
      · rw [if_neg hb2] at hm
        cases hm
    · cases hm
  · intro fuel q cs r hq hr hflag
    rcases hq with rfl | rfl
    · rw [tokenizeLoop_succ_cons, if_neg (by decide),
        if_neg (fun hc => absurd (Bool.and_eq_true _ _ |>.mp hc).1 (by decide)),
        if_neg (fun hc => absurd (Bool.and_eq_true _ _ |>.mp hc).1 (by decide)),
        if_pos (by decide)]
      show mkStringToken '"' (stringScan '"' [] cs).tokenValue ::
          tokenizeLoop fuel
            (if (stringScan '"' [] cs).skippedBadEscape then
              badEscapeSkip (stringScan '"' [] cs).remaining
            else (stringScan '"' [] cs).remaining) = _
      rw [hr, hflag]
      rfl
    · rw [tokenizeLoop_succ_cons, if_neg (by decide),
        if_neg (fun hc => absurd (Bool.and_eq_true _ _ |>.mp hc).1 (by decide)),
        if_neg (fun hc => absurd (Bool.and_eq_true _ _ |>.mp hc).1 (by decide)),
        if_pos (by decide)]
      show mkStringToken '\'' (stringScan '\'' [] cs).tokenValue ::
          tokenizeLoop fuel
            (if (stringScan '\'' [] cs).skippedBadEscape then
              badEscapeSkip (stringScan '\'' [] cs).remaining
            else (stringScan '\'' [] cs).remaining) = _
      rw [hr, hflag]
      rfl

/-- C3 witness: the recovery at the concrete mid-scan state reached inside
the literal `"ab\"` before a raw newline: scanned content `ab\"` (held in
reverse), lookbehind match of length 2, truncation before the backslash,
and resumption at the newline after the caller-side skip. -/
theorem c3_bad_escape_recovery_witness :
    ∃ (q' : Char) (sep : List Char),
      (q' = '"' ∨ q' = '\'') ∧ (sep = [] ∨ sep = [','] ∨ sep = [':']) ∧
      ((['"', '\\', 'b', 'a'].take 2).reverse : List Char) = '\\' :: q' :: sep ∧
      stringScan '"' ['"', '\\', 'b', 'a'] ('\n' :: [',', ' ']) =
        { tokenValue := '"' :: (['"', '\\', 'b', 'a'].drop 2).reverse ++ ['"'],
          remaining := '\\' :: q' :: (sep ++ '\n' :: [',', ' ']),
          skippedBadEscape := true } ∧
      badEscapeSkip ('\\' :: q' :: (sep ++ '\n' :: [',', ' '])) = '\n' :: [',', ' '] :=
  c3_bad_escape_recovery.1 '"' '\n' ['"', '\\', 'b', 'a'] [',', ' '] 2
    (Or.inl rfl) (Or.inl rfl) rfl

/-- C1: every input that the strict JSON decoder accepts (one RFC 8259
value, then nothing but JSON whitespace) is decoded by the pipeline
(`tokenize` followed by the token parser) to the same value — the same
object key insertion order (`objAssign` on ordered field lists) and equal
numeric values (exact rationals).  Concretely, a mixed object of an array,
booleans, `null` and strings decodes identically on both sides (see the
witness). -/
theorem c1_strict_json_refinement (cs : List Char) (v : JVal)
    (h : strictDecode cs = some v) : decode cs = .ok v := by
  rw [strictDecode] at h
  split at h
  · rename_i v' rest hrun
    split at h
    · rename_i hws
      injection h with hv
      rw [← hv]
      obtain ⟨cons, ts, hdec, htk, hjs⟩ :=
        sjRun_sound (2 * cs.length + 1) .value cs v' rest hrun
      have hvs : ValSim ts v' := hjs
      have hws' : ∀ c ∈ rest, sjWsChar c = true := by
        intro c hc
        exact List.all_eq_true.mp hws c hc
      have hbnd : sjBoundary rest = true := by
        cases rest with
        | nil => rfl
        | cons c tl =>
          show (sjWsChar c || _ || _ || _) = true
          rw [hws' c (List.mem_cons_self c tl)]
          rfl
      have htokrest : tokenize rest = [] := by
        have h0 := tkU_ws rest hws' []
        rw [List.append_nil] at h0
        exact h0
      rw [decode, hdec, htk rest hbnd, htokrest, List.append_nil,
        parseTokens_eq_parseRun]
      have h1 := hvs.2.2 []
      rw [List.append_nil] at h1
      exact h1
    · cases h
  · cases h

/-- C1 witness: both decoders at a concrete strict-JSON input holding an
object, an array, booleans, null and strings. -/
theorem c1_strict_json_refinement_witness :
    strictDecode "\x7b\"a\":[true,null],\"b\":\"x\"\x7d".toList =
        some (.jobj [("a".toList, .jarr [.jbool true, .jnull]),
          ("b".toList, .jstr "x".toList)]) ∧
      decode "\x7b\"a\":[true,null],\"b\":\"x\"\x7d".toList =
        .ok (.jobj [("a".toList, .jarr [.jbool true, .jnull]),
          ("b".toList, .jstr "x".toList)]) :=
  ⟨rfl, c1_strict_json_refinement _ _ rfl⟩

end Jaison
